import Mathlib

/-!
Verification of the air-traveler flight-network engine.

This file gives a shallow embedding of the graph engine of the repository
(`Graph.h`, `Consult.cpp`, `ParseData.cpp`, `Utilities.h`, `Script.cpp`) and
proves properties of the embedded code.

Modelling conventions:
* C++ `Vertex<T>*` pointers are represented by indices (`ℕ`) into the
  `vertexSet` list; a null pointer is `Option.none` where it can occur.
* `double` weights are represented by `ℚ` (no floating-point rounding is
  modelled; none of the verified properties depends on rounding).
* `int` values are represented by `ℤ`; where the source compares against
  `numeric_limits<int>::max()` we use the literal 2147483647 and, in theorems
  quantifying over all graphs, a size hypothesis keeping every value that the
  source stores in an `int` inside the representable range.
* `std::set<Airline>` is ordered and deduplicated by the airline `code`
  (`Airline::operator<` and `operator==` compare only `code`), so an edge's
  airline set is embedded as a `Finset String` of airline codes.
* Loops whose C++ termination argument is "each vertex is marked visited at
  most once" are embedded with an explicit fuel argument; the public wrappers
  pass `size + 1` fuel, which dominates the real recursion depth, and every
  theorem about a loop carries the corresponding measure hypothesis.
-/
/-- Replace the element at position `i` by `f` applied to it; out-of-range
indices leave the list unchanged (a C++ pointer update can only hit a live
element, so the junk case is never exercised by well-formed graphs). -/
def updateAt {β : Type} (f : β → β) : List β → ℕ → List β
  | [], _ => []
  | x :: xs, 0 => f x :: xs
  | x :: xs, n + 1 => x :: updateAt f xs n

/-- `Airport` (Data.h).  `operator==` compares only the `code` field, and the
graph looks nodes up through that comparison, so two `Airport` values are
interchangeable for the engine iff their codes agree; the embedding therefore
keeps the payload abstract in the graph definitions (the C++ `Graph<T>`
template parameter) and instantiates it where a concrete payload is needed.
Coordinates are embedded as rationals. -/
structure Airport where
  code : String
  name : String
  city : String
  country : String
  latitude : ℚ
  longitude : ℚ
deriving DecidableEq, Repr

/-- `Edge<T>` (Graph.h): destination vertex (a pointer, embedded as an index
into the vertex set), `double distance`, and `std::set<Airline> airlines`
(keyed by airline code). -/
structure Edge where
  dest : ℕ
  distance : ℚ
  airlines : Finset String
deriving DecidableEq

/-- `Vertex<T>` (Graph.h): payload `info`, adjacency list `adj`, the transient
traversal fields `visited`/`processing`/`num`/`low`, and the persistent
counters `inDegree`/`outDegree`/`flightsTo`/`flightsFrom`. -/
structure Vertex (α : Type) where
  info : α
  adj : List Edge
  visited : Bool
  processing : Bool
  inDegree : ℤ
  outDegree : ℤ
  num : ℤ
  low : ℤ
  flightsTo : ℤ
  flightsFrom : ℤ
deriving DecidableEq

/-- `new Vertex<T>(in)` — the C++ constructor initialises `info` (and the
in-class initialisers set `flightsTo = flightsFrom = 0`); the remaining fields
are set before any read by every algorithm, so the embedding gives them
definite default values. -/
def newVertex {α : Type} (a : α) : Vertex α :=
  ⟨a, [], false, false, 0, 0, 0, 0, 0, 0⟩

/-- `Graph<T>` (Graph.h): the collection of vertices. -/
structure Graph (α : Type) where
  vertexSet : List (Vertex α)
deriving DecidableEq

def Graph.size {α : Type} (g : Graph α) : ℕ := g.vertexSet.length

def Graph.getVtx {α : Type} (g : Graph α) (i : ℕ) : Option (Vertex α) :=
  g.vertexSet[i]?

/-- Adjacency list of the vertex behind index `i` (empty for a dangling
index, which cannot arise from a well-formed graph). -/
def Graph.adjOf {α : Type} (g : Graph α) (i : ℕ) : List Edge :=
  ((g.getVtx i).map (fun v => v.adj)).getD []

/-- Payload of the vertex behind index `i`. -/
def Graph.infoAt {α : Type} (g : Graph α) (i : ℕ) : Option α :=
  (g.getVtx i).map (fun v => v.info)

/-- `isVisited` of the vertex behind index `i`.  A dangling index reads as
`true`: the C++ code can only ever dereference live vertices, and this junk
value guarantees that no algorithm ever enqueues or recurses into a
nonexistent vertex. -/
def Graph.visitedAt {α : Type} (g : Graph α) (i : ℕ) : Bool :=
  ((g.getVtx i).map (fun v => v.visited)).getD true

def Graph.processingAt {α : Type} (g : Graph α) (i : ℕ) : Bool :=
  ((g.getVtx i).map (fun v => v.processing)).getD false

def Graph.numAt {α : Type} (g : Graph α) (i : ℕ) : ℤ :=
  ((g.getVtx i).map (fun v => v.num)).getD 0

def Graph.lowAt {α : Type} (g : Graph α) (i : ℕ) : ℤ :=
  ((g.getVtx i).map (fun v => v.low)).getD 0

/-- Apply a field update to the vertex behind index `i` (a C++ setter call
through a vertex pointer). -/
def Graph.updVtx {α : Type} (g : Graph α) (i : ℕ) (f : Vertex α → Vertex α) : Graph α :=
  ⟨updateAt f g.vertexSet i⟩

/-- `v->setVisited(b)`. -/
def Graph.setVisited {α : Type} (g : Graph α) (i : ℕ) (b : Bool) : Graph α :=
  g.updVtx i (fun v => { v with visited := b })

/-- `for (auto v : vertexSet) v->setVisited(false);` — the reset loop that
every traversal-based query runs at entry. -/
def Graph.resetVisited {α : Type} (g : Graph α) : Graph α :=
  ⟨g.vertexSet.map (fun v => { v with visited := false })⟩

/-- Number of vertices whose `visited` flag is `false` (the termination
measure of every traversal: each loop iteration either dequeues or marks). -/
def Graph.unvisitedCount {α : Type} (g : Graph α) : ℕ :=
  (g.vertexSet.filter (fun v => !v.visited)).length

/-- The persistent part of the Graph Store: payloads, edges, degree and
flight counters — everything except the transient traversal fields
(`visited`, `processing`, `num`, `low`). -/
def Graph.core {α : Type} (g : Graph α) : List (α × List Edge × ℤ × ℤ × ℤ × ℤ) :=
  g.vertexSet.map (fun v => (v.info, v.adj, v.inDegree, v.outDegree, v.flightsTo, v.flightsFrom))

/-- Well-formedness: every stored edge points at a live vertex (in C++ this
is automatic, `dest` being a `Vertex<T>*` into the vertex set). -/
def Graph.WF {α : Type} (g : Graph α) : Prop :=
  ∀ v ∈ g.vertexSet, ∀ e ∈ v.adj, e.dest < g.size

instance {α : Type} (g : Graph α) : Decidable g.WF := by
  unfold Graph.WF; infer_instance

/-- There is an edge from vertex `u` to vertex `w`. -/
def Graph.hasEdge {α : Type} (g : Graph α) (u w : ℕ) : Prop :=
  ∃ e ∈ g.adjOf u, e.dest = w

instance {α : Type} (g : Graph α) (u w : ℕ) : Decidable (g.hasEdge u w) := by
  unfold Graph.hasEdge; infer_instance

/-- `p` is a directed path (consecutive vertices joined by edges). -/
def Graph.IsPath {α : Type} (g : Graph α) (p : List ℕ) : Prop :=
  p.Chain' g.hasEdge

/-- Index-returning version of `Graph<T>::findVertex` (Graph.h, lines
582-589): linear scan, first vertex whose `info` compares equal (`==`) to
the argument; `none` models the returned null pointer. -/
def findIdxAux {α : Type} [DecidableEq α] (x : α) : List (Vertex α) → Option ℕ
  | [] => none
  | v :: vs => if v.info = x then some 0 else (findIdxAux x vs).map (fun n => n + 1)

def Graph.findVertexIdx {α : Type} [DecidableEq α] (g : Graph α) (x : α) : Option ℕ :=
  findIdxAux x g.vertexSet

/-- `Graph<T>::addVertex` (Graph.h): fails when a vertex with an equal
payload already exists, otherwise appends `new Vertex<T>(in)`. -/
def Graph.addVertex {α : Type} [DecidableEq α] (g : Graph α) (x : α) : Bool × Graph α :=
  match g.findVertexIdx x with
  | some _ => (false, g)
  | none => (true, ⟨g.vertexSet ++ [newVertex x]⟩)

/-- `Vertex<T>::addEdge` (Graph.h, lines 629-632): unconditionally appends a
new edge to the adjacency list — there is no check for an existing edge to
the same destination. -/
def Vertex.addEdge {α : Type} (v : Vertex α) (d : ℕ) (distance : ℚ) : Vertex α :=
  { v with adj := v.adj ++ [⟨d, distance, ∅⟩] }

/-- `Graph<T>::addEdge` (Graph.h, lines 619-627): look both endpoints up by
payload, fail if either is missing, otherwise `v1->addEdge(v2, distance)`. -/
def Graph.addEdge {α : Type} [DecidableEq α] (g : Graph α) (source dest : α) (distance : ℚ) :
    Bool × Graph α :=
  match g.findVertexIdx source, g.findVertexIdx dest with
  | some i, some j => (true, g.updVtx i (fun v => v.addEdge j distance))
  | _, _ => (false, g)

/-- `Edge<T>::addAirline` (Graph.h): insert into the `std::set<Airline>`
(deduplicated by airline code). -/
def Edge.addAirline (e : Edge) (code : String) : Edge :=
  { e with airlines := insert code e.airlines }

mutual
/-- `Graph<T>::dfsVisit` (Graph.h, lines 681-690): mark `v` visited, record
its payload, then walk the adjacency list; embedded with fuel (the C++
recursion depth is bounded by the number of unvisited vertices, each visit
marking one, so the `size + 1` fuel passed by `Graph.dfs` never runs out). -/
def dfsVisit {α : Type} (g : Graph α) (res : List α) (v : ℕ) : ℕ → Graph α × List α
  | 0 => (g, res)
  | fuel + 1 =>
    let g1 := g.setVisited v true
    let res1 := res ++ ((g.infoAt v).elim [] (fun a => [a]))
    dfsVisitEdges g1 res1 (g1.adjOf v) fuel
/-- The `for (auto &e : v->adj)` loop inside `dfsVisit`. -/
def dfsVisitEdges {α : Type} (g : Graph α) (res : List α) : List Edge → ℕ → Graph α × List α
  | [], _ => (g, res)
  | e :: es, fuel =>
    if g.visitedAt e.dest then dfsVisitEdges g res es fuel
    else
      let gr := dfsVisit g res e.dest fuel
      dfsVisitEdges gr.1 gr.2 es fuel
end

/-- `Graph<T>::dfs(const T &source)` (Graph.h, lines 692-704): returns the
empty vector when `findVertex` yields a null pointer; otherwise resets every
visited flag and runs `dfsVisit` from the found vertex. -/
def Graph.dfs {α : Type} [DecidableEq α] (g : Graph α) (source : α) : List α :=
  match g.findVertexIdx source with
  | none => []
  | some s =>
    let g0 := g.resetVisited
    (dfsVisit g0 [] s (g0.size + 1)).2

/-- `mergeVectors` (Utilities.h, lines 89-104): returns the empty vector
when either input is empty or when the last element of `first` differs from
the first element of `second`; otherwise returns `first` followed by
`second` from its second element on. -/
def mergeVectors {β : Type} [DecidableEq β] : List β → List β → List β
  | [], _ => []
  | _ :: _, [] => []
  | a :: as, b :: bs => if (a :: as).getLast (List.cons_ne_nil a as) = b then a :: as ++ bs else []

/-- `Consult::getDistanceBetweenAirports` (Consult.cpp, lines 497-506): scan
the source vertex's adjacency list for the first edge whose destination has
a payload equal (`==`) to the target's payload; return its distance, or the
initial value `0` when no such edge exists. -/
def Consult.getDistanceBetweenAirports {α : Type} [DecidableEq α] (g : Graph α)
    (source target : ℕ) : ℚ :=
  match (g.adjOf source).find? (fun e => g.infoAt e.dest == g.infoAt target) with
  | some e => e.distance
  | none => 0

/-! ### Independent breadth-first hop distance

The specification asks for the shortest-path query's result length to be
checked against "the breadth-first hop distance computed independently by
BFS".  We compute it here by iterating breadth-first level sets
(`reachSet g bad src k` = vertices reachable from `src` within `k` edge
steps while never stepping onto a vertex of `bad`) and taking the least
level containing the target.  `bad = ∅` gives the plain hop distance; the
correctness proof of the path search also uses `bad = {target}`. -/
def reachStep {α : Type} (g : Graph α) (bad : Finset ℕ) (S : Finset ℕ) : Finset ℕ :=
  S ∪ S.biUnion (fun v => ((g.adjOf v).map (fun e => e.dest)).toFinset \ bad)

def reachSet {α : Type} (g : Graph α) (bad : Finset ℕ) (src : ℕ) : ℕ → Finset ℕ
  | 0 => {src}
  | k + 1 => reachStep g bad (reachSet g bad src k)

/-- Linear scan for the least index at which `p` holds, starting at `i`,
trying `m` indices. -/
def leastAux (p : ℕ → Bool) : ℕ → ℕ → Option ℕ
  | 0, _ => none
  | m + 1, i => if p i then some i else leastAux p m (i + 1)

/-- The breadth-first hop distance from `src` to `tgt` avoiding the vertices
in `bad`: the least level of the breadth-first level iteration that contains
`tgt` (`none` when `tgt` is unreachable).  Levels stabilise after `size`
steps, so scanning `size + 1` levels decides reachability. -/
def bfsDist {α : Type} (g : Graph α) (bad : Finset ℕ) (src tgt : ℕ) : Option ℕ :=
  leastAux (fun k => decide (tgt ∈ reachSet g bad src k)) (g.size + 1) 0

/-- `Option ℕ` distances embedded into `ℕ∞` (`none` = unreachable = `⊤`). -/
def toENat : Option ℕ → ℕ∞
  | none => ⊤
  | some k => (k : ℕ∞)

/-! ### `Consult::searchSmallestPathBetweenAirports` (Consult.cpp, lines 368-407)

The C++ loop pops `current = (path, vertex)` off a FIFO queue and iterates
over the popped vertex's adjacency list.  An edge to `target` appends the
neighbour to `current.first` **in place** (`current.first.emplace_back`), so
later edges of the same vertex observe the grown path; a non-target,
unvisited neighbour is marked and enqueued with a copy of the current path
extended by the neighbour.  `smallestSize` starts at
`numeric_limits<int>::max()` and result paths are kept exactly while their
length is minimal so far.  The scan of one adjacency list is `spScan`; the
queue loop is `spLoop` (fuel-indexed: each iteration pops one entry and
marks every vertex it enqueues, so `unvisitedCount + queue length` drops by
exactly one per iteration and the fuel passed by the wrapper never runs
out). -/
structure SPState (α : Type) where
  g : Graph α
  res : List (List ℕ)
  smallest : ℕ

/-- The body of the `if (neighbor == target)` branch: compare the grown
path's length against `smallestSize` and update `smallestPaths`
accordingly. -/
def spHit {α : Type} (s : SPState α) (cur' : List ℕ) : SPState α :=
  if cur'.length < s.smallest then { s with res := [cur'], smallest := cur'.length }
  else if cur'.length = s.smallest then { s with res := s.res ++ [cur'] }
  else s

def spScan {α : Type} (target : ℕ) :
    SPState α → List ℕ → List (List ℕ × ℕ) → List Edge →
      SPState α × List ℕ × List (List ℕ × ℕ)
  | s, cur, news, [] => (s, cur, news)
  | s, cur, news, e :: es =>
    if e.dest = target then
      spScan target (spHit s (cur ++ [e.dest])) (cur ++ [e.dest]) news es
    else if s.g.visitedAt e.dest then
      spScan target s cur news es
    else
      spScan target { s with g := s.g.setVisited e.dest true } cur
        (news ++ [(cur ++ [e.dest], e.dest)]) es

def spLoop {α : Type} (target : ℕ) : ℕ → SPState α → List (List ℕ × ℕ) → SPState α
  | 0, s, _ => s
  | _ + 1, s, [] => s
  | fuel + 1, s, (p, v) :: q' =>
    let r := spScan target s p [] (s.g.adjOf v)
    spLoop target fuel r.1 (q' ++ r.2.2)

def Consult.searchSmallestPathBetweenAirports {α : Type} (g : Graph α)
    (source target : ℕ) : List (List ℕ) × Graph α :=
  let g0 := g.resetVisited
  let g1 := g0.setVisited source true
  let s := spLoop target (g1.size + 1) ⟨g1, [], 2147483647⟩ [([source], source)]
  (s.res, s.g)

/-- Restricted hop distance used by the correctness proof of the path
search: distance from `A` in the graph with the target `B` removed (the
search never walks through `B`, because an edge into the target is never
enqueued). -/
def drE {α : Type} (g0 : Graph α) (A B w : ℕ) : ℕ∞ :=
  toENat (bfsDist g0 ({B} : Finset ℕ) A w)

/-- Plain hop distance from `A` to `B` as an extended natural. -/
def distE {α : Type} (g0 : Graph α) (A B : ℕ) : ℕ∞ :=
  toENat (bfsDist g0 (∅ : Finset ℕ) A B)

/-- A queue entry carrying an intact breadth-first path: a real directed
path from `A`, avoiding `B`, of length exactly one more than the restricted
hop distance of its endpoint. -/
def SPGood {α : Type} (g0 : Graph α) (A B : ℕ) (pv : List ℕ × ℕ) : Prop :=
  g0.IsPath pv.1 ∧ B ∉ pv.1 ∧ (pv.1.length : ℕ∞) = drE g0 A B pv.2 + 1

/-- A queue entry whose path was corrupted by the in-place
`current.first.emplace_back(neighbor)` of an earlier target hit: its length
exceeds the current `smallestSize` by enough that no candidate built from it
is ever accepted, and its endpoint lies at or beyond the target's distance. -/
def SPBad {α : Type} (g0 : Graph α) (A B : ℕ) (sm : ℕ) (pv : List ℕ × ℕ) : Prop :=
  sm + 1 ≤ pv.1.length ∧ distE g0 A B ≤ drE g0 A B pv.2

/-- Mid-scan invariant for `spScan`: relates the running scan state to the
state `s0` at the start of the loop iteration that dequeued `(p, v)`. -/
structure ScanMid {α : Type} (g0 : Graph α) (A B : ℕ) (s0 : SPState α) (p : List ℕ)
    (v : ℕ) (s : SPState α) (cur : List ℕ) (news : List (List ℕ × ℕ)) : Prop where
  hadj : ∀ j, s.g.adjOf j = g0.adjOf j
  hsize : s.g.size = g0.size
  hvmono : ∀ w, s0.g.visitedAt w = true → s.g.visitedAt w = true
  hvnew : ∀ w, s.g.visitedAt w = true → s0.g.visitedAt w = true ∨ ∃ pp, (pp, w) ∈ news
  hnews : ∀ pv ∈ news, pv.2 < g0.size ∧ pv.2 ≠ B ∧ s.g.visitedAt pv.2 = true ∧
    s0.g.visitedAt pv.2 = false ∧ pv.1 ≠ [] ∧ pv.1.head? = some A ∧
    pv.1.getLast? = some pv.2 ∧ drE g0 A B pv.2 = drE g0 A B v + 1 ∧
    (SPGood g0 A B pv ∨ SPBad g0 A B s.smallest pv)
  hnd : (news.map (fun pv => pv.2)).Nodup
  hphase : ∃ j, cur = p ++ List.replicate j B ∧
    (1 ≤ j → s.smallest ≤ p.length + 1 ∧ distE g0 A B ≤ drE g0 A B v + 1)
  hsmono : s.smallest ≤ s0.smallest
  hsm : s.smallest ≤ 2147483647
  hsm1 : s.smallest < 2147483647 → distE g0 A B + 1 ≤ (s.smallest : ℕ∞)
  hres : ∀ r ∈ s.res, r.head? = some A ∧ r.getLast? = some B ∧ r.length = s.smallest
  hres2 : s.res ≠ [] → s.smallest < 2147483647

/-- The loop invariant of the shortest-path search. -/
structure SPInv {α : Type} (g0 : Graph α) (A B : ℕ) (s : SPState α)
    (q : List (List ℕ × ℕ)) : Prop where
  hadj : ∀ j, s.g.adjOf j = g0.adjOf j
  hsize : s.g.size = g0.size
  hA9 : s.g.visitedAt A = true
  hvb : ∀ w, w < g0.size → s.g.visitedAt w = true → w ≠ B ∧ drE g0 A B w ≠ ⊤
  hq1 : ∀ pv ∈ q, pv.2 < g0.size ∧ pv.2 ≠ B ∧ s.g.visitedAt pv.2 = true ∧
    pv.1 ≠ [] ∧ pv.1.head? = some A ∧ pv.1.getLast? = some pv.2
  hgb : ∀ pv ∈ q, SPGood g0 A B pv ∨ SPBad g0 A B s.smallest pv
  hsorted : (q.map (fun pv => drE g0 A B pv.2)).Sorted (fun a b => a ≤ b)
  hspread : ∀ pv ∈ q, ∀ pv0 ∈ q.head?, drE g0 A B pv.2 ≤ drE g0 A B pv0.2 + 1
  hI8 : ∀ pv0 ∈ q.head?, ∀ w, drE g0 A B w ≤ drE g0 A B pv0.2 → s.g.visitedAt w = true
  hI9 : ∀ x, x < g0.size → s.g.visitedAt x = true → (∀ pv ∈ q, pv.2 ≠ x) →
    ∀ e ∈ g0.adjOf x, e.dest ≠ B → s.g.visitedAt e.dest = true
  hnodup : (q.map (fun pv => pv.2)).Nodup
  hsm : s.smallest ≤ 2147483647
  hsm1 : s.smallest < 2147483647 → distE g0 A B + 1 ≤ (s.smallest : ℕ∞)
  hres : ∀ r ∈ s.res, r.head? = some A ∧ r.getLast? = some B ∧ r.length = s.smallest
  hres2 : s.res ≠ [] → s.smallest < 2147483647
  hI10 : distE g0 A B = ⊤ ∨ (s.smallest : ℕ∞) ≤ distE g0 A B + 1 ∨
    ∃ u, u < g0.size ∧ u ≠ B ∧ (∃ e ∈ g0.adjOf u, e.dest = B) ∧
      drE g0 A B u + 1 = distE g0 A B ∧
      (s.g.visitedAt u = false ∨ ∃ pp, (pp, u) ∈ q ∧ SPGood g0 A B (pp, u))

/-- A directed two-cycle `0 → 1 → 0`, used to exercise the shortest-path
search with coinciding endpoints. -/
def twoCycleGraph : Graph ℕ :=
  ⟨[⟨0, [⟨1, 0, ∅⟩], false, false, 0, 0, 0, 0, 0, 0⟩,
    ⟨1, [⟨0, 0, ∅⟩], false, false, 0, 0, 0, 0, 0, 0⟩]⟩

/-- A diamond `0 → 1 → 3`, `0 → 2 → 3`: two distinct shortest paths of
breadth-first distance 2. -/
def diamondGraph : Graph ℕ :=
  ⟨[⟨0, [⟨1, 0, ∅⟩, ⟨2, 0, ∅⟩], false, false, 0, 0, 0, 0, 0, 0⟩,
    ⟨1, [⟨3, 0, ∅⟩], false, false, 0, 0, 0, 0, 0, 0⟩,
    ⟨2, [⟨3, 0, ∅⟩], false, false, 0, 0, 0, 0, 0, 0⟩,
    ⟨3, [], false, false, 0, 0, 0, 0, 0, 0⟩]⟩

/-! ### `Consult::searchNumberOfReachableDestinationsInXStopsFromAirport`
(Consult.cpp, lines 184-216)

A breadth-first walk with a `(vertex, stop)` queue; the attribute
`attributeExtractor(flight.getDest())` of every neighbour of a dequeued
vertex is collected whenever the dequeued `stop` is within the lay-over
budget.  The C++ function receives a `Vertex<Airport>*` and immediately
dereferences it (`airport->setVisited(true)`), so an absent airport (null
pointer) is a fault, modelled as `none`. -/
/-- The neighbour loop of the reachable-destinations search (lines 206-212):
enqueue each not-yet-visited destination with `stop + 1`, marking it visited,
in adjacency order. -/
def enqueueNbrs {α : Type} (g : Graph α) (stop1 : ℕ) : List Edge → Graph α × List (ℕ × ℕ)
  | [] => (g, [])
  | e :: es =>
    if g.visitedAt e.dest then enqueueNbrs g stop1 es
    else
      let r := enqueueNbrs (g.setVisited e.dest true) stop1 es
      (r.1, (e.dest, stop1) :: r.2)

/-- The `while (!reachableAirports.empty())` loop (lines 194-213), fuelled:
each iteration dequeues one entry and enqueues exactly as many entries as
vertices it freshly marks visited, so `unvisited + queue length` decreases by
one per iteration and the `size + 1` fuel of the wrapper never runs out. -/
def reachLoop {α β : Type} [DecidableEq β] (f : ℕ → β) (layOvers : ℤ) :
    ℕ → Graph α → List (ℕ × ℕ) → Finset β → Finset β
  | 0, _, _, acc => acc
  | _ + 1, _, [], acc => acc
  | fuel + 1, g, (a, stop) :: q, acc =>
    let acc' := if (stop : ℤ) ≤ layOvers then
        acc ∪ ((g.adjOf a).map (fun e => f e.dest)).toFinset
      else acc
    let r := enqueueNbrs g (stop + 1) (g.adjOf a)
    reachLoop f layOvers fuel r.1 (q ++ r.2) acc'

/-- `Consult::searchNumberOfReachableDestinationsInXStopsFromAirport`
(Consult.cpp, lines 184-216): reset all visited flags, seed the queue with
`(airport, 0)`, run the loop, return the number of distinct collected
attributes.  `airport = none` models the null pointer the C++ function would
dereference. -/
def Consult.searchNumberOfReachableDestinationsInXStopsFromAirport {α β : Type}
    [DecidableEq β] (g : Graph α) (f : ℕ → β) (airport : Option ℕ) (layOvers : ℤ) :
    Option ℕ :=
  match airport with
  | none => none
  | some a =>
    let g1 := (g.resetVisited).setVisited a true
    some ((reachLoop f layOvers (g1.size + 1) g1 [(a, 0)] ∅).card)

/-! ### `ParseData::parseFlights` (ParseData.cpp, lines 85-146)

One loop iteration (one CSV row, lines 113-142): look both endpoints up,
scan the source vertex's adjacency list for an edge whose destination
payload equals the target's, and either merge the airline into that edge or
`addEdge` and then merge the airline into the freshly appended edge; finally
bump the source's `flightsFrom` and the target's `flightsTo`.  The C++
dereferences the `findVertex` results without a null check, so an absent
endpoint is a fault, modelled as `none`.  The computed great-circle distance
is abstracted as the parameter `dist`. -/
/-- Update one edge of vertex `i`'s adjacency list in place (the
`const_cast<Edge&>(e)` mutation of the parser). -/
def Graph.updEdge {α : Type} (g : Graph α) (i p : ℕ) (f : Edge → Edge) : Graph α :=
  g.updVtx i (fun v => { v with adj := updateAt f v.adj p })

def ParseData.parseFlightStep {α : Type} [DecidableEq α] (g : Graph α) (source target : α)
    (airline : String) (dist : ℚ) : Option (Graph α) :=
  match g.findVertexIdx source, g.findVertexIdx target with
  | some i, some j =>
    let g2 :=
      match (g.adjOf i).findIdx? (fun e : Edge => g.infoAt e.dest == g.infoAt j) with
      | some p => g.updEdge i p (fun e => e.addAirline airline)
      | none =>
        let g1 := (g.addEdge source target dist).2
        match (g1.adjOf i).findIdx? (fun e : Edge => g1.infoAt e.dest == g1.infoAt j) with
        | some p => g1.updEdge i p (fun e => e.addAirline airline)
        | none => g1
    some ((g2.updVtx i (fun v => { v with flightsFrom := v.flightsFrom + 1 })).updVtx j
      (fun v => { v with flightsTo := v.flightsTo + 1 }))
  | _, _ => none

/-- At most one directed edge between any ordered pair of nodes, where the
pair is keyed the way the engine keys it: by the destination's payload. -/
def Graph.atMostOnePerPair {α : Type} [DecidableEq α] (g : Graph α) : Prop :=
  ∀ i < g.size, ((g.adjOf i).map (fun e => g.infoAt e.dest)).Nodup

instance {α : Type} [DecidableEq α] (g : Graph α) : Decidable g.atMostOnePerPair := by
  unfold Graph.atMostOnePerPair
  infer_instance

/-- A two-vertex graph with no edges, for the C2 counterexample and
witness. -/
def twoAirportGraph : Graph ℕ := ⟨[newVertex 0, newVertex 1]⟩

/-- The graph one `parseFlights` row builds from `twoAirportGraph`. -/
def parsedOnceGraph : Graph ℕ :=
  (ParseData.parseFlightStep twoAirportGraph 0 1 "AA" 0).getD twoAirportGraph

/-! ### `Consult::searchTopKAirportGreatestAirTrafficCapacity`
(Consult.cpp, lines 233-255)

The C++ copies the vertex set, `std::sort`s it by descending
`flightsTo + flightsFrom`, and then walks the sorted vector pushing entry
`i` while `i < k` or the entry's total equals the previously pushed total
(`last_totalFlights`, initialised to 0), breaking otherwise.  `std::sort`'s
order among tied elements is unspecified; the embedding fixes an insertion
sort with the same comparator, which produces one of the permitted
orders. -/
def totalFlights {α : Type} (v : Vertex α) : ℤ := v.flightsFrom + v.flightsTo

def insertByKeyDesc {α : Type} (key : α → ℤ) (x : α) : List α → List α
  | [] => [x]
  | y :: ys => if key y < key x then x :: y :: ys else y :: insertByKeyDesc key x ys

def sortByKeyDesc {α : Type} (key : α → ℤ) : List α → List α
  | [] => []
  | x :: xs => insertByKeyDesc key x (sortByKeyDesc key xs)

/-- The `for (int i = 0; ...)` loop of the top-K query (lines 246-254). -/
def topKAux {α : Type} (k : ℤ) : ℕ → ℤ → List (Vertex α) → List (α × ℤ)
  | _, _, [] => []
  | i, last, v :: vs =>
    if (i : ℤ) < k ∨ totalFlights v = last then
      (v.info, totalFlights v) :: topKAux k (i + 1) (totalFlights v) vs
    else []

def Consult.searchTopKAirportGreatestAirTrafficCapacity {α : Type} (g : Graph α)
    (k : ℤ) : List (α × ℤ) :=
  topKAux k 0 0 (sortByKeyDesc totalFlights g.vertexSet)

/-- Five isolated airports with traffic volumes `[10, 10, 8, 8, 5]`. -/
def trafficGraph : Graph ℕ :=
  ⟨[⟨0, [], false, false, 0, 0, 0, 0, 10, 0⟩,
    ⟨1, [], false, false, 0, 0, 0, 0, 10, 0⟩,
    ⟨2, [], false, false, 0, 0, 0, 0, 8, 0⟩,
    ⟨3, [], false, false, 0, 0, 0, 0, 8, 0⟩,
    ⟨4, [], false, false, 0, 0, 0, 0, 5, 0⟩]⟩

/-! ### `Script::getBestPathsAllAirlinesWithCustomLayovers`
(Script.cpp, lines 1053-1103)

Candidate generation for one `(sourceAirport, destinationAirport)` pair:
start from the shortest paths `source → customLayovers[0]`, fold over the
consecutive layover pairs taking the cross-product of the partial
compositions with the next segment's shortest paths under `mergeVectors`,
and finish with the cross-product against the shortest paths
`customLayovers.back() → destination`.  The evaluation over the resulting
`paths` vector is outside this claim. -/
def crossMerge {β : Type} [DecidableEq β] : List (List β) → List (List β) → List (List β)
  | [], _ => []
  | a :: as, bs => bs.map (fun b => mergeVectors a b) ++ crossMerge as bs

/-- The `for (size_t i = 0; i < customLayovers.size() - 1; ++i)` fold
(lines 1063-1073): `temp` holds the partial compositions ending at `cur`. -/
def layoverChain {α : Type} (g : Graph α) : List (List ℕ) → ℕ → List ℕ →
    List (List ℕ) × ℕ
  | temp, cur, [] => (temp, cur)
  | temp, cur, l :: ls =>
    layoverChain g (crossMerge temp (Consult.searchSmallestPathBetweenAirports g cur l).1)
      l ls

/-- The `paths` vector built for one source/destination pair (lines
1059-1080), with the custom layovers given as `l0 :: rest` (the C++ indexes
`customLayovers[0]` and `customLayovers.back()`, so the list is nonempty). -/
def Script.getBestPathsCustomLayoversCandidates {α : Type} (g : Graph α) (src l0 : ℕ)
    (rest : List ℕ) (dst : ℕ) : List (List ℕ) :=
  let tc := layoverChain g (Consult.searchSmallestPathBetweenAirports g src l0).1 l0 rest
  crossMerge tc.1 (Consult.searchSmallestPathBetweenAirports g tc.2 dst).1

/-! ### `Consult::searchEssentialAirports` / `dfsEssentialAirports`
(Consult.cpp, lines 272-313)

Tarjan-style articulation detection.  The stack `s` is pushed and popped but
never read, so it is not modelled; the result set holds vertex indices (the
C++ stores the airport code of exactly that vertex).  The C++ recursion
depth is bounded by the number of unvisited vertices, each call marking one,
so the `size + 1` fuel of the outer loop never runs out. -/
/-- The `for (auto& flight : v->getAdj())` loop of `dfsEssentialAirports`,
carrying the `children` counter (incremented before each recursive call, as
in the C++); `rec` is the recursive `dfsEssentialAirports` call at the next
fuel level. -/
def dfsEAEdges {α : Type}
    (rec : Graph α → Finset ℕ → ℤ → ℕ → Graph α × Finset ℕ × ℤ) :
    Graph α → Finset ℕ → ℤ → ℕ → ℕ → List Edge → Graph α × Finset ℕ × ℤ
  | g, res, i, _, _, [] => (g, res, i)
  | g, res, i, v, children, e :: es =>
    if g.visitedAt e.dest = false then
      let r := rec g res i e.dest
      let g2 := r.1.updVtx v (fun w => { w with low := min w.low (r.1.lowAt e.dest) })
      let res2 := if (g2.numAt v ≠ 0 ∧ r.1.lowAt e.dest ≥ g2.numAt v) ∨
          (g2.numAt v = 0 ∧ children + 1 > 1) then insert v r.2.1 else r.2.1
      dfsEAEdges rec g2 res2 r.2.2 v (children + 1) es
    else if g.processingAt e.dest then
      dfsEAEdges rec (g.updVtx v (fun w => { w with low := min w.low (g.numAt e.dest) }))
        res i v children es
    else
      dfsEAEdges rec g res i v children es

/-- `dfsEssentialAirports` body (lines 288-313), fuelled (the fuel recursion
over `Nat.rec` keeps the definition structurally reducible). -/
def dfsEA {α : Type} (fuel : ℕ) : Graph α → Finset ℕ → ℤ → ℕ →
    Graph α × Finset ℕ × ℤ :=
  Nat.rec (motive := fun _ => Graph α → Finset ℕ → ℤ → ℕ → Graph α × Finset ℕ × ℤ)
    (fun g res i _ => (g, res, i))
    (fun _ rec g res i v =>
      let g1 := g.updVtx v (fun w =>
        { w with visited := true, processing := true, num := i, low := i })
      let r := dfsEAEdges rec g1 res (i + 1) v 0 (g1.adjOf v)
      (r.1.updVtx v (fun w => { w with processing := false }), r.2))
    fuel

/-- The `for (auto v : consultGraph.getVertexSet())` loop of
`searchEssentialAirports` (lines 279-283). -/
def eaOuter {α : Type} : Graph α → Finset ℕ → ℤ → List ℕ → Graph α × Finset ℕ × ℤ
  | g, res, i, [] => (g, res, i)
  | g, res, i, v :: vs =>
    if g.visitedAt v = false then
      let r := dfsEA (g.size + 1) g res i v
      eaOuter r.1 r.2.1 r.2.2 vs
    else eaOuter g res i vs

/-- `Consult::searchEssentialAirports` (lines 272-286): reset the visited
flags, run the DFS from every still-unvisited vertex, return the collected
set (and the mutated graph, for the frame claims). -/
def Consult.searchEssentialAirports {α : Type} (g : Graph α) : Finset ℕ × Graph α :=
  let g0 := g.resetVisited
  let r := eaOuter g0 ∅ 0 (List.range g0.size)
  (r.2.1, r.1)

def cycAdj (n m : ℕ) : List Edge := [⟨(m + 1) % n, 0, ∅⟩]

/-- The cycle graph mid-recursion: vertices below `j` are on the DFS path
(visited, processing, `num = low =` own index); the rest are untouched. -/
def cycVtxA (n j m : ℕ) : Vertex ℕ :=
  ⟨m, cycAdj n m, decide (m < j), decide (m < j), 0, 0,
    if m < j then (m : ℤ) else 0, if m < j then (m : ℤ) else 0, 0, 0⟩

def cycStA (n j : ℕ) : Graph ℕ := ⟨(List.range n).map (cycVtxA n j)⟩

/-- The cycle graph after the recursion from `j` has returned: everything is
visited with `num =` own index; vertices from `j` on have been closed with
`low = 0` and `processing = false`. -/
def cycVtxB (n j m : ℕ) : Vertex ℕ :=
  ⟨m, cycAdj n m, true, decide (m < j), 0, 0, (m : ℤ),
    if m < j then (m : ℤ) else 0, 0, 0⟩

def cycStB (n j : ℕ) : Graph ℕ := ⟨(List.range n).map (cycVtxB n j)⟩

/-- A single directed cycle `0 → 1 → ⋯ → n-1 → 0`. -/
def cycleGraph (n : ℕ) : Graph ℕ :=
  ⟨(List.range n).map (fun m => ⟨m, cycAdj n m, false, false, 0, 0, 0, 0, 0, 0⟩)⟩

/-- A one-vertex graph with no edges. -/
def singleAirportGraph : Graph ℕ := ⟨[newVertex 0]⟩

theorem updateAt_length {β : Type} (f : β → β) (l : List β) (i : ℕ) :
    (updateAt f l i).length = l.length := by
  induction l generalizing i with
  | nil => rfl
  | cons x xs ih =>
    cases i with
    | zero => rfl
    | succ n => simp [updateAt, ih]

theorem updateAt_getElem?_self {β : Type} (f : β → β) (l : List β) (i : ℕ) :
    (updateAt f l i)[i]? = (l[i]?).map f := by
  induction l generalizing i with
  | nil => cases i <;> rfl
  | cons x xs ih =>
    cases i with
    | zero => simp [updateAt]
    | succ n => simpa [updateAt] using ih n

theorem updateAt_getElem?_ne {β : Type} (f : β → β) (l : List β) (i j : ℕ) (h : j ≠ i) :
    (updateAt f l i)[j]? = l[j]? := by
  induction l generalizing i j with
  | nil => cases j <;> rfl
  | cons x xs ih =>
    cases i with
    | zero =>
      cases j with
      | zero => exact absurd rfl h
      | succ m => simp [updateAt]
    | succ n =>
      cases j with
      | zero => simp [updateAt]
      | succ m =>
        simp only [updateAt, List.getElem?_cons_succ]
        exact ih n m (fun hc => h (by simp [hc]))

theorem updateAt_map {β γ : Type} (g : β → γ) (f : β → β) (l : List β) (i : ℕ)
    (hcomm : ∀ b, g (f b) = g b) : (updateAt f l i).map g = l.map g := by
  induction l generalizing i with
  | nil => rfl
  | cons x xs ih =>
    cases i with
    | zero => simp [updateAt, hcomm]
    | succ n => simp [updateAt, ih]

theorem Graph.size_updVtx {α : Type} (g : Graph α) (i : ℕ) (f : Vertex α → Vertex α) :
    (g.updVtx i f).size = g.size := by
  simp [Graph.updVtx, Graph.size, updateAt_length]

theorem Graph.getVtx_updVtx_ne {α : Type} (g : Graph α) (i j : ℕ) (f : Vertex α → Vertex α)
    (h : j ≠ i) : (g.updVtx i f).getVtx j = g.getVtx j := by
  simp [Graph.updVtx, Graph.getVtx, updateAt_getElem?_ne _ _ _ _ h]

theorem Graph.getVtx_updVtx_self {α : Type} (g : Graph α) (i : ℕ) (f : Vertex α → Vertex α) :
    (g.updVtx i f).getVtx i = (g.getVtx i).map f := by
  simp [Graph.updVtx, Graph.getVtx, updateAt_getElem?_self]

theorem Graph.adjOf_updVtx {α : Type} (g : Graph α) (i j : ℕ) (f : Vertex α → Vertex α)
    (hf : ∀ v, (f v).adj = v.adj) : (g.updVtx i f).adjOf j = g.adjOf j := by
  by_cases h : j = i
  · subst h
    simp only [Graph.adjOf, Graph.getVtx_updVtx_self]
    cases g.getVtx j <;> simp [hf]
  · simp [Graph.adjOf, Graph.getVtx_updVtx_ne _ _ _ _ h]

theorem Graph.infoAt_updVtx {α : Type} (g : Graph α) (i j : ℕ) (f : Vertex α → Vertex α)
    (hf : ∀ v, (f v).info = v.info) : (g.updVtx i f).infoAt j = g.infoAt j := by
  by_cases h : j = i
  · subst h
    simp only [Graph.infoAt, Graph.getVtx_updVtx_self]
    cases g.getVtx j <;> simp [hf]
  · simp [Graph.infoAt, Graph.getVtx_updVtx_ne _ _ _ _ h]

theorem Graph.visitedAt_updVtx {α : Type} (g : Graph α) (i j : ℕ) (f : Vertex α → Vertex α)
    (hf : ∀ v, (f v).visited = v.visited) : (g.updVtx i f).visitedAt j = g.visitedAt j := by
  by_cases h : j = i
  · subst h
    simp only [Graph.visitedAt, Graph.getVtx_updVtx_self]
    cases g.getVtx j <;> simp [hf]
  · simp [Graph.visitedAt, Graph.getVtx_updVtx_ne _ _ _ _ h]

theorem Graph.core_updVtx {α : Type} (g : Graph α) (i : ℕ) (f : Vertex α → Vertex α)
    (hf : ∀ v : Vertex α, (f v).info = v.info ∧ (f v).adj = v.adj ∧ (f v).inDegree = v.inDegree ∧
      (f v).outDegree = v.outDegree ∧ (f v).flightsTo = v.flightsTo ∧ (f v).flightsFrom = v.flightsFrom) :
    (g.updVtx i f).core = g.core := by
  simp only [Graph.core, Graph.updVtx]
  exact updateAt_map _ f g.vertexSet i (fun b => by
    obtain ⟨h1, h2, h3, h4, h5, h6⟩ := hf b
    simp [h1, h2, h3, h4, h5, h6])

theorem Graph.size_setVisited {α : Type} (g : Graph α) (i : ℕ) (b : Bool) :
    (g.setVisited i b).size = g.size := Graph.size_updVtx g i _

theorem Graph.adjOf_setVisited {α : Type} (g : Graph α) (i j : ℕ) (b : Bool) :
    (g.setVisited i b).adjOf j = g.adjOf j :=
  Graph.adjOf_updVtx g i j _ (fun _ => rfl)

theorem Graph.infoAt_setVisited {α : Type} (g : Graph α) (i j : ℕ) (b : Bool) :
    (g.setVisited i b).infoAt j = g.infoAt j :=
  Graph.infoAt_updVtx g i j _ (fun _ => rfl)

theorem Graph.core_setVisited {α : Type} (g : Graph α) (i : ℕ) (b : Bool) :
    (g.setVisited i b).core = g.core :=
  Graph.core_updVtx g i _ (fun _ => by simp)

theorem Graph.visitedAt_setVisited_ne {α : Type} (g : Graph α) (i j : ℕ) (b : Bool)
    (h : j ≠ i) : (g.setVisited i b).visitedAt j = g.visitedAt j := by
  simp only [Graph.setVisited, Graph.visitedAt]
  rw [Graph.getVtx_updVtx_ne _ _ _ _ h]

theorem Graph.visitedAt_setVisited_self {α : Type} (g : Graph α) (i : ℕ) (b : Bool)
    (h : i < g.size) : (g.setVisited i b).visitedAt i = b := by
  have hg : g.getVtx i = some (g.vertexSet.get ⟨i, h⟩) := by
    simp [Graph.getVtx, List.getElem?_eq_getElem h]
  simp only [Graph.setVisited, Graph.visitedAt, Graph.getVtx_updVtx_self, hg, Option.map_map,
    Option.map_some]
  rfl

theorem Graph.visitedAt_lt_size {α : Type} (g : Graph α) (i : ℕ)
    (h : g.visitedAt i = false) : i < g.size := by
  by_contra hge
  have hnone : g.getVtx i = none := by
    simp [Graph.getVtx, List.getElem?_eq_none (Nat.le_of_not_lt hge)]
  simp [Graph.visitedAt, hnone] at h

theorem unvisitedCount_mark {α : Type} (l : List (Vertex α)) (i : ℕ) (v : Vertex α)
    (hv : l[i]? = some v) (huv : v.visited = false) :
    ((updateAt (fun w => { w with visited := true }) l i).filter (fun w => !w.visited)).length + 1 =
      (l.filter (fun w => !w.visited)).length := by
  induction l generalizing i with
  | nil => simp at hv
  | cons x xs ih =>
    cases i with
    | zero =>
      simp only [List.getElem?_cons_zero, Option.some_inj] at hv
      subst hv
      simp [updateAt, List.filter_cons, huv]
    | succ n =>
      simp only [List.getElem?_cons_succ] at hv
      have hrec := ih n hv
      by_cases hx : x.visited = true
      · simpa [updateAt, List.filter_cons, hx] using hrec
      · have hx' : x.visited = false := by
          cases hxv : x.visited
          · rfl
          · exact absurd hxv hx
        simp only [updateAt, List.filter_cons, hx', Bool.not_false, if_pos, List.length_cons]
        omega

theorem Graph.unvisitedCount_setVisited_true {α : Type} (g : Graph α) (i : ℕ)
    (h : g.visitedAt i = false) :
    (g.setVisited i true).unvisitedCount + 1 = g.unvisitedCount := by
  have hi : i < g.size := g.visitedAt_lt_size i h
  have hg : g.vertexSet[i]? = some (g.vertexSet.get ⟨i, hi⟩) := List.getElem?_eq_getElem hi
  have hv : (g.vertexSet.get ⟨i, hi⟩).visited = false := by
    simp [Graph.visitedAt, Graph.getVtx, hg] at h
    exact h
  exact unvisitedCount_mark g.vertexSet i _ hg hv

theorem Graph.unvisitedCount_le_size {α : Type} (g : Graph α) :
    g.unvisitedCount ≤ g.size :=
  List.length_filter_le _ _

theorem Graph.size_resetVisited {α : Type} (g : Graph α) :
    g.resetVisited.size = g.size := by
  simp [Graph.resetVisited, Graph.size]

theorem Graph.getVtx_resetVisited {α : Type} (g : Graph α) (i : ℕ) :
    g.resetVisited.getVtx i = (g.getVtx i).map (fun v => { v with visited := false }) := by
  simp [Graph.resetVisited, Graph.getVtx, List.getElem?_map]

theorem Graph.adjOf_resetVisited {α : Type} (g : Graph α) (i : ℕ) :
    g.resetVisited.adjOf i = g.adjOf i := by
  simp only [Graph.adjOf, Graph.getVtx_resetVisited]
  cases g.getVtx i <;> simp

theorem Graph.infoAt_resetVisited {α : Type} (g : Graph α) (i : ℕ) :
    g.resetVisited.infoAt i = g.infoAt i := by
  simp only [Graph.infoAt, Graph.getVtx_resetVisited]
  cases g.getVtx i <;> simp

theorem Graph.core_resetVisited {α : Type} (g : Graph α) :
    g.resetVisited.core = g.core := by
  simp [Graph.core, Graph.resetVisited]

theorem Graph.visitedAt_resetVisited {α : Type} (g : Graph α) (i : ℕ) (h : i < g.size) :
    g.resetVisited.visitedAt i = false := by
  have hg : g.getVtx i = some (g.vertexSet.get ⟨i, h⟩) := by
    simp [Graph.getVtx, List.getElem?_eq_getElem h]
  simp [Graph.visitedAt, Graph.getVtx_resetVisited, hg]

theorem Graph.unvisitedCount_resetVisited {α : Type} (g : Graph α) :
    g.resetVisited.unvisitedCount = g.size := by
  simp only [Graph.unvisitedCount, Graph.resetVisited, Graph.size, List.filter_map]
  have hself : List.filter ((fun v : Vertex α => !v.visited) ∘ fun v =>
      { v with visited := false }) g.vertexSet = g.vertexSet :=
    List.filter_eq_self.2 (fun a _ => by simp)
  rw [hself, List.length_map]

theorem findIdxAux_some {α : Type} [DecidableEq α] (x : α) (l : List (Vertex α)) (i : ℕ)
    (h : findIdxAux x l = some i) : ∃ v, l[i]? = some v ∧ v.info = x := by
  induction l generalizing i with
  | nil => simp [findIdxAux] at h
  | cons v vs ih =>
    by_cases hv : v.info = x
    · simp only [findIdxAux, if_pos hv, Option.some_inj] at h
      exact ⟨v, by simp [← h], hv⟩
    · simp only [findIdxAux, if_neg hv] at h
      cases hfa : findIdxAux x vs with
      | none => rw [hfa] at h; simp at h
      | some n =>
        rw [hfa] at h
        simp at h
        obtain ⟨w, hw, hwx⟩ := ih n hfa
        exact ⟨w, by simp [← h, hw], hwx⟩

theorem findIdxAux_none {α : Type} [DecidableEq α] (x : α) (l : List (Vertex α))
    (h : findIdxAux x l = none) : ∀ v ∈ l, v.info ≠ x := by
  induction l with
  | nil => simp
  | cons v vs ih =>
    by_cases hv : v.info = x
    · simp [findIdxAux, hv] at h
    · simp only [findIdxAux, if_neg hv] at h
      cases hfa : findIdxAux x vs with
      | none =>
        intro w hw
        rcases List.mem_cons.1 hw with hwv | hwm
        · subst hwv; exact hv
        · exact ih hfa w hwm
      | some n => rw [hfa] at h; simp at h

theorem Graph.findVertexIdx_some {α : Type} [DecidableEq α] (g : Graph α) (x : α) (i : ℕ)
    (h : g.findVertexIdx x = some i) : g.infoAt i = some x := by
  obtain ⟨v, hv, hvx⟩ := findIdxAux_some x g.vertexSet i h
  simp [Graph.infoAt, Graph.getVtx, hv, hvx]

theorem mergeVectors_misaligned {β : Type} [DecidableEq β] (first second : List β)
    (h1 : first ≠ []) (h2 : second ≠ [])
    (h : first.getLast h1 ≠ second.head h2) : mergeVectors first second = [] := by
  match first, second with
  | a :: as, b :: bs =>
    simp only [mergeVectors, List.head_cons] at *
    rw [if_neg h]

theorem mergeVectors_aligned {β : Type} [DecidableEq β] (first second : List β)
    (h1 : first ≠ []) (h2 : second ≠ [])
    (h : first.getLast h1 = second.head h2) :
    mergeVectors first second = first ++ second.tail := by
  match first, second with
  | a :: as, b :: bs =>
    simp only [mergeVectors, List.head_cons] at *
    rw [if_pos h]
    simp

theorem getDistanceBetweenAirports_of_no_edge {α : Type} [DecidableEq α] (g : Graph α)
    (source target : ℕ)
    (h : ∀ e ∈ g.adjOf source, g.infoAt e.dest ≠ g.infoAt target) :
    Consult.getDistanceBetweenAirports g source target = 0 := by
  have hn : (g.adjOf source).find? (fun e => g.infoAt e.dest == g.infoAt target) = none := by
    rw [List.find?_eq_none]
    intro e he
    simpa using h e he
  simp [Consult.getDistanceBetweenAirports, hn]

theorem subset_reachStep {α : Type} (g : Graph α) (bad : Finset ℕ) (S : Finset ℕ) :
    S ⊆ reachStep g bad S := Finset.subset_union_left

theorem reachStep_mono {α : Type} (g : Graph α) (bad : Finset ℕ) {S T : Finset ℕ}
    (h : S ⊆ T) : reachStep g bad S ⊆ reachStep g bad T := by
  unfold reachStep
  intro w hw
  rcases Finset.mem_union.1 hw with hw | hw
  · exact Finset.mem_union_left _ (h hw)
  · rcases Finset.mem_biUnion.1 hw with ⟨v, hv, hvw⟩
    exact Finset.mem_union_right _ (Finset.mem_biUnion.2 ⟨v, h hv, hvw⟩)

theorem reachSet_subset_succ {α : Type} (g : Graph α) (bad : Finset ℕ) (src : ℕ) (k : ℕ) :
    reachSet g bad src k ⊆ reachSet g bad src (k + 1) :=
  subset_reachStep g bad _

theorem reachSet_mono {α : Type} (g : Graph α) (bad : Finset ℕ) (src : ℕ) {k m : ℕ}
    (h : k ≤ m) : reachSet g bad src k ⊆ reachSet g bad src m := by
  induction m with
  | zero => cases Nat.le_zero.1 h; exact subset_rfl
  | succ n ih =>
    rcases Nat.lt_or_ge k (n + 1) with hlt | hge
    · exact (ih (Nat.lt_succ_iff.1 hlt)).trans (reachSet_subset_succ g bad src n)
    · cases Nat.le_antisymm h hge; exact subset_rfl

theorem src_mem_reachSet {α : Type} (g : Graph α) (bad : Finset ℕ) (src : ℕ) (k : ℕ) :
    src ∈ reachSet g bad src k :=
  reachSet_mono g bad src (Nat.zero_le k) (Finset.mem_singleton_self src)

theorem WF_dest_lt {α : Type} {g : Graph α} (hwf : g.WF) {i : ℕ} {e : Edge}
    (he : e ∈ g.adjOf i) : e.dest < g.size := by
  unfold Graph.adjOf at he
  cases hv : g.getVtx i with
  | none => rw [hv] at he; simp at he
  | some v =>
    rw [hv] at he
    simp at he
    have hmem : v ∈ g.vertexSet := by
      unfold Graph.getVtx at hv
      obtain ⟨hlt, hev⟩ := List.getElem?_eq_some_iff.1 hv
      exact hev ▸ List.getElem_mem hlt
    exact hwf v hmem e he

theorem reachSet_lt_size {α : Type} {g : Graph α} (hwf : g.WF) (bad : Finset ℕ) {src : ℕ}
    (hsrc : src < g.size) (k : ℕ) : ∀ w ∈ reachSet g bad src k, w < g.size := by
  induction k with
  | zero => intro w hw; rw [Finset.mem_singleton.1 hw]; exact hsrc
  | succ n ih =>
    intro w hw
    rcases Finset.mem_union.1 hw with hw | hw
    · exact ih w hw
    · rcases Finset.mem_biUnion.1 hw with ⟨v, _, hvw⟩
      rcases Finset.mem_sdiff.1 hvw with ⟨hvw, _⟩
      rcases List.mem_toFinset.1 hvw with hvw
      rcases List.mem_map.1 hvw with ⟨e, he, hew⟩
      rw [← hew]
      exact WF_dest_lt hwf he

theorem mem_reachSet_not_bad {α : Type} (g : Graph α) (bad : Finset ℕ) {src : ℕ}
    (hsrc : src ∉ bad) (k : ℕ) : ∀ w ∈ reachSet g bad src k, w ∉ bad := by
  induction k with
  | zero => intro w hw; rw [Finset.mem_singleton.1 hw]; exact hsrc
  | succ n ih =>
    intro w hw
    rcases Finset.mem_union.1 hw with hw | hw
    · exact ih w hw
    · rcases Finset.mem_biUnion.1 hw with ⟨v, _, hvw⟩
      exact (Finset.mem_sdiff.1 hvw).2

theorem reachSet_stable_of_eq {α : Type} (g : Graph α) (bad : Finset ℕ) (src : ℕ) (k : ℕ)
    (h : reachSet g bad src (k + 1) = reachSet g bad src k) :
    ∀ m, k ≤ m → reachSet g bad src m = reachSet g bad src k := by
  intro m hm
  induction m with
  | zero => cases Nat.le_zero.1 hm; rfl
  | succ n ih =>
    rcases Nat.lt_or_ge k (n + 1) with hlt | hge
    · have hn := ih (Nat.lt_succ_iff.1 hlt)
      show reachStep g bad (reachSet g bad src n) = reachSet g bad src k
      rw [hn]
      exact h
    · cases Nat.le_antisymm hm hge; rfl

theorem reachSet_grow_or_stable {α : Type} (g : Graph α) (bad : Finset ℕ) (src : ℕ) (k : ℕ) :
    reachSet g bad src (k + 1) = reachSet g bad src k ∨
      k + 1 ≤ (reachSet g bad src k).card := by
  induction k with
  | zero =>
    right
    simp [reachSet]
  | succ n ih =>
    rcases ih with hstab | hcard
    · left
      show reachStep g bad (reachSet g bad src (n + 1)) = reachSet g bad src (n + 1)
      rw [hstab]
      exact hstab
    · by_cases heq : reachSet g bad src (n + 1) = reachSet g bad src n
      · left
        show reachStep g bad (reachSet g bad src (n + 1)) = reachSet g bad src (n + 1)
        rw [heq]
        exact heq
      · right
        have hlt : (reachSet g bad src n).card < (reachSet g bad src (n + 1)).card :=
          Finset.card_lt_card (Finset.ssubset_iff_subset_ne.2
            ⟨reachSet_subset_succ g bad src n, fun hc => heq hc.symm⟩)
        omega

theorem reachSet_card_le_size {α : Type} {g : Graph α} (hwf : g.WF) (bad : Finset ℕ)
    {src : ℕ} (hsrc : src < g.size) (k : ℕ) : (reachSet g bad src k).card ≤ g.size := by
  have hsub : reachSet g bad src k ⊆ Finset.range g.size := by
    intro w hw
    exact Finset.mem_range.2 (reachSet_lt_size hwf bad hsrc k w hw)
  simpa using Finset.card_le_card hsub

theorem reachSet_stable_at_size {α : Type} {g : Graph α} (hwf : g.WF) (bad : Finset ℕ)
    {src : ℕ} (hsrc : src < g.size) :
    ∀ m, g.size ≤ m → reachSet g bad src m = reachSet g bad src g.size := by
  rcases reachSet_grow_or_stable g bad src g.size with hstab | hcard
  · exact reachSet_stable_of_eq g bad src g.size hstab
  · exact absurd (hcard.trans (reachSet_card_le_size hwf bad hsrc g.size)) (by omega)

theorem mem_reachSet_size {α : Type} {g : Graph α} (hwf : g.WF) (bad : Finset ℕ)
    {src w : ℕ} (hsrc : src < g.size) {k : ℕ} (h : w ∈ reachSet g bad src k) :
    w ∈ reachSet g bad src g.size := by
  rcases Nat.le_total k g.size with hk | hk
  · exact reachSet_mono g bad src hk h
  · rw [← reachSet_stable_at_size hwf bad hsrc k hk]
    exact h

theorem leastAux_some {p : ℕ → Bool} {m i k : ℕ} (h : leastAux p m i = some k) :
    i ≤ k ∧ k < i + m ∧ p k = true ∧ ∀ j, i ≤ j → j < k → p j = false := by
  induction m generalizing i with
  | zero => simp [leastAux] at h
  | succ n ih =>
    by_cases hp : p i = true
    · simp only [leastAux, if_pos hp, Option.some_inj] at h
      subst h
      exact ⟨le_rfl, by omega, hp, fun j hj1 hj2 => by omega⟩
    · simp only [leastAux, if_neg hp] at h
      obtain ⟨h1, h2, h3, h4⟩ := ih h
      refine ⟨by omega, by omega, h3, fun j hj1 hj2 => ?_⟩
      rcases Nat.lt_or_ge j (i + 1) with hj | hj
      · have : j = i := by omega
        subst this
        simpa using hp
      · exact h4 j hj hj2

theorem leastAux_none {p : ℕ → Bool} {m i : ℕ} (h : leastAux p m i = none) :
    ∀ j, i ≤ j → j < i + m → p j = false := by
  induction m generalizing i with
  | zero => intro j h1 h2; omega
  | succ n ih =>
    by_cases hp : p i = true
    · simp [leastAux, hp] at h
    · simp only [leastAux, if_neg hp] at h
      intro j hj1 hj2
      rcases Nat.lt_or_ge j (i + 1) with hj | hj
      · have : j = i := by omega
        subst this
        simpa using hp
      · exact ih h j hj (by omega)

theorem bfsDist_some {α : Type} {g : Graph α} {bad : Finset ℕ} {src tgt k : ℕ}
    (h : bfsDist g bad src tgt = some k) :
    k ≤ g.size ∧ tgt ∈ reachSet g bad src k ∧ ∀ j < k, tgt ∉ reachSet g bad src j := by
  obtain ⟨_, h2, h3, h4⟩ := leastAux_some h
  refine ⟨by omega, by simpa using h3, fun j hj hmem => ?_⟩
  have := h4 j (Nat.zero_le j) hj
  simp [hmem] at this

theorem bfsDist_le_of_mem {α : Type} {g : Graph α} (hwf : g.WF) {bad : Finset ℕ}
    {src tgt k : ℕ} (hsrc : src < g.size) (h : tgt ∈ reachSet g bad src k) :
    ∃ d, bfsDist g bad src tgt = some d ∧ d ≤ k := by
  have hsz : tgt ∈ reachSet g bad src g.size := mem_reachSet_size hwf bad hsrc h
  cases hb : bfsDist g bad src tgt with
  | none =>
    have := leastAux_none hb g.size (Nat.zero_le _) (by omega)
    simp [hsz] at this
  | some d =>
    obtain ⟨_, _, hmin⟩ := bfsDist_some hb
    refine ⟨d, rfl, ?_⟩
    by_contra hdk
    exact hmin k (by omega) h

theorem bfsDist_none {α : Type} {g : Graph α} (hwf : g.WF) {bad : Finset ℕ}
    {src tgt : ℕ} (hsrc : src < g.size) (h : bfsDist g bad src tgt = none) :
    ∀ k, tgt ∉ reachSet g bad src k := by
  intro k hk
  obtain ⟨d, hd, _⟩ := bfsDist_le_of_mem hwf hsrc hk
  rw [h] at hd
  cases hd

theorem bfsDist_self {α : Type} (g : Graph α) (bad : Finset ℕ) (src : ℕ) :
    bfsDist g bad src src = some 0 := by
  unfold bfsDist leastAux
  simp [reachSet]

theorem bfsDist_zero_eq_src {α : Type} {g : Graph α} {bad : Finset ℕ} {src tgt : ℕ}
    (h : bfsDist g bad src tgt = some 0) : tgt = src := by
  obtain ⟨_, hmem, _⟩ := bfsDist_some h
  simpa [reachSet] using hmem

theorem not_mem_reachSet_self_avoid {α : Type} (g : Graph α) {src B : ℕ} (hne : src ≠ B) :
    ∀ k, B ∉ reachSet g {B} src k := by
  intro k
  induction k with
  | zero => simp [reachSet, Ne.symm hne]
  | succ n ih =>
    intro hB
    rcases Finset.mem_union.1 hB with hB | hB
    · exact ih hB
    · rcases Finset.mem_biUnion.1 hB with ⟨v, _, hvB⟩
      simp at hvB

theorem bfsDist_avoid_self_none {α : Type} (g : Graph α) {src B : ℕ} (hne : src ≠ B) :
    bfsDist g {B} src B = none := by
  cases hb : bfsDist g {B} src B with
  | none => rfl
  | some d =>
    obtain ⟨_, hmem, _⟩ := bfsDist_some hb
    exact absurd hmem (not_mem_reachSet_self_avoid g hne d)

theorem isPath_singleton {α : Type} (g : Graph α) (x : ℕ) : g.IsPath [x] :=
  List.chain'_singleton x

theorem mem_reachStep_of_edge {α : Type} {g : Graph α} {bad : Finset ℕ} {S : Finset ℕ}
    {v : ℕ} {e : Edge} (hv : v ∈ S) (he : e ∈ g.adjOf v) (hb : e.dest ∉ bad) :
    e.dest ∈ reachStep g bad S := by
  refine Finset.mem_union_right _ (Finset.mem_biUnion.2 ⟨v, hv, ?_⟩)
  refine Finset.mem_sdiff.2 ⟨List.mem_toFinset.2 ?_, hb⟩
  exact List.mem_map.2 ⟨e, he, rfl⟩

theorem head?_append_left {β : Type} {q : List β} (r : List β) (hq : q ≠ []) :
    (q ++ r).head? = q.head? := by
  cases q with
  | nil => exact absurd rfl hq
  | cons a l => simp

theorem isPath_snoc {α : Type} {g : Graph α} {p : List ℕ} {v w : ℕ}
    (hp : g.IsPath p) (hv : p.getLast? = some v) (he : g.hasEdge v w) :
    g.IsPath (p ++ [w]) := by
  unfold Graph.IsPath at *
  rw [List.chain'_append]
  refine ⟨hp, List.chain'_singleton w, ?_⟩
  intro x hx y hy
  simp only [List.head?_cons, Option.mem_def, Option.some_inj] at hy
  rw [hv] at hx
  simp only [Option.mem_def, Option.some_inj] at hx
  rw [← hx, ← hy]
  exact he

theorem isPath_of_append_left {α : Type} {g : Graph α} {l₁ l₂ : List ℕ}
    (h : g.IsPath (l₁ ++ l₂)) : g.IsPath l₁ :=
  (List.chain'_append.1 h).1

theorem hasEdge_of_path_snoc {α : Type} {g : Graph α} {q : List ℕ} {v w : ℕ}
    (h : g.IsPath (q ++ [w])) (hv : q.getLast? = some v) : g.hasEdge v w := by
  unfold Graph.IsPath at h
  rw [List.chain'_append] at h
  exact h.2.2 v (by rw [hv]; rfl) w rfl

theorem mem_reachSet_iff_path {α : Type} (g : Graph α) (bad : Finset ℕ) {src : ℕ}
    (hsrc : src ∉ bad) (k : ℕ) (w : ℕ) :
    w ∈ reachSet g bad src k ↔
      ∃ p : List ℕ, g.IsPath p ∧ p.head? = some src ∧ p.getLast? = some w ∧
        p.length ≤ k + 1 ∧ ∀ x ∈ p, x ∉ bad := by
  constructor
  · intro hw
    induction k generalizing w with
    | zero =>
      rw [show reachSet g bad src 0 = {src} from rfl, Finset.mem_singleton] at hw
      subst hw
      exact ⟨[w], isPath_singleton g w, rfl, rfl, by simp, by simpa using hsrc⟩
    | succ n ih =>
      rcases Finset.mem_union.1 hw with hw | hw
      · obtain ⟨p, h1, h2, h3, h4, h5⟩ := ih w hw
        exact ⟨p, h1, h2, h3, by omega, h5⟩
      · rcases Finset.mem_biUnion.1 hw with ⟨v, hv, hvw⟩
        rcases Finset.mem_sdiff.1 hvw with ⟨hvw, hwbad⟩
        rcases List.mem_map.1 (List.mem_toFinset.1 hvw) with ⟨e, he, hew⟩
        obtain ⟨q, h1, h2, h3, h4, h5⟩ := ih v hv
        have hq : q ≠ [] := by
          intro hnil
          rw [hnil] at h2
          cases h2
        refine ⟨q ++ [w], isPath_snoc h1 h3 ⟨e, he, hew⟩, ?_, ?_, ?_, ?_⟩
        · rw [head?_append_left _ hq]; exact h2
        · exact List.getLast?_concat q
        · simp only [List.length_append, List.length_cons, List.length_nil]
          omega
        · intro x hx
          rcases List.mem_append.1 hx with hx | hx
          · exact h5 x hx
          · rw [List.mem_singleton.1 hx]; exact hwbad
  · intro hex
    induction k generalizing w with
    | zero =>
      obtain ⟨p, _, h2, h3, h4, _⟩ := hex
      match p, h2, h3, h4 with
      | [a], h2, h3, _ =>
        simp only [List.head?_cons, Option.some_inj] at h2
        simp only [List.getLast?_singleton, Option.some_inj] at h3
        rw [show reachSet g bad src 0 = {src} from rfl, Finset.mem_singleton, ← h3, h2]
    | succ n ih =>
      obtain ⟨p, h1, h2, h3, h4, h5⟩ := hex
      match p, h1, h2, h3, h4, h5 with
      | [a], _, h2, h3, _, _ =>
        simp only [List.head?_cons, Option.some_inj] at h2
        simp only [List.getLast?_singleton, Option.some_inj] at h3
        rw [← h3, h2]
        exact src_mem_reachSet g bad src (n + 1)
      | a :: b :: t, h1, h2, h3, h4, h5 =>
        set p := a :: b :: t with hp
        have hpne : p ≠ [] := by simp [hp]
        have hdecomp : p.dropLast ++ [p.getLast hpne] = p := List.dropLast_append_getLast hpne
        have hlastw : p.getLast hpne = w := by
          have := List.getLast?_eq_getLast p hpne
          rw [h3] at this
          exact (Option.some_inj.1 this).symm
        have hqne : p.dropLast ≠ [] := by
          have : p.dropLast.length = p.length - 1 := List.length_dropLast p
          intro hnil
          rw [hnil] at this
          simp [hp] at this
        set q := p.dropLast with hq
        have hvex : ∃ v, q.getLast? = some v := by
          cases hqv : q.getLast? with
          | none => exact absurd (List.getLast?_eq_none_iff.1 hqv) hqne
          | some v => exact ⟨v, rfl⟩
        obtain ⟨v, hv⟩ := hvex
        have hpq : p = q ++ [w] := by rw [← hlastw]; exact hdecomp.symm
        have hchain : g.IsPath (q ++ [w]) := by rw [← hpq]; exact h1
        have hvmem : v ∈ reachSet g bad src n := by
          refine ih v ⟨q, isPath_of_append_left hchain, ?_, hv, ?_, ?_⟩
          · rw [hpq, head?_append_left _ hqne] at h2
            exact h2
          · have : p.length = q.length + 1 := by rw [hpq]; simp
            omega
          · intro x hx
            exact h5 x (by rw [hpq]; exact List.mem_append.2 (Or.inl hx))
        have hedge : g.hasEdge v w := hasEdge_of_path_snoc hchain hv
        obtain ⟨e, he, hew⟩ := hedge
        have hwbad : w ∉ bad := h5 w (by rw [hpq]; simp)
        rw [← hew]
        exact mem_reachStep_of_edge hvmem he (by rw [hew]; exact hwbad)

theorem bfsDist_of_path {α : Type} {g : Graph α} (hwf : g.WF) {bad : Finset ℕ}
    {src w : ℕ} (hsz : src < g.size) (hsrc : src ∉ bad) {p : List ℕ}
    (h1 : g.IsPath p) (h2 : p.head? = some src) (h3 : p.getLast? = some w)
    (h5 : ∀ x ∈ p, x ∉ bad) :
    ∃ d, bfsDist g bad src w = some d ∧ d + 1 ≤ p.length := by
  have hpne : p ≠ [] := by intro hnil; rw [hnil] at h2; cases h2
  have hlen : 1 ≤ p.length := by
    cases p with
    | nil => exact absurd rfl hpne
    | cons a l => simp
  have hmem : w ∈ reachSet g bad src (p.length - 1) :=
    (mem_reachSet_iff_path g bad hsrc _ w).2 ⟨p, h1, h2, h3, by omega, h5⟩
  obtain ⟨d, hd, hdle⟩ := bfsDist_le_of_mem hwf hsz hmem
  exact ⟨d, hd, by omega⟩

theorem bfsDist_exact_path {α : Type} {g : Graph α} {bad : Finset ℕ}
    {src tgt k : ℕ} (hsrc : src ∉ bad) (h : bfsDist g bad src tgt = some k) :
    ∃ p : List ℕ, g.IsPath p ∧ p.head? = some src ∧ p.getLast? = some tgt ∧
      p.length = k + 1 ∧ ∀ x ∈ p, x ∉ bad := by
  obtain ⟨_, hmem, hmin⟩ := bfsDist_some h
  obtain ⟨p, h1, h2, h3, h4, h5⟩ := (mem_reachSet_iff_path g bad hsrc k tgt).1 hmem
  refine ⟨p, h1, h2, h3, ?_, h5⟩
  have hpne : p ≠ [] := by intro hnil; rw [hnil] at h2; cases h2
  have hlen : 1 ≤ p.length := by
    cases p with
    | nil => exact absurd rfl hpne
    | cons a l => simp
  by_contra hne
  have hlt : p.length - 1 < k := by omega
  exact hmin (p.length - 1)  hlt
    ((mem_reachSet_iff_path g bad hsrc _ tgt).2 ⟨p, h1, h2, h3, by omega, h5⟩)

theorem bfsDist_edge_triangle {α : Type} {g : Graph α} (hwf : g.WF) {bad : Finset ℕ}
    {src u m : ℕ} (hsz : src < g.size) (hu : bfsDist g bad src u = some m)
    {e : Edge} (he : e ∈ g.adjOf u) (hb : e.dest ∉ bad) :
    ∃ d, bfsDist g bad src e.dest = some d ∧ d ≤ m + 1 := by
  obtain ⟨_, hmem, _⟩ := bfsDist_some hu
  exact bfsDist_le_of_mem hwf hsz (mem_reachStep_of_edge hmem he hb)

theorem bfsDist_penultimate {α : Type} {g : Graph α} (hwf : g.WF) {src B k : ℕ}
    (hsz : src < g.size) (hne : src ≠ B) (h : bfsDist g ∅ src B = some k) (hk : 1 ≤ k) :
    ∃ u e, e ∈ g.adjOf u ∧ e.dest = B ∧ bfsDist g {B} src u = some (k - 1) := by
  obtain ⟨hksz, hmem, hmin⟩ := bfsDist_some h
  obtain ⟨p, h1, h2, h3, h4, _⟩ := bfsDist_exact_path (by simp) h
  have hpne : p ≠ [] := by intro hnil; rw [hnil] at h2; cases h2
  have hdecomp : p.dropLast ++ [p.getLast hpne] = p := List.dropLast_append_getLast hpne
  have hlastB : p.getLast hpne = B := by
    have := List.getLast?_eq_getLast p hpne
    rw [h3] at this
    exact (Option.some_inj.1 this).symm
  set q := p.dropLast with hqdef
  have hpq : p = q ++ [B] := by rw [← hlastB]; exact hdecomp.symm
  have hqlen : q.length = k := by
    have : p.length = q.length + 1 := by rw [hpq]; simp
    omega
  have hqne : q ≠ [] := by
    intro hnil
    rw [hnil] at hqlen
    simp at hqlen
    omega
  have hBq : B ∉ q := by
    intro hBmem
    obtain ⟨q1, q2, hq12⟩ := List.append_of_mem hBmem
    have hsplit : p = (q1 ++ [B]) ++ (q2 ++ [B]) := by
      rw [hpq, hq12]
      simp
    have hl1ne : q1 ++ [B] ≠ [] := by simp
    have hpath1 : g.IsPath (q1 ++ [B]) := isPath_of_append_left (hsplit ▸ h1)
    have hhead1 : (q1 ++ [B]).head? = some src := by
      rw [hsplit, head?_append_left _ hl1ne] at h2
      exact h2
    have hmem1 : B ∈ reachSet g ∅ src q1.length :=
      (mem_reachSet_iff_path g ∅ (by simp) q1.length B).2
        ⟨q1 ++ [B], hpath1, hhead1, List.getLast?_concat q1, by simp, by simp⟩
    have hq1lt : q1.length < k := by
      have : q.length = q1.length + 1 + q2.length := by
        rw [hq12]
        simp only [List.length_append, List.length_cons]
        omega
      omega
    exact hmin q1.length hq1lt hmem1
  have hvex : ∃ u, q.getLast? = some u := by
    cases hqv : q.getLast? with
    | none => exact absurd (List.getLast?_eq_none_iff.1 hqv) hqne
    | some u => exact ⟨u, rfl⟩
  obtain ⟨u, hu⟩ := hvex
  have hedge : g.hasEdge u B := hasEdge_of_path_snoc (hpq ▸ h1) hu
  have hqpath : g.IsPath q := isPath_of_append_left (hpq ▸ h1)
  have hqhead : q.head? = some src := by
    rw [hpq, head?_append_left _ hqne] at h2
    exact h2
  have hqavoid : ∀ x ∈ q, x ∉ ({B} : Finset ℕ) := by
    intro x hx
    simp only [Finset.mem_singleton]
    intro hxB
    exact hBq (hxB ▸ hx)
  have hsrcB : src ∉ ({B} : Finset ℕ) := by simpa using hne
  have humem : u ∈ reachSet g {B} src (k - 1) :=
    (mem_reachSet_iff_path g {B} hsrcB (k - 1) u).2 ⟨q, hqpath, hqhead, hu, by omega, hqavoid⟩
  obtain ⟨m, hm, hmle⟩ := bfsDist_le_of_mem hwf hsz humem
  have hmge : k - 1 ≤ m := by
    obtain ⟨q', hq'1, hq'2, hq'3, hq'4, hq'5⟩ := bfsDist_exact_path hsrcB hm
    obtain ⟨e, he, hedest⟩ := hedge
    have hq'u : q'.getLast? = some u := hq'3
    have hBpath : g.IsPath (q' ++ [B]) := isPath_snoc hq'1 hq'u ⟨e, he, hedest⟩
    have hq'ne : q' ≠ [] := by intro hnil; rw [hnil] at hq'2; cases hq'2
    have hmemB : B ∈ reachSet g ∅ src (m + 1) :=
      (mem_reachSet_iff_path g ∅ (by simp) (m + 1) B).2
        ⟨q' ++ [B], hBpath, by rw [head?_append_left _ hq'ne]; exact hq'2,
          List.getLast?_concat q', by simp [hq'4], by simp⟩
    by_contra hlt
    exact hmin (m + 1) (by omega) hmemB
  obtain ⟨e, he, hedest⟩ := hedge
  have : m = k - 1 := by omega
  exact ⟨u, e, he, hedest, this ▸ hm⟩

theorem toENat_some (k : ℕ) : toENat (some k) = (k : ℕ∞) := rfl

theorem toENat_none : toENat none = ⊤ := rfl

theorem toENat_ne_top_iff {o : Option ℕ} : toENat o ≠ ⊤ ↔ ∃ k, o = some k := by
  cases o with
  | none => simp [toENat]
  | some k => simp [toENat, ENat.coe_ne_top k]

theorem toENat_le_coe_iff {o : Option ℕ} {m : ℕ} :
    toENat o ≤ (m : ℕ∞) ↔ ∃ k, o = some k ∧ k ≤ m := by
  cases o with
  | none => simp [toENat]
  | some k => simp [toENat, Nat.cast_le]

theorem coe_lt_toENat_iff {o : Option ℕ} {m : ℕ} :
    (m : ℕ∞) < toENat o ↔ ∀ k, o = some k → m < k := by
  cases o with
  | none => simp only [toENat, iff_true_intro (ENat.coe_lt_top m), true_iff]; intro k hk; cases hk
  | some k => simp [toENat, Nat.cast_lt]

theorem spHit_g {α : Type} (s : SPState α) (cur' : List ℕ) : (spHit s cur').g = s.g := by
  unfold spHit
  split
  · rfl
  · split
    · rfl
    · rfl

theorem spHit_smallest_le {α : Type} (s : SPState α) (cur' : List ℕ) :
    (spHit s cur').smallest ≤ s.smallest := by
  unfold spHit
  split
  · exact Nat.le_of_lt (by assumption)
  · split
    · exact le_rfl
    · exact le_rfl

theorem spScan_adjOf {α : Type} (target : ℕ) (s : SPState α) (cur : List ℕ)
    (news : List (List ℕ × ℕ)) (es : List Edge) (j : ℕ) :
    (spScan target s cur news es).1.g.adjOf j = s.g.adjOf j := by
  induction es generalizing s cur news with
  | nil => rfl
  | cons e es ih =>
    by_cases ht : e.dest = target
    · simp only [spScan, if_pos ht]
      rw [ih, spHit_g]
    · by_cases hv : s.g.visitedAt e.dest
      · simp only [spScan, if_neg ht, if_pos hv]
        exact ih s cur news
      · simp only [spScan, if_neg ht, if_neg hv]
        rw [ih]
        exact Graph.adjOf_setVisited s.g e.dest j true

theorem spScan_size {α : Type} (target : ℕ) (s : SPState α) (cur : List ℕ)
    (news : List (List ℕ × ℕ)) (es : List Edge) :
    (spScan target s cur news es).1.g.size = s.g.size := by
  induction es generalizing s cur news with
  | nil => rfl
  | cons e es ih =>
    by_cases ht : e.dest = target
    · simp only [spScan, if_pos ht]
      rw [ih, spHit_g]
    · by_cases hv : s.g.visitedAt e.dest
      · simp only [spScan, if_neg ht, if_pos hv]
        exact ih s cur news
      · simp only [spScan, if_neg ht, if_neg hv]
        rw [ih]
        exact Graph.size_setVisited s.g e.dest true

theorem spScan_core {α : Type} (target : ℕ) (s : SPState α) (cur : List ℕ)
    (news : List (List ℕ × ℕ)) (es : List Edge) :
    (spScan target s cur news es).1.g.core = s.g.core := by
  induction es generalizing s cur news with
  | nil => rfl
  | cons e es ih =>
    by_cases ht : e.dest = target
    · simp only [spScan, if_pos ht]
      rw [ih, spHit_g]
    · by_cases hv : s.g.visitedAt e.dest
      · simp only [spScan, if_neg ht, if_pos hv]
        exact ih s cur news
      · simp only [spScan, if_neg ht, if_neg hv]
        rw [ih]
        exact Graph.core_setVisited s.g e.dest true

theorem spScan_visited_mono {α : Type} (target : ℕ) (s : SPState α) (cur : List ℕ)
    (news : List (List ℕ × ℕ)) (es : List Edge) (w : ℕ)
    (h : s.g.visitedAt w = true) :
    (spScan target s cur news es).1.g.visitedAt w = true := by
  induction es generalizing s cur news with
  | nil => exact h
  | cons e es ih =>
    by_cases ht : e.dest = target
    · simp only [spScan, if_pos ht]
      exact ih _ _ _ (by rw [spHit_g]; exact h)
    · by_cases hv : s.g.visitedAt e.dest
      · simp only [spScan, if_neg ht, if_pos hv]
        exact ih s cur news h
      · simp only [spScan, if_neg ht, if_neg hv]
        apply ih
        show (s.g.setVisited e.dest true).visitedAt w = true
        by_cases hw : w = e.dest
        · rw [hw]
          exact s.g.visitedAt_setVisited_self e.dest true
            (s.g.visitedAt_lt_size e.dest (by simpa using hv))
        · rw [Graph.visitedAt_setVisited_ne s.g e.dest w true hw]
          exact h

theorem spScan_count {α : Type} (target : ℕ) (s : SPState α) (cur : List ℕ)
    (news : List (List ℕ × ℕ)) (es : List Edge) :
    (spScan target s cur news es).1.g.unvisitedCount +
      (spScan target s cur news es).2.2.length =
      s.g.unvisitedCount + news.length := by
  induction es generalizing s cur news with
  | nil => rfl
  | cons e es ih =>
    by_cases ht : e.dest = target
    · simp only [spScan, if_pos ht]
      rw [ih, spHit_g]
    · by_cases hv : s.g.visitedAt e.dest
      · simp only [spScan, if_neg ht, if_pos hv]
        exact ih s cur news
      · simp only [spScan, if_neg ht, if_neg hv]
        rw [ih]
        simp only [List.length_append, List.length_cons, List.length_nil]
        have := s.g.unvisitedCount_setVisited_true e.dest (by simpa using hv)
        show (s.g.setVisited e.dest true).unvisitedCount + (news.length + (0 + 1)) =
          s.g.unvisitedCount + news.length
        omega

theorem spScan_smallest_mono {α : Type} (target : ℕ) (s : SPState α) (cur : List ℕ)
    (news : List (List ℕ × ℕ)) (es : List Edge) :
    (spScan target s cur news es).1.smallest ≤ s.smallest := by
  induction es generalizing s cur news with
  | nil => exact le_rfl
  | cons e es ih =>
    by_cases ht : e.dest = target
    · simp only [spScan, if_pos ht]
      exact le_trans (ih _ _ _) (spHit_smallest_le s _)
    · by_cases hv : s.g.visitedAt e.dest
      · simp only [spScan, if_neg ht, if_pos hv]
        exact ih s cur news
      · simp only [spScan, if_neg ht, if_neg hv]
        exact ih _ cur _

theorem spHit_res_sub {α : Type} (s : SPState α) (cur' : List ℕ) :
    ∀ r ∈ (spHit s cur').res, r ∈ s.res ∨ r = cur' := by
  unfold spHit
  split
  · intro r hr
    simp at hr
    exact Or.inr hr
  · split
    · intro r hr
      rcases List.mem_append.1 hr with hr | hr
      · exact Or.inl hr
      · exact Or.inr (List.mem_singleton.1 hr)
    · intro r hr
      exact Or.inl hr

theorem spScan_shape {α : Type} (A target : ℕ) (s : SPState α) (cur : List ℕ)
    (news : List (List ℕ × ℕ)) (es : List Edge)
    (hcur : cur ≠ [] ∧ cur.head? = some A)
    (hres : ∀ r ∈ s.res, r.head? = some A ∧ r.getLast? = some target ∧ 2 ≤ r.length)
    (hnews : ∀ pv ∈ news, pv.1 ≠ [] ∧ pv.1.head? = some A ∧ pv.1.getLast? = some pv.2) :
    (∀ r ∈ (spScan target s cur news es).1.res,
        r.head? = some A ∧ r.getLast? = some target ∧ 2 ≤ r.length) ∧
      ((spScan target s cur news es).2.1 ≠ [] ∧
        (spScan target s cur news es).2.1.head? = some A) ∧
      ∀ pv ∈ (spScan target s cur news es).2.2,
        pv.1 ≠ [] ∧ pv.1.head? = some A ∧ pv.1.getLast? = some pv.2 := by
  induction es generalizing s cur news with
  | nil => exact ⟨hres, hcur, hnews⟩
  | cons e es ih =>
    by_cases ht : e.dest = target
    · simp only [spScan, if_pos ht]
      apply ih
      · exact ⟨by simp, by rw [head?_append_left _ hcur.1]; exact hcur.2⟩
      · intro r hr
        rcases spHit_res_sub s (cur ++ [e.dest]) r hr with hr | hr
        · exact hres r hr
        · subst hr
          refine ⟨by rw [head?_append_left _ hcur.1]; exact hcur.2, ?_, ?_⟩
          · rw [ht]
            exact List.getLast?_concat cur
          · have : 1 ≤ cur.length := by
              cases cur with
              | nil => exact absurd rfl hcur.1
              | cons a l => simp
            simp only [List.length_append, List.length_cons, List.length_nil]
            omega
      · exact hnews
    · by_cases hv : s.g.visitedAt e.dest
      · simp only [spScan, if_neg ht, if_pos hv]
        exact ih s cur news hcur hres hnews
      · simp only [spScan, if_neg ht, if_neg hv]
        refine ih { s with g := s.g.setVisited e.dest true } cur
          (news ++ [(cur ++ [e.dest], e.dest)]) hcur hres ?_
        intro pv hpv
        rcases List.mem_append.1 hpv with hpv | hpv
        · exact hnews pv hpv
        · rw [List.mem_singleton.1 hpv]
          exact ⟨by simp, by rw [head?_append_left _ hcur.1]; exact hcur.2,
            List.getLast?_concat cur⟩

theorem spLoop_shape {α : Type} (A target : ℕ) (fuel : ℕ) (s : SPState α)
    (q : List (List ℕ × ℕ))
    (hq : ∀ pv ∈ q, pv.1 ≠ [] ∧ pv.1.head? = some A ∧ pv.1.getLast? = some pv.2)
    (hres : ∀ r ∈ s.res, r.head? = some A ∧ r.getLast? = some target ∧ 2 ≤ r.length) :
    ∀ r ∈ (spLoop target fuel s q).res,
      r.head? = some A ∧ r.getLast? = some target ∧ 2 ≤ r.length := by
  induction fuel generalizing s q with
  | zero => exact hres
  | succ fuel ih =>
    cases q with
    | nil => exact hres
    | cons pv q' =>
      obtain ⟨p, v⟩ := pv
      obtain ⟨hp1, hp2, _⟩ := hq (p, v) (List.mem_cons_self _ _)
      have hscan := spScan_shape A target s p [] (s.g.adjOf v) ⟨hp1, hp2⟩ hres (by simp)
      exact ih _ _
        (fun pv hpv => by
          rcases List.mem_append.1 hpv with hpv | hpv
          · exact hq pv (List.mem_cons_of_mem _ hpv)
          · exact hscan.2.2 pv hpv)
        hscan.1

theorem spLoop_core {α : Type} (target fuel : ℕ) (s : SPState α) (q : List (List ℕ × ℕ)) :
    (spLoop target fuel s q).g.core = s.g.core := by
  induction fuel generalizing s q with
  | zero => rfl
  | succ fuel ih =>
    cases q with
    | nil => rfl
    | cons pv q' =>
      obtain ⟨p, v⟩ := pv
      rw [show spLoop target (fuel + 1) s ((p, v) :: q') =
        spLoop target fuel (spScan target s p [] (s.g.adjOf v)).1
          (q' ++ (spScan target s p [] (s.g.adjOf v)).2.2) from rfl, ih]
      exact spScan_core target s p [] (s.g.adjOf v)

theorem searchSmallestPath_shape {α : Type} (g : Graph α) (source target : ℕ) :
    ∀ p ∈ (Consult.searchSmallestPathBetweenAirports g source target).1,
      p.head? = some source ∧ p.getLast? = some target ∧ 2 ≤ p.length := by
  intro p hp
  exact spLoop_shape source target _ _ [([source], source)]
    (by intro pv hpv; rw [List.mem_singleton.1 hpv]; exact ⟨by simp, rfl, rfl⟩)
    (by simp) p hp

theorem searchSmallestPath_core {α : Type} (g : Graph α) (source target : ℕ) :
    (Consult.searchSmallestPathBetweenAirports g source target).2.core = g.core := by
  unfold Consult.searchSmallestPathBetweenAirports
  rw [spLoop_core]
  show ((g.resetVisited.setVisited source true)).core = g.core
  rw [Graph.core_setVisited, Graph.core_resetVisited]

theorem resetVisited_setVisited {α : Type} (g : Graph α) (i : ℕ) (b : Bool) :
    (g.setVisited i b).resetVisited = g.resetVisited := by
  unfold Graph.setVisited Graph.updVtx Graph.resetVisited
  exact congrArg Graph.mk (updateAt_map _ _ g.vertexSet i (fun v => rfl))

theorem searchSmallestPath_stale_flags {α : Type} (g : Graph α) (source target i : ℕ)
    (b : Bool) :
    Consult.searchSmallestPathBetweenAirports (g.setVisited i b) source target =
      Consult.searchSmallestPathBetweenAirports g source target := by
  unfold Consult.searchSmallestPathBetweenAirports
  rw [resetVisited_setVisited]

theorem SPBad_mono {α : Type} (g0 : Graph α) (A B : ℕ) {sm sm' : ℕ} (h : sm' ≤ sm)
    {pv : List ℕ × ℕ} (hb : SPBad g0 A B sm pv) : SPBad g0 A B sm' pv :=
  ⟨by have := hb.1; omega, hb.2⟩

theorem visitedAt_setVisited_true_mono {α : Type} (g : Graph α) (i w : ℕ)
    (h : g.visitedAt w = true) : (g.setVisited i true).visitedAt w = true := by
  by_cases hw : w = i
  · subst hw
    by_cases hi : w < g.size
    · exact g.visitedAt_setVisited_self w true hi
    · have : g.getVtx w = none := by
        simp [Graph.getVtx, List.getElem?_eq_none (Nat.le_of_not_lt hi)]
      have hupd : (g.setVisited w true).getVtx w = none := by
        rw [Graph.setVisited, Graph.getVtx_updVtx_self, this]
        rfl
      simp [Graph.visitedAt, hupd]
  · rw [Graph.visitedAt_setVisited_ne g i w true hw]
    exact h

theorem spHit_lt {α : Type} (s : SPState α) (cur' : List ℕ)
    (h : cur'.length < s.smallest) :
    spHit s cur' = { s with res := [cur'], smallest := cur'.length } := by
  unfold spHit
  rw [if_pos h]

theorem spHit_eq {α : Type} (s : SPState α) (cur' : List ℕ)
    (h1 : ¬ cur'.length < s.smallest) (h2 : cur'.length = s.smallest) :
    spHit s cur' = { s with res := s.res ++ [cur'] } := by
  unfold spHit
  rw [if_neg h1, if_pos h2]

theorem spHit_gt {α : Type} (s : SPState α) (cur' : List ℕ)
    (h1 : ¬ cur'.length < s.smallest) (h2 : ¬ cur'.length = s.smallest) :
    spHit s cur' = s := by
  unfold spHit
  rw [if_neg h1, if_neg h2]

theorem scanMid_hit {α : Type} {g0 : Graph α} {A B : ℕ} (hwf : g0.WF) (hA : A < g0.size)
    (hn : g0.size + 2 < 2147483647) {s0 : SPState α} {p : List ℕ} {v : ℕ}
    (hp1 : p ≠ []) (hp2 : p.head? = some A) (hp3 : p.getLast? = some v)
    (hv3 : drE g0 A B v ≠ ⊤)
    (hdeq : SPGood g0 A B (p, v) ∨ SPBad g0 A B s0.smallest (p, v))
    {e : Edge} (he : e ∈ g0.adjOf v) (ht : e.dest = B)
    {s : SPState α} {cur : List ℕ} {news : List (List ℕ × ℕ)}
    (hmid : ScanMid g0 A B s0 p v s cur news) :
    ScanMid g0 A B s0 p v (spHit s (cur ++ [e.dest])) (cur ++ [e.dest]) news ∧
      (spHit s (cur ++ [e.dest])).smallest ≤ p.length + 1 := by
  obtain ⟨j, hcur, hj⟩ := hmid.hphase
  have hsmono0 : s.smallest ≤ s0.smallest := hmid.hsmono
  have hsm0 : s.smallest ≤ 2147483647 := hmid.hsm
  have hcurlen : cur.length = p.length + j := by
    rw [hcur]
    simp
  have hcurne : cur ≠ [] := by
    rw [hcur]
    intro hc
    exact hp1 (List.append_eq_nil.1 hc).1
  have hcurhead : cur.head? = some A := by
    rw [hcur, head?_append_left _ hp1]
    exact hp2
  have hcand : (cur ++ [e.dest]).length = p.length + j + 1 := by
    simp [hcurlen]
  -- distance bound obtained from the hit edge
  have hdist : distE g0 A B ≤ drE g0 A B v + 1 := by
    rcases hdeq with hg | hb
    · have hpath : g0.IsPath (p ++ [B]) :=
        isPath_snoc hg.1 hp3 ⟨e, he, ht⟩
      obtain ⟨d, hd, hdle⟩ := bfsDist_of_path hwf hA
        (show A ∉ (∅ : Finset ℕ) by simp) hpath
        (by rw [head?_append_left _ hp1]; exact hp2) (List.getLast?_concat p)
        (show ∀ x ∈ p ++ [B], x ∉ (∅ : Finset ℕ) by simp)
      have hlen : (p ++ [B]).length = p.length + 1 := by simp
      rw [hlen] at hdle
      have hdp : (d : ℕ∞) ≤ (p.length : ℕ∞) := Nat.cast_le.2 (by omega)
      calc distE g0 A B = (d : ℕ∞) := by rw [distE, hd, toENat_some]
        _ ≤ (p.length : ℕ∞) := hdp
        _ = drE g0 A B v + 1 := hg.2.2
    · exact le_trans hb.2 le_self_add
  -- the restricted distance of v is finite with a bounded value
  obtain ⟨m, hm⟩ := toENat_ne_top_iff.1 hv3
  have hmsz : m ≤ g0.size := (bfsDist_some hm).1
  have hplen_good : SPGood g0 A B (p, v) → p.length = m + 1 := by
    intro hg
    have hcast : (p.length : ℕ∞) = drE g0 A B v + 1 := hg.2.2
    rw [drE, hm, toENat_some] at hcast
    have hcast2 : (p.length : ℕ∞) = ((m + 1 : ℕ) : ℕ∞) := by
      rw [hcast]
      push_cast
      ring
    exact_mod_cast hcast2
  have hbad_len : SPBad g0 A B s0.smallest (p, v) → s0.smallest + 1 ≤ p.length :=
    fun hb => hb.1
  -- case split on the spHit comparison
  by_cases hlt : (cur ++ [e.dest]).length < s.smallest
  · -- accepted as a strictly smaller path: only reachable in phase 0 from a good entry
    have hj0g : j = 0 ∧ SPGood g0 A B (p, v) := by
      rcases hdeq with hg | hb
      · rcases Nat.eq_zero_or_pos j with hj0 | hjpos
        · exact ⟨hj0, hg⟩
        · have hjle := (hj hjpos).1
          omega
      · have hb1 := hbad_len hb
        omega
    obtain ⟨hj0, hg⟩ := hj0g
    subst hj0
    have hplen : p.length = m + 1 := hplen_good hg
    have hcand0 : (cur ++ [e.dest]).length = p.length + 1 := by omega
    have hsmall' : distE g0 A B + 1 ≤ ((p.length + 1 : ℕ) : ℕ∞) := by
      have h1 : distE g0 A B ≤ (p.length : ℕ∞) := by
        rw [show ((p.length : ℕ) : ℕ∞) = drE g0 A B v + 1 from hg.2.2]
        exact hdist
      calc distE g0 A B + 1 ≤ (p.length : ℕ∞) + 1 := add_le_add_right h1 1
        _ = ((p.length + 1 : ℕ) : ℕ∞) := by push_cast; ring
    rw [spHit_lt s _ hlt]
    refine ⟨⟨hmid.hadj, hmid.hsize, hmid.hvmono, hmid.hvnew, ?_, hmid.hnd, ?_, ?_, ?_, ?_, ?_, ?_⟩, ?_⟩
    · intro pv hpv
      obtain ⟨f1, f2, f3, f4, f5, f6, f7, f8, f9⟩ := hmid.hnews pv hpv
      refine ⟨f1, f2, f3, f4, f5, f6, f7, f8, ?_⟩
      rcases f9 with f9 | f9
      · exact Or.inl f9
      · refine Or.inr (SPBad_mono g0 A B ?_ f9)
        show (cur ++ [e.dest]).length ≤ s.smallest
        omega
    · refine ⟨1, ?_, ?_⟩
      · rw [hcur, ht]
        simp
      · intro _
        refine ⟨?_, hdist⟩
        show (cur ++ [e.dest]).length ≤ p.length + 1
        omega
    · show (cur ++ [e.dest]).length ≤ s0.smallest
      omega
    · show (cur ++ [e.dest]).length ≤ 2147483647
      omega
    · intro _
      show distE g0 A B + 1 ≤ (((cur ++ [e.dest]).length : ℕ) : ℕ∞)
      rw [hcand0]
      exact hsmall'
    · intro r hr
      simp only [List.mem_singleton] at hr
      subst hr
      refine ⟨?_, ?_, rfl⟩
      · rw [head?_append_left _ hcurne]
        exact hcurhead
      · rw [ht]
        exact List.getLast?_concat cur
    · intro _
      show (cur ++ [e.dest]).length < 2147483647
      omega
    · show (cur ++ [e.dest]).length ≤ p.length + 1
      omega
  · by_cases heq : (cur ++ [e.dest]).length = s.smallest
    · -- tie with the current minimum: appended to the result set
      have hj0g : j = 0 ∧ SPGood g0 A B (p, v) := by
        rcases hdeq with hg | hb
        · rcases Nat.eq_zero_or_pos j with hj0 | hjpos
          · exact ⟨hj0, hg⟩
          · have hjle := (hj hjpos).1
            omega
        · have hb1 := hbad_len hb
          omega
      obtain ⟨hj0, hg⟩ := hj0g
      subst hj0
      have hplen : p.length = m + 1 := hplen_good hg
      have hsment : s.smallest < 2147483647 := by omega
      rw [spHit_eq s _ hlt heq]
      refine ⟨⟨hmid.hadj, hmid.hsize, hmid.hvmono, hmid.hvnew, hmid.hnews, hmid.hnd,
        ?_, hmid.hsmono, hmid.hsm, hmid.hsm1, ?_, ?_⟩, ?_⟩
      · refine ⟨1, ?_, ?_⟩
        · rw [hcur, ht]
          simp
        · intro _
          refine ⟨?_, hdist⟩
          show s.smallest ≤ p.length + 1
          omega
      · intro r hr
        rcases List.mem_append.1 hr with hr | hr
        · exact hmid.hres r hr
        · rw [List.mem_singleton.1 hr]
          refine ⟨?_, ?_, heq⟩
          · rw [head?_append_left _ hcurne]
            exact hcurhead
          · rw [ht]
            exact List.getLast?_concat cur
      · intro _
        exact hsment
      · show s.smallest ≤ p.length + 1
        omega
    · -- rejected: state unchanged
      rw [spHit_gt s _ hlt heq]
      have hsm_lt_cand : s.smallest < (cur ++ [e.dest]).length := by omega
      have hslep : s.smallest ≤ p.length + 1 := by
        rcases Nat.eq_zero_or_pos j with hj0 | hjpos
        · omega
        · have := (hj hjpos).1
          omega
      refine ⟨⟨hmid.hadj, hmid.hsize, hmid.hvmono, hmid.hvnew, hmid.hnews, hmid.hnd,
        ?_, hmid.hsmono, hmid.hsm, hmid.hsm1, hmid.hres, hmid.hres2⟩, hslep⟩
      refine ⟨j + 1, ?_, ?_⟩
      · rw [hcur, ht, List.append_assoc, ← List.replicate_succ' j B]
      · intro _
        exact ⟨hslep, hdist⟩

theorem scanMid_mark {α : Type} {g0 : Graph α} {A B : ℕ} (hwf : g0.WF) (hA : A < g0.size)
    {s0 : SPState α} {p : List ℕ} {v : ℕ}
    (hp1 : p ≠ []) (hp2 : p.head? = some A) (hp3 : p.getLast? = some v)
    (hv3 : drE g0 A B v ≠ ⊤)
    (hdeq : SPGood g0 A B (p, v) ∨ SPBad g0 A B s0.smallest (p, v))
    (hlev : ∀ w, s0.g.visitedAt w = false → ¬ (drE g0 A B w ≤ drE g0 A B v))
    {e : Edge} (he : e ∈ g0.adjOf v) (ht : ¬ e.dest = B)
    {s : SPState α} {cur : List ℕ} {news : List (List ℕ × ℕ)}
    (hmid : ScanMid g0 A B s0 p v s cur news)
    (hv : s.g.visitedAt e.dest = false) :
    ScanMid g0 A B s0 p v { s with g := s.g.setVisited e.dest true } cur
      (news ++ [(cur ++ [e.dest], e.dest)]) := by
  obtain ⟨j, hcur, hj⟩ := hmid.hphase
  have hsmono0 : s.smallest ≤ s0.smallest := hmid.hsmono
  have hcurlen : cur.length = p.length + j := by
    rw [hcur]
    simp
  have hcurne : cur ≠ [] := by
    rw [hcur]
    intro hc
    exact hp1 (List.append_eq_nil.1 hc).1
  have hcurhead : cur.head? = some A := by
    rw [hcur, head?_append_left _ hp1]
    exact hp2
  have hdlt : e.dest < g0.size := by
    have := s.g.visitedAt_lt_size e.dest hv
    rw [hmid.hsize] at this
    exact this
  have hs0false : s0.g.visitedAt e.dest = false := by
    cases hs0 : s0.g.visitedAt e.dest with
    | false => rfl
    | true => rw [hmid.hvmono e.dest hs0] at hv; cases hv
  have hnotle := hlev e.dest hs0false
  obtain ⟨m, hm⟩ := toENat_ne_top_iff.1 hv3
  obtain ⟨d, hd, hdm⟩ := bfsDist_edge_triangle hwf hA hm he
    (show e.dest ∉ ({B} : Finset ℕ) by simpa using ht)
  have hmd : m < d := by
    simp only [drE, hd, hm, toENat_some] at hnotle
    exact_mod_cast not_le.1 hnotle
  have hdeq1 : d = m + 1 := by omega
  have hlevel : drE g0 A B e.dest = drE g0 A B v + 1 := by
    rw [drE, hd, toENat_some, drE, hm, toENat_some, hdeq1]
    push_cast
    ring
  have hbad_len : SPBad g0 A B s0.smallest (p, v) → s0.smallest + 1 ≤ p.length :=
    fun hb => hb.1
  refine ⟨?_, ?_, ?_, ?_, ?_, ?_, ?_, hmid.hsmono, hmid.hsm, hmid.hsm1, hmid.hres, hmid.hres2⟩
  · intro i
    show (s.g.setVisited e.dest true).adjOf i = g0.adjOf i
    rw [Graph.adjOf_setVisited]
    exact hmid.hadj i
  · show (s.g.setVisited e.dest true).size = g0.size
    rw [Graph.size_setVisited]
    exact hmid.hsize
  · intro w hw
    exact visitedAt_setVisited_true_mono s.g e.dest w (hmid.hvmono w hw)
  · intro w hw
    by_cases hwe : w = e.dest
    · subst hwe
      exact Or.inr ⟨cur ++ [e.dest], List.mem_append.2 (Or.inr (List.mem_singleton.2 rfl))⟩
    · rw [show (s.g.setVisited e.dest true).visitedAt w = s.g.visitedAt w from
        Graph.visitedAt_setVisited_ne s.g e.dest w true hwe] at hw
      rcases hmid.hvnew w hw with h | ⟨pp, hpp⟩
      · exact Or.inl h
      · exact Or.inr ⟨pp, List.mem_append.2 (Or.inl hpp)⟩
  · intro pv hpv
    rcases List.mem_append.1 hpv with hpv | hpv
    · obtain ⟨f1, f2, f3, f4, f5, f6, f7, f8, f9⟩ := hmid.hnews pv hpv
      exact ⟨f1, f2, visitedAt_setVisited_true_mono s.g e.dest pv.2 f3, f4, f5, f6, f7, f8, f9⟩
    · rw [List.mem_singleton.1 hpv]
      refine ⟨hdlt, ht, ?_, hs0false, by simp, ?_, List.getLast?_concat cur, hlevel, ?_⟩
      · show (s.g.setVisited e.dest true).visitedAt e.dest = true
        refine s.g.visitedAt_setVisited_self e.dest true ?_
        rw [show s.g.size = g0.size from hmid.hsize]
        exact hdlt
      · rw [head?_append_left _ hcurne]
        exact hcurhead
      · -- classification of the freshly enqueued entry
        rcases Nat.eq_zero_or_pos j with hj0 | hjpos
        · subst hj0
          have hcur0 : cur = p := by rw [hcur]; simp
          rcases hdeq with hg | hb
          · refine Or.inl ⟨?_, ?_, ?_⟩
            · rw [hcur0]
              exact isPath_snoc hg.1 hp3 ⟨e, he, rfl⟩
            · rw [hcur0]
              intro hmem
              rcases List.mem_append.1 hmem with hmem | hmem
              · exact hg.2.1 hmem
              · exact ht (List.mem_singleton.1 hmem).symm
            · show (((cur ++ [e.dest]).length : ℕ) : ℕ∞) = drE g0 A B e.dest + 1
              rw [hlevel]
              have hglen : ((p.length : ℕ) : ℕ∞) = drE g0 A B v + 1 := hg.2.2
              have : (cur ++ [e.dest]).length = p.length + 1 := by
                simp [hcur0]
              rw [this]
              push_cast
              rw [hglen]
          · refine Or.inr ⟨?_, ?_⟩
            · show s.smallest + 1 ≤ (cur ++ [e.dest]).length
              have hb1 := hbad_len hb
              have : (cur ++ [e.dest]).length = cur.length + 1 := by simp
              omega
            · rw [hlevel]
              exact le_trans hb.2 le_self_add
        · have hjfacts := hj hjpos
          refine Or.inr ⟨?_, ?_⟩
          · show s.smallest + 1 ≤ (cur ++ [e.dest]).length
            have : (cur ++ [e.dest]).length = cur.length + 1 := by simp
            omega
          · rw [hlevel]
            exact hjfacts.2
  · rw [List.map_append]
    refine List.Nodup.append hmid.hnd (by simp) ?_
    intro a ha hb
    simp only [List.map_cons, List.map_nil, List.mem_singleton] at hb
    subst hb
    rcases List.mem_map.1 ha with ⟨pv, hpv, hpva⟩
    have := (hmid.hnews pv hpv).2.2.1
    rw [hpva] at this
    rw [this] at hv
    cases hv
  · exact ⟨j, hcur, hj⟩

theorem spScan_spec {α : Type} {g0 : Graph α} {A B : ℕ} (hwf : g0.WF) (hA : A < g0.size)
    (hn : g0.size + 2 < 2147483647) {s0 : SPState α} {p : List ℕ} {v : ℕ}
    (hp1 : p ≠ []) (hp2 : p.head? = some A) (hp3 : p.getLast? = some v)
    (hv3 : drE g0 A B v ≠ ⊤)
    (hdeq : SPGood g0 A B (p, v) ∨ SPBad g0 A B s0.smallest (p, v))
    (hlev : ∀ w, s0.g.visitedAt w = false → ¬ (drE g0 A B w ≤ drE g0 A B v))
    (es : List Edge) (hes : ∀ e ∈ es, e ∈ g0.adjOf v)
    (s : SPState α) (cur : List ℕ) (news : List (List ℕ × ℕ))
    (hmid : ScanMid g0 A B s0 p v s cur news) :
    ScanMid g0 A B s0 p v (spScan B s cur news es).1 (spScan B s cur news es).2.1
        (spScan B s cur news es).2.2 ∧
      (∀ e ∈ es, e.dest ≠ B → (spScan B s cur news es).1.g.visitedAt e.dest = true) ∧
      ((∃ e ∈ es, e.dest = B) → (spScan B s cur news es).1.smallest ≤ p.length + 1) := by
  induction es generalizing s cur news with
  | nil =>
    refine ⟨hmid, by simp, ?_⟩
    intro ⟨e, he, _⟩
    simp at he
  | cons e es ih =>
    have hes' : ∀ e' ∈ es, e' ∈ g0.adjOf v := fun e' he' => hes e' (List.mem_cons_of_mem _ he')
    by_cases ht : e.dest = B
    · obtain ⟨hmid', hsm'⟩ := scanMid_hit hwf hA hn hp1 hp2 hp3 hv3 hdeq
        (hes e (List.mem_cons_self _ _)) ht hmid
      obtain ⟨hfin, hc7, hc8⟩ := ih hes' (spHit s (cur ++ [e.dest])) (cur ++ [e.dest]) news hmid'
      rw [show spScan B s cur news (e :: es) =
        spScan B (spHit s (cur ++ [e.dest])) (cur ++ [e.dest]) news es by
          simp [spScan, if_pos ht]]
      refine ⟨hfin, ?_, ?_⟩
      · intro e' he' hne
        rcases List.mem_cons.1 he' with he' | he'
        · subst he'
          exact absurd ht hne
        · exact hc7 e' he' hne
      · intro _
        calc (spScan B (spHit s (cur ++ [e.dest])) (cur ++ [e.dest]) news es).1.smallest
            ≤ (spHit s (cur ++ [e.dest])).smallest := spScan_smallest_mono B _ _ news es
          _ ≤ p.length + 1 := hsm'
    · by_cases hv : s.g.visitedAt e.dest = true
      · obtain ⟨hfin, hc7, hc8⟩ := ih hes' s cur news hmid
        rw [show spScan B s cur news (e :: es) = spScan B s cur news es by
          simp [spScan, if_neg ht, if_pos hv]]
        refine ⟨hfin, ?_, ?_⟩
        · intro e' he' hne
          rcases List.mem_cons.1 he' with he' | he'
          · subst he'
            exact spScan_visited_mono B s cur news es e'.dest hv
          · exact hc7 e' he' hne
        · intro ⟨e', he', hB⟩
          refine hc8 ⟨e', ?_, hB⟩
          rcases List.mem_cons.1 he' with he' | he'
          · subst he'
            exact absurd hB ht
          · exact he'
      · have hvf : s.g.visitedAt e.dest = false := by
          cases hvv : s.g.visitedAt e.dest with
          | false => rfl
          | true => exact absurd hvv hv
        have hmid' := scanMid_mark hwf hA hp1 hp2 hp3 hv3 hdeq hlev
          (hes e (List.mem_cons_self _ _)) ht hmid hvf
        obtain ⟨hfin, hc7, hc8⟩ := ih hes' { s with g := s.g.setVisited e.dest true } cur
          (news ++ [(cur ++ [e.dest], e.dest)]) hmid'
        rw [show spScan B s cur news (e :: es) =
          spScan B { s with g := s.g.setVisited e.dest true } cur
            (news ++ [(cur ++ [e.dest], e.dest)]) es by
          simp [spScan, if_neg ht, if_neg hv]]
        refine ⟨hfin, ?_, ?_⟩
        · intro e' he' hne
          rcases List.mem_cons.1 he' with he' | he'
          · subst he'
            refine spScan_visited_mono B _ cur _ es e'.dest ?_
            show (s.g.setVisited e'.dest true).visitedAt e'.dest = true
            refine s.g.visitedAt_setVisited_self e'.dest true ?_
            exact s.g.visitedAt_lt_size e'.dest hvf
          · exact hc7 e' he' hne
        · intro ⟨e', he', hB⟩
          refine hc8 ⟨e', ?_, hB⟩
          rcases List.mem_cons.1 he' with he' | he'
          · subst he'
            exact absurd hB ht
          · exact he'

/-- Every vertex at restricted level `k + 1` has an in-neighbour at
restricted level `k` (the breadth-first parent). -/
theorem bfsDist_parent {α : Type} {g : Graph α} (hwf : g.WF) {bad : Finset ℕ}
    {src w k : ℕ} (hsz : src < g.size) (hsrc : src ∉ bad)
    (h : bfsDist g bad src w = some (k + 1)) :
    ∃ x e, e ∈ g.adjOf x ∧ e.dest = w ∧ bfsDist g bad src x = some k := by
  obtain ⟨_, hmem, hmin⟩ := bfsDist_some h
  obtain ⟨p, h1, h2, h3, h4, h5⟩ := bfsDist_exact_path hsrc h
  have hpne : p ≠ [] := by intro hnil; rw [hnil] at h2; cases h2
  have hdecomp : p.dropLast ++ [p.getLast hpne] = p := List.dropLast_append_getLast hpne
  have hlastw : p.getLast hpne = w := by
    have := List.getLast?_eq_getLast p hpne
    rw [h3] at this
    exact (Option.some_inj.1 this).symm
  set q := p.dropLast with hqdef
  have hpq : p = q ++ [w] := by rw [← hlastw]; exact hdecomp.symm
  have hqlen : q.length = k + 1 := by
    have : p.length = q.length + 1 := by rw [hpq]; simp
    omega
  have hqne : q ≠ [] := by
    intro hnil
    rw [hnil] at hqlen
    simp at hqlen
  have hxex : ∃ x, q.getLast? = some x := by
    cases hqv : q.getLast? with
    | none => exact absurd (List.getLast?_eq_none_iff.1 hqv) hqne
    | some x => exact ⟨x, rfl⟩
  obtain ⟨x, hx⟩ := hxex
  have hedge : g.hasEdge x w := hasEdge_of_path_snoc (hpq ▸ h1) hx
  have hqpath : g.IsPath q := isPath_of_append_left (hpq ▸ h1)
  have hqhead : q.head? = some src := by
    rw [hpq, head?_append_left _ hqne] at h2
    exact h2
  have hqavoid : ∀ y ∈ q, y ∉ bad := fun y hy => h5 y (by rw [hpq]; exact List.mem_append.2 (Or.inl hy))
  have hxmem : x ∈ reachSet g bad src k :=
    (mem_reachSet_iff_path g bad hsrc k x).2 ⟨q, hqpath, hqhead, hx, by omega, hqavoid⟩
  obtain ⟨m, hm, hmle⟩ := bfsDist_le_of_mem hwf hsz hxmem
  have hwbad : w ∉ bad := h5 w (by rw [hpq]; simp)
  obtain ⟨e, he, hew⟩ := hedge
  have hmge : k ≤ m := by
    obtain ⟨_, hxm, _⟩ := bfsDist_some hm
    have hwmem : w ∈ reachSet g bad src (m + 1) := by
      rw [← hew]
      exact mem_reachStep_of_edge hxm he (hew ▸ hwbad)
    by_contra hlt
    exact hmin (m + 1) (by omega) hwmem
  have : m = k := by omega
  exact ⟨x, e, he, hew, this ▸ hm⟩

theorem sorted_of_all_eq {γ : Type} (f : γ → ℕ∞) (l : List γ) (c : ℕ∞)
    (h : ∀ x ∈ l, f x = c) : (l.map f).Sorted (fun a b => a ≤ b) := by
  induction l with
  | nil => simp
  | cons x xs ih =>
    rw [List.map_cons, List.sorted_cons]
    refine ⟨?_, ih (fun y hy => h y (List.mem_cons_of_mem _ hy))⟩
    intro b hb
    rcases List.mem_map.1 hb with ⟨y, hy, hyb⟩
    rw [← hyb, h y (List.mem_cons_of_mem _ hy), h x (List.mem_cons_self _ _)]

theorem toENat_add_one_ne_top {o : Option ℕ} (h : toENat o ≠ ⊤) : toENat o + 1 ≠ ⊤ := by
  obtain ⟨m, hm⟩ := toENat_ne_top_iff.1 h
  rw [hm, toENat_some]
  rw [show ((m : ℕ∞) + 1) = ((m + 1 : ℕ) : ℕ∞) by push_cast; ring]
  exact ENat.coe_ne_top (m + 1)

theorem ne_B_of_drE_ne_top {α : Type} {g0 : Graph α} {A B w : ℕ} (hAB : A ≠ B)
    (h : drE g0 A B w ≠ ⊤) : w ≠ B := by
  obtain ⟨k, hk⟩ := toENat_ne_top_iff.1 h
  intro hwB
  subst hwB
  rw [bfsDist_avoid_self_none g0 hAB] at hk
  cases hk

theorem lt_size_of_bfsDist_some {α : Type} {g : Graph α} (hwf : g.WF) {bad : Finset ℕ}
    {src w k : ℕ} (hsz : src < g.size) (h : bfsDist g bad src w = some k) : w < g.size :=
  reachSet_lt_size hwf bad hsz k w (bfsDist_some h).2.1

/-- With an empty queue every restricted-reachable vertex is visited: the
visited set is closed under non-target edges (`hI9` with no queue left) and
contains `A`. -/
theorem spInv_closure {α : Type} {g0 : Graph α} {A B : ℕ} (hwf : g0.WF)
    (hA : A < g0.size) {s : SPState α} (hinv : SPInv g0 A B s []) :
    ∀ k, ∀ w ∈ reachSet g0 ({B} : Finset ℕ) A k, s.g.visitedAt w = true := by
  intro k
  induction k with
  | zero =>
    intro w hw
    rw [Finset.mem_singleton.1 hw]
    exact hinv.hA9
  | succ n ih =>
    intro w hw
    rcases Finset.mem_union.1 hw with hw | hw
    · exact ih w hw
    · rcases Finset.mem_biUnion.1 hw with ⟨x, hx, hxw⟩
      rcases Finset.mem_sdiff.1 hxw with ⟨hxw, hwB⟩
      rcases List.mem_map.1 (List.mem_toFinset.1 hxw) with ⟨e, he, hew⟩
      have hxlt : x < g0.size := reachSet_lt_size hwf _ hA n x hx
      have hxvis := ih x hx
      have hwB' : e.dest ≠ B := by
        rw [hew]
        simpa using hwB
      rw [← hew]
      exact hinv.hI9 x hxlt hxvis (by simp) e he hwB'

theorem spInv_final {α : Type} {g0 : Graph α} {A B : ℕ} (hwf : g0.WF)
    (hA : A < g0.size) (_hAB : A ≠ B) {s : SPState α} (hinv : SPInv g0 A B s []) :
    ∀ r ∈ s.res, r.head? = some A ∧ r.getLast? = some B ∧
      ∃ k, bfsDist g0 (∅ : Finset ℕ) A B = some k ∧ r.length = k + 1 := by
  intro r hr
  obtain ⟨h1, h2, h3⟩ := hinv.hres r hr
  refine ⟨h1, h2, ?_⟩
  have hresne : s.res ≠ [] := by intro h; rw [h] at hr; cases hr
  have hsment := hinv.hres2 hresne
  have hle := hinv.hsm1 hsment
  have hdist_ne : distE g0 A B ≠ ⊤ := by
    intro htop
    rw [htop] at hle
    have : (⊤ : ℕ∞) ≤ (s.smallest : ℕ∞) := le_trans (by simp) hle
    exact absurd (top_le_iff.1 this) (ENat.coe_ne_top s.smallest)
  obtain ⟨k, hk⟩ := toENat_ne_top_iff.1 hdist_ne
  refine ⟨k, hk, ?_⟩
  have hup : (s.smallest : ℕ∞) ≤ distE g0 A B + 1 := by
    rcases hinv.hI10 with h10 | h10 | ⟨u, hu1, hu2, hu3, hu4, hu5⟩
    · exact absurd h10 hdist_ne
    · exact h10
    · exfalso
      have hdru_ne : drE g0 A B u ≠ ⊤ := by
        intro htop
        rw [drE] at htop
        rw [distE, hk] at hu4
        rw [drE, htop] at hu4
        simp [toENat_none] at hu4
        exact absurd hu4.symm (ENat.coe_ne_top k)
      obtain ⟨m, hm⟩ := toENat_ne_top_iff.1 hdru_ne
      have humem := (bfsDist_some hm).2.1
      have huvis := spInv_closure hwf hA hinv m u humem
      rcases hu5 with hu5 | ⟨pp, hpp, _⟩
      · rw [hu5] at huvis; cases huvis
      · cases hpp
  have hcast : (s.smallest : ℕ∞) = ((k + 1 : ℕ) : ℕ∞) := by
    have hkk : distE g0 A B + 1 = ((k + 1 : ℕ) : ℕ∞) := by
      rw [distE, hk, toENat_some]
      push_cast
      ring
    rw [hkk] at hup hle
    exact le_antisymm hup hle
  have : s.smallest = k + 1 := by exact_mod_cast hcast
  omega

theorem toENat_le_coe_succ_cases {o : Option ℕ} {m : ℕ} (h : toENat o ≤ (m : ℕ∞) + 1) :
    (∃ k, o = some k ∧ k ≤ m) ∨ o = some (m + 1) := by
  cases o with
  | none =>
    rw [toENat_none] at h
    rw [show ((m : ℕ∞) + 1) = ((m + 1 : ℕ) : ℕ∞) by push_cast; ring] at h
    exact absurd (top_le_iff.1 h) (ENat.coe_ne_top (m + 1))
  | some k =>
    rw [toENat_some, show ((m : ℕ∞) + 1) = ((m + 1 : ℕ) : ℕ∞) by push_cast; ring] at h
    have hk : k ≤ m + 1 := by exact_mod_cast h
    rcases Nat.lt_or_ge k (m + 1) with hlt | hge
    · exact Or.inl ⟨k, rfl, by omega⟩
    · exact Or.inr (by rw [show k = m + 1 by omega])

theorem spInv_step {α : Type} {g0 : Graph α} {A B : ℕ} (hwf : g0.WF) (hA : A < g0.size)
    (hAB : A ≠ B) (hn : g0.size + 2 < 2147483647) {s : SPState α} {p : List ℕ} {v : ℕ}
    {q' : List (List ℕ × ℕ)} (hinv : SPInv g0 A B s ((p, v) :: q')) :
    SPInv g0 A B (spScan B s p [] (s.g.adjOf v)).1
      (q' ++ (spScan B s p [] (s.g.adjOf v)).2.2) := by
  obtain ⟨hv1, hv2, hvvis, hp1, hp2, hp3⟩ := hinv.hq1 (p, v) (List.mem_cons_self _ _)
  have hv3 : drE g0 A B v ≠ ⊤ := (hinv.hvb v hv1 hvvis).2
  have hdeq := hinv.hgb (p, v) (List.mem_cons_self _ _)
  have hheadq : ((p, v) :: q').head? = some (p, v) := rfl
  have hlev : ∀ w, s.g.visitedAt w = false → ¬ (drE g0 A B w ≤ drE g0 A B v) := by
    intro w hw hle
    have := hinv.hI8 (p, v) rfl w hle
    rw [this] at hw
    cases hw
  have hmid0 : ScanMid g0 A B s p v s p [] := by
    refine ⟨hinv.hadj, hinv.hsize, fun w h => h, fun w h => Or.inl h, by simp, by simp,
      ⟨0, by simp, fun h => absurd h (by decide)⟩, le_rfl, hinv.hsm, hinv.hsm1,
      hinv.hres, hinv.hres2⟩
  have hesmem : ∀ e ∈ s.g.adjOf v, e ∈ g0.adjOf v := by
    rw [hinv.hadj v]
    exact fun e he => he
  obtain ⟨hfin, hc7, hc8⟩ := spScan_spec hwf hA hn hp1 hp2 hp3 hv3 hdeq hlev
    (s.g.adjOf v) hesmem s p [] hmid0
  obtain ⟨m, hm⟩ := toENat_ne_top_iff.1 hv3
  have hdrv : drE g0 A B v = (m : ℕ∞) := by rw [drE, hm, toENat_some]
  have hdrv1 : drE g0 A B v + 1 ≠ ⊤ := by
    rw [hdrv, show ((m : ℕ∞) + 1) = ((m + 1 : ℕ) : ℕ∞) by push_cast; ring]
    exact ENat.coe_ne_top (m + 1)
  have hsorted_old := hinv.hsorted
  rw [List.map_cons, List.sorted_cons] at hsorted_old
  obtain ⟨hge_all, hsorted_tail⟩ := hsorted_old
  -- abbreviate the two parts of the scan result
  have hnews := hfin.hnews
  have hvmono := hfin.hvmono
  have hvnew := hfin.hvnew
  -- new sorted
  have hsorted' : ((q' ++ (spScan B s p [] (s.g.adjOf v)).2.2).map
      (fun pv => drE g0 A B pv.2)).Sorted (fun a b => a ≤ b) := by
    rw [List.map_append]
    refine List.pairwise_append.2 ⟨hsorted_tail, sorted_of_all_eq _ _ (drE g0 A B v + 1)
      (fun pv hpv => (hnews pv hpv).2.2.2.2.2.2.2.1), ?_⟩
    intro a ha b hb
    rcases List.mem_map.1 ha with ⟨pva, hpva, ha2⟩
    rcases List.mem_map.1 hb with ⟨pvb, hpvb, hb2⟩
    rw [← ha2, ← hb2, (hnews pvb hpvb).2.2.2.2.2.2.2.1]
    exact hinv.hspread pva (List.mem_cons_of_mem _ hpva) (p, v) rfl
  -- new I9
  have hI9' : ∀ x, x < g0.size → (spScan B s p [] (s.g.adjOf v)).1.g.visitedAt x = true →
      (∀ pv ∈ q' ++ (spScan B s p [] (s.g.adjOf v)).2.2, pv.2 ≠ x) →
      ∀ e ∈ g0.adjOf x, e.dest ≠ B →
        (spScan B s p [] (s.g.adjOf v)).1.g.visitedAt e.dest = true := by
    intro x hxlt hxvis hxq e he heB
    rcases hvnew x hxvis with hxold | ⟨pp, hpp⟩
    · by_cases hxv : x = v
      · subst hxv
        refine hc7 e ?_ heB
        rw [hinv.hadj x]
        exact he
      · have hxoldq : ∀ pv ∈ (p, v) :: q', pv.2 ≠ x := by
          intro pv hpv
          rcases List.mem_cons.1 hpv with hpv | hpv
          · rw [hpv]
            exact fun hc => hxv hc.symm
          · exact hxq pv (List.mem_append.2 (Or.inl hpv))
        exact hvmono e.dest (hinv.hI9 x hxlt hxold hxoldq e he heB)
    · exact absurd rfl (hxq (pp, x) (List.mem_append.2 (Or.inr hpp)))
  refine ⟨hfin.hadj, hfin.hsize, hvmono A hinv.hA9, ?_, ?_, ?_, hsorted', ?_, ?_, hI9', ?_,
    hfin.hsm, hfin.hsm1, hfin.hres, hfin.hres2, ?_⟩
  · -- hvb
    intro w hwlt hwvis
    rcases hvnew w hwvis with hwold | ⟨pp, hpp⟩
    · exact hinv.hvb w hwlt hwold
    · obtain ⟨f1, f2, f3, f4, f5, f6, f7, f8, f9⟩ := hnews (pp, w) hpp
      refine ⟨f2, ?_⟩
      rw [f8]
      exact hdrv1
  · -- hq1
    intro pv hpv
    rcases List.mem_append.1 hpv with hpv | hpv
    · obtain ⟨g1, g2, g3, g4, g5, g6⟩ := hinv.hq1 pv (List.mem_cons_of_mem _ hpv)
      exact ⟨g1, g2, hvmono pv.2 g3, g4, g5, g6⟩
    · obtain ⟨f1, f2, f3, f4, f5, f6, f7, f8, f9⟩ := hnews pv hpv
      exact ⟨f1, f2, f3, f5, f6, f7⟩
  · -- hgb
    intro pv hpv
    rcases List.mem_append.1 hpv with hpv | hpv
    · rcases hinv.hgb pv (List.mem_cons_of_mem _ hpv) with hg | hb
      · exact Or.inl hg
      · exact Or.inr (SPBad_mono g0 A B (le_trans (spScan_smallest_mono B s p [] _) le_rfl) hb)
    · exact (hnews pv hpv).2.2.2.2.2.2.2.2
  · -- hspread
    intro pv hpv pv0 hpv0
    have hup0 : drE g0 A B pv0.2 ≤ drE g0 A B v + 1 := by
      cases hq'c : q' with
      | nil =>
        rw [hq'c] at hpv0
        simp only [List.nil_append] at hpv0
        have hpv0mem : pv0 ∈ (spScan B s p [] (s.g.adjOf v)).2.2 := by
          cases hnw : (spScan B s p [] (s.g.adjOf v)).2.2 with
          | nil => rw [hnw] at hpv0; cases hpv0
          | cons a t =>
            rw [hnw] at hpv0
            simp only [List.head?_cons, Option.mem_def, Option.some_inj] at hpv0
            rw [← hpv0]
            exact List.mem_cons_self _ _
        rw [(hnews pv0 hpv0mem).2.2.2.2.2.2.2.1]
      | cons h0 t0 =>
        rw [hq'c] at hpv0
        simp only [List.cons_append, List.head?_cons, Option.mem_def, Option.some_inj] at hpv0
        rw [← hpv0]
        exact hinv.hspread h0 (List.mem_cons_of_mem _ (hq'c ▸ List.mem_cons_self _ _)) (p, v) rfl
    have hlow0 : drE g0 A B v ≤ drE g0 A B pv0.2 := by
      cases hq'c : q' with
      | nil =>
        rw [hq'c] at hpv0
        simp only [List.nil_append] at hpv0
        have hpv0mem : pv0 ∈ (spScan B s p [] (s.g.adjOf v)).2.2 := by
          cases hnw : (spScan B s p [] (s.g.adjOf v)).2.2 with
          | nil => rw [hnw] at hpv0; cases hpv0
          | cons a t =>
            rw [hnw] at hpv0
            simp only [List.head?_cons, Option.mem_def, Option.some_inj] at hpv0
            rw [← hpv0]
            exact List.mem_cons_self _ _
        rw [(hnews pv0 hpv0mem).2.2.2.2.2.2.2.1]
        exact le_self_add
      | cons h0 t0 =>
        rw [hq'c] at hpv0
        simp only [List.cons_append, List.head?_cons, Option.mem_def, Option.some_inj] at hpv0
        rw [← hpv0]
        refine hge_all _ (List.mem_map.2 ⟨h0, hq'c ▸ List.mem_cons_self _ _, rfl⟩)
    rcases List.mem_append.1 hpv with hpv | hpv
    · calc drE g0 A B pv.2 ≤ drE g0 A B v + 1 :=
          hinv.hspread pv (List.mem_cons_of_mem _ hpv) (p, v) rfl
        _ ≤ drE g0 A B pv0.2 + 1 := add_le_add_right hlow0 1
    · rw [(hnews pv hpv).2.2.2.2.2.2.2.1]
      exact add_le_add_right hlow0 1
  · -- hI8
    intro pv0 hpv0 w hw
    -- the new head exists, so decompose the new queue as pv0 :: rest
    have hhead_decomp : ∃ rest, q' ++ (spScan B s p [] (s.g.adjOf v)).2.2 = pv0 :: rest := by
      cases hq : q' ++ (spScan B s p [] (s.g.adjOf v)).2.2 with
      | nil => rw [hq] at hpv0; cases hpv0
      | cons a t =>
        rw [hq] at hpv0
        simp only [List.head?_cons, Option.mem_def, Option.some_inj] at hpv0
        exact ⟨t, by rw [hpv0]⟩
    obtain ⟨rest, hrest⟩ := hhead_decomp
    have hup0 : drE g0 A B pv0.2 ≤ drE g0 A B v + 1 := by
      have hpv0mem : pv0 ∈ q' ++ (spScan B s p [] (s.g.adjOf v)).2.2 := by
        rw [hrest]
        exact List.mem_cons_self _ _
      rcases List.mem_append.1 hpv0mem with hmem | hmem
      · exact hinv.hspread pv0 (List.mem_cons_of_mem _ hmem) (p, v) rfl
      · rw [(hnews pv0 hmem).2.2.2.2.2.2.2.1]
    have hwle : drE g0 A B w ≤ drE g0 A B v + 1 := le_trans hw hup0
    rw [drE, hdrv] at hwle
    rcases toENat_le_coe_succ_cases hwle with ⟨kw, hkw, hkwm⟩ | hkw
    · -- level at most m: already visited before this iteration
      refine hvmono w (hinv.hI8 (p, v) rfl w ?_)
      rw [drE, hkw, toENat_some, hdrv]
      exact Nat.cast_le.2 hkwm
    · -- level exactly m + 1: its breadth-first parent was fully processed
      obtain ⟨x, e, he, hew, hx⟩ := bfsDist_parent hwf hA
        (show A ∉ ({B} : Finset ℕ) by simpa using hAB) hkw
      have hxvis_old : s.g.visitedAt x = true := by
        refine hinv.hI8 (p, v) rfl x ?_
        rw [drE, hx, toENat_some, hdrv]
      have hxlt : x < g0.size := lt_size_of_bfsDist_some hwf hA hx
      have hwB : w ≠ B := ne_B_of_drE_ne_top hAB (show drE g0 A B w ≠ ⊤ by
        rw [drE, hkw, toENat_some]
        exact ENat.coe_ne_top (m + 1))
      have hxnotq : ∀ pv ∈ q' ++ (spScan B s p [] (s.g.adjOf v)).2.2, pv.2 ≠ x := by
        intro pv hpv hpvx
        -- every entry of the new queue sits at level ≥ the head level = level of pv0;
        -- but x sits at level m < level of every entry at level m + 1.
        -- we only need: the entry's level is ≥ drE pv0.2, and drE pv0.2 = m + 1 here.
        have hlevpv : drE g0 A B pv.2 = (m : ℕ∞) := by
          rw [hpvx, drE, hx, toENat_some]
        -- head level is at least m + 1 since w (level m+1) satisfies hw : dr w ≤ dr pv0.2
        have hhd : ((m + 1 : ℕ) : ℕ∞) ≤ drE g0 A B pv0.2 := by
          rw [drE, hkw, toENat_some] at hw
          exact hw
        -- sortedness: head level ≤ every entry level
        have hsorted'' := hsorted'
        rw [hrest, List.map_cons, List.sorted_cons] at hsorted''
        have hmemlev : drE g0 A B pv.2 ∈ (rest.map (fun pv => drE g0 A B pv.2)) ∨
            pv = pv0 := by
          have : pv ∈ pv0 :: rest := by rw [← hrest]; exact hpv
          rcases List.mem_cons.1 this with hc | hc
          · exact Or.inr hc
          · exact Or.inl (List.mem_map.2 ⟨pv, hc, rfl⟩)
        rcases hmemlev with hc | hc
        · have := hsorted''.1 _ hc
          rw [hlevpv] at this
          have h2 := le_trans hhd this
          rw [show ((m + 1 : ℕ) : ℕ∞) = (m : ℕ∞) + 1 by push_cast; ring] at h2
          have h3 : (m : ℕ∞) + 1 ≤ (m : ℕ∞) := h2
          have h4 : (m : ℕ∞) < (m : ℕ∞) + 1 := by
            rw [show ((m : ℕ∞) + 1) = ((m + 1 : ℕ) : ℕ∞) by push_cast; ring]
            exact Nat.cast_lt.2 (by omega)
          exact absurd (lt_of_lt_of_le h4 h3) (lt_irrefl _)
        · rw [hc] at hlevpv
          rw [hlevpv] at hhd
          rw [show ((m + 1 : ℕ) : ℕ∞) = (m : ℕ∞) + 1 by push_cast; ring] at hhd
          have h4 : (m : ℕ∞) < (m : ℕ∞) + 1 := by
            rw [show ((m : ℕ∞) + 1) = ((m + 1 : ℕ) : ℕ∞) by push_cast; ring]
            exact Nat.cast_lt.2 (by omega)
          exact absurd (lt_of_lt_of_le h4 hhd) (lt_irrefl _)
      rw [← hew]
      exact hI9' x hxlt (hvmono x hxvis_old) hxnotq e he (by rw [hew]; exact hwB)
  · -- hnodup
    rw [List.map_append]
    refine List.Nodup.append ?_ hfin.hnd ?_
    · have := hinv.hnodup
      rw [List.map_cons] at this
      exact (List.nodup_cons.1 this).2
    · intro a ha hb
      rcases List.mem_map.1 ha with ⟨pva, hpva, ha2⟩
      rcases List.mem_map.1 hb with ⟨pvb, hpvb, hb2⟩
      have havis : s.g.visitedAt a = true := by
        rw [← ha2]
        exact (hinv.hq1 pva (List.mem_cons_of_mem _ hpva)).2.2.1
      have hbvis : s.g.visitedAt a = false := by
        rw [← hb2]
        exact (hnews pvb hpvb).2.2.2.1
      rw [havis] at hbvis
      cases hbvis
  · -- hI10
    rcases hinv.hI10 with h10 | h10 | ⟨u, hu1, hu2, hu3, hu4, hu5⟩
    · exact Or.inl h10
    · refine Or.inr (Or.inl ?_)
      exact le_trans (Nat.cast_le.2 (spScan_smallest_mono B s p [] _)) h10
    · by_cases hdtop : distE g0 A B = ⊤
      · exact Or.inl hdtop
      · obtain ⟨kd, hkd⟩ := toENat_ne_top_iff.1 hdtop
        have hdru_ne : drE g0 A B u ≠ ⊤ := by
          intro htop
          rw [htop] at hu4
          rw [distE, hkd, toENat_some] at hu4
          simp at hu4
        obtain ⟨mu, hmu⟩ := toENat_ne_top_iff.1 hdru_ne
        rcases hu5 with hu5 | ⟨pp, hpp, hppg⟩
        · -- witness was unvisited at loop entry
          cases hvis' : (spScan B s p [] (s.g.adjOf v)).1.g.visitedAt u with
          | false =>
            exact Or.inr (Or.inr ⟨u, hu1, hu2, hu3, hu4, Or.inl hvis'⟩)
          | true =>
            rcases hvnew u hvis' with hold | ⟨pp, hpp⟩
            · rw [hu5] at hold; cases hold
            · rcases (hnews (pp, u) hpp).2.2.2.2.2.2.2.2 with hgood | hbad
              · exact Or.inr (Or.inr ⟨u, hu1, hu2, hu3, hu4,
                  Or.inr ⟨pp, List.mem_append.2 (Or.inr hpp), hgood⟩⟩)
              · exfalso
                have hb2 := hbad.2
                rw [← hu4] at hb2
                have : drE g0 A B u < drE g0 A B u + 1 := by
                  rw [drE, hmu, toENat_some,
                    show ((mu : ℕ∞) + 1) = ((mu + 1 : ℕ) : ℕ∞) by push_cast; ring]
                  exact Nat.cast_lt.2 (by omega)
                exact absurd (lt_of_lt_of_le this hb2) (lt_irrefl _)
        · rcases List.mem_cons.1 hpp with hpp | hpp
          · -- the witness entry is the one being dequeued: its target hit
            -- drives smallestSize down to the optimum
            have hpp1 : pp = p := congrArg Prod.fst hpp
            have hpp2 : u = v := congrArg Prod.snd hpp
            have hBes : ∃ e ∈ s.g.adjOf v, e.dest = B := by
              obtain ⟨e, he, heB⟩ := hu3
              refine ⟨e, ?_, heB⟩
              rw [hinv.hadj v, ← hpp2]
              exact he
            have hsm' := hc8 hBes
            refine Or.inr (Or.inl ?_)
            have hplen : (p.length : ℕ∞) = drE g0 A B v + 1 := by
              have hg2 := hppg.2.2
              rw [hpp1, hpp2] at hg2
              exact hg2
            calc ((spScan B s p [] (s.g.adjOf v)).1.smallest : ℕ∞)
                ≤ ((p.length + 1 : ℕ) : ℕ∞) := Nat.cast_le.2 hsm'
              _ = (p.length : ℕ∞) + 1 := by push_cast; ring
              _ = (drE g0 A B v + 1) + 1 := by rw [hplen]
              _ = distE g0 A B + 1 := by rw [← hpp2, hu4]
          · exact Or.inr (Or.inr ⟨u, hu1, hu2, hu3, hu4, Or.inr ⟨pp,
              List.mem_append.2 (Or.inl hpp), hppg⟩⟩)

theorem spInv_init {α : Type} {g : Graph α} {A B : ℕ} (hwf : g.WF) (hA : A < g.size)
    (hAB : A ≠ B) :
    SPInv g A B ⟨(g.resetVisited).setVisited A true, [], 2147483647⟩ [([A], A)] := by
  have hA' : A < g.resetVisited.size := by rw [Graph.size_resetVisited]; exact hA
  have hA9 : ((g.resetVisited).setVisited A true).visitedAt A = true :=
    Graph.visitedAt_setVisited_self _ A true hA'
  have hvchar : ∀ w, w < g.size → w ≠ A →
      ((g.resetVisited).setVisited A true).visitedAt w = false := by
    intro w hw hwA
    rw [Graph.visitedAt_setVisited_ne _ A w true hwA]
    exact Graph.visitedAt_resetVisited g w hw
  have hdrA : drE g A B A = 0 := by
    rw [drE, bfsDist_self g ({B} : Finset ℕ) A, toENat_some, Nat.cast_zero]
  have hgood : SPGood g A B ([A], A) := by
    refine ⟨isPath_singleton g A, ?_, ?_⟩
    · simp only [List.mem_singleton]
      exact fun h => hAB h.symm
    · show (([A] : List ℕ).length : ℕ∞) = drE g A B A + 1
      rw [hdrA, zero_add]
      simp
  refine ⟨?_, ?_, hA9, ?_, ?_, ?_, ?_, ?_, ?_, ?_, ?_, le_rfl, ?_, ?_, ?_, ?_⟩
  · intro j
    rw [Graph.adjOf_setVisited, Graph.adjOf_resetVisited]
  · rw [Graph.size_setVisited, Graph.size_resetVisited]
  · intro w hw hv
    by_cases hwA : w = A
    · subst hwA
      refine ⟨hAB, ?_⟩
      rw [hdrA]
      simp
    · rw [hvchar w hw hwA] at hv
      cases hv
  · intro pv hpv
    simp only [List.mem_singleton] at hpv
    subst hpv
    exact ⟨hA, hAB, hA9, by simp, rfl, by simp⟩
  · intro pv hpv
    simp only [List.mem_singleton] at hpv
    subst hpv
    exact Or.inl hgood
  · simp
  · intro pv hpv pv0 hpv0
    simp only [List.mem_singleton] at hpv
    simp only [List.head?_cons, Option.mem_def, Option.some_inj] at hpv0
    rw [hpv, ← hpv0]
    exact le_self_add
  · intro pv0 hpv0 w hw
    simp only [List.head?_cons, Option.mem_def, Option.some_inj] at hpv0
    rw [← hpv0] at hw
    have hw0 : drE g A B w ≤ 0 := by
      rw [← hdrA]
      exact hw
    have hwz : drE g A B w = 0 := le_antisymm hw0 (zero_le _)
    cases hb : bfsDist g ({B} : Finset ℕ) A w with
    | none =>
      rw [drE, hb, toENat_none] at hwz
      simp at hwz
    | some k =>
      rw [drE, hb, toENat_some] at hwz
      have hk0 : k = 0 := by exact_mod_cast hwz
      subst hk0
      rw [bfsDist_zero_eq_src hb]
      exact hA9
  · intro x hx hvx hq e he heB
    have hAx : A ≠ x := hq ([A], A) (List.mem_cons_self _ _)
    rw [hvchar x hx (fun h => hAx h.symm)] at hvx
    cases hvx
  · simp
  · intro h
    exact absurd h (lt_irrefl _)
  · intro r hr
    cases hr
  · intro h
    exact absurd rfl h
  · by_cases hd : distE g A B = ⊤
    · exact Or.inl hd
    · obtain ⟨kd, hkd⟩ := toENat_ne_top_iff.1 hd
      cases kd with
      | zero => exact absurd (bfsDist_zero_eq_src hkd).symm hAB
      | succ kd' =>
        obtain ⟨u, e, he, heB, hu⟩ := bfsDist_penultimate hwf hA hAB hkd (by omega)
        simp only [Nat.add_sub_cancel] at hu
        refine Or.inr (Or.inr ⟨u, lt_size_of_bfsDist_some hwf hA hu,
          ne_B_of_drE_ne_top hAB (show drE g A B u ≠ ⊤ by
            rw [drE, hu, toENat_some]
            exact ENat.coe_ne_top _),
          ⟨e, he, heB⟩, ?_, ?_⟩)
        · rw [drE, hu, toENat_some, distE, hkd, toENat_some]
          push_cast
          ring
        · by_cases huA : u = A
          · subst huA
            exact Or.inr ⟨[u], List.mem_cons_self _ _, hgood⟩
          · exact Or.inl (hvchar u (lt_size_of_bfsDist_some hwf hA hu) huA)

theorem spLoop_spec {α : Type} {g0 : Graph α} {A B : ℕ} (hwf : g0.WF) (hA : A < g0.size)
    (hAB : A ≠ B) (hn : g0.size + 2 < 2147483647) :
    ∀ (fuel : ℕ) (s : SPState α) (q : List (List ℕ × ℕ)),
      s.g.unvisitedCount + q.length ≤ fuel → SPInv g0 A B s q →
      ∀ r ∈ (spLoop B fuel s q).res, r.head? = some A ∧ r.getLast? = some B ∧
        ∃ k, bfsDist g0 (∅ : Finset ℕ) A B = some k ∧ r.length = k + 1 := by
  intro fuel
  induction fuel with
  | zero =>
    intro s q hfuel hinv
    have hq : q = [] := by
      cases q with
      | nil => rfl
      | cons a t => simp at hfuel
    subst hq
    exact spInv_final hwf hA hAB hinv
  | succ fuel ih =>
    intro s q hfuel hinv
    cases q with
    | nil =>
      exact spInv_final hwf hA hAB hinv
    | cons pv q' =>
      obtain ⟨p, v⟩ := pv
      have hstep := spInv_step hwf hA hAB hn hinv
      have hcount := spScan_count B s p [] (s.g.adjOf v)
      have hfuel' : (spScan B s p [] (s.g.adjOf v)).1.g.unvisitedCount +
          (q' ++ (spScan B s p [] (s.g.adjOf v)).2.2).length ≤ fuel := by
        simp only [List.length_append]
        simp only [List.length_cons] at hfuel
        simp only [List.length_nil] at hcount
        omega
      have hrec := ih (spScan B s p [] (s.g.adjOf v)).1
        (q' ++ (spScan B s p [] (s.g.adjOf v)).2.2) hfuel' hstep
      simpa only [spLoop] using hrec

/-- The shortest-path search is exact whenever source and target differ:
every returned path runs from the source to the target and its node count
is one more than the independent breadth-first hop distance. -/
theorem searchSmallestPath_exact {α : Type} (g : Graph α) (A B : ℕ) (hwf : g.WF)
    (hA : A < g.size) (hAB : A ≠ B) (hn : g.size + 2 < 2147483647) :
    ∀ r ∈ (Consult.searchSmallestPathBetweenAirports g A B).1,
      r.head? = some A ∧ r.getLast? = some B ∧
      ∃ k, bfsDist g (∅ : Finset ℕ) A B = some k ∧ r.length = k + 1 := by
  intro r hr
  have hfuel : ((g.resetVisited).setVisited A true).unvisitedCount +
      ([([A], A)] : List (List ℕ × ℕ)).length ≤
      ((g.resetVisited).setVisited A true).size + 1 := by
    have h1 : ((g.resetVisited).setVisited A true).unvisitedCount + 1 =
        (g.resetVisited).unvisitedCount := by
      refine Graph.unvisitedCount_setVisited_true _ A ?_
      refine Graph.visitedAt_resetVisited g A hA
    have h2 : (g.resetVisited).unvisitedCount = g.size :=
      Graph.unvisitedCount_resetVisited g
    have h3 : ((g.resetVisited).setVisited A true).size = g.size := by
      rw [Graph.size_setVisited, Graph.size_resetVisited]
    simp only [List.length_cons, List.length_nil, h3]
    omega
  have := spLoop_spec hwf hA hAB hn (((g.resetVisited).setVisited A true).size + 1)
    ⟨(g.resetVisited).setVisited A true, [], 2147483647⟩ [([A], A)] hfuel
    (spInv_init hwf hA hAB) r
  apply this
  simpa only [Consult.searchSmallestPathBetweenAirports] using hr

/-- C1 (amended: the two endpoints must differ). For a well-formed graph, a
source index in range, `A ≠ B`, and a vertex count below the `INT_MAX`
sentinel, every path returned by `searchSmallestPathBetweenAirports A B`
starts at `A`, ends at `B`, and has exactly `k + 1` nodes where `k` is the
breadth-first hop distance from `A` to `B` computed by an independent BFS; in
particular all returned paths have the same number of nodes. The original
claim, quantified over every pair with `B` reachable from `A`, fails at
`A = B` (see the counterexample). -/
theorem C1_shortest_paths_exact {α : Type} (g : Graph α) (A B : ℕ) (hwf : g.WF)
    (hA : A < g.size) (hAB : A ≠ B) (hn : g.size + 2 < 2147483647) :
    (∀ r ∈ (Consult.searchSmallestPathBetweenAirports g A B).1,
      r.head? = some A ∧ r.getLast? = some B ∧
      ∃ k, bfsDist g (∅ : Finset ℕ) A B = some k ∧ r.length = k + 1) ∧
    (∀ r1 ∈ (Consult.searchSmallestPathBetweenAirports g A B).1,
      ∀ r2 ∈ (Consult.searchSmallestPathBetweenAirports g A B).1,
        r1.length = r2.length) := by
  refine ⟨searchSmallestPath_exact g A B hwf hA hAB hn, ?_⟩
  intro r1 hr1 r2 hr2
  obtain ⟨_, _, k1, hk1, hl1⟩ := searchSmallestPath_exact g A B hwf hA hAB hn r1 hr1
  obtain ⟨_, _, k2, hk2, hl2⟩ := searchSmallestPath_exact g A B hwf hA hAB hn r2 hr2
  rw [hk1] at hk2
  have : k1 = k2 := Option.some_inj.1 hk2
  omega

/-- C1 counterexample: on the two-cycle with source = target = 0 the
breadth-first distance is 0, yet the single returned path `[0, 1, 0]` has 3
nodes, not `0 + 1`. -/
theorem C1_shortest_paths_exact_counterexample :
    bfsDist twoCycleGraph (∅ : Finset ℕ) 0 0 = some 0 ∧
    (Consult.searchSmallestPathBetweenAirports twoCycleGraph 0 0).1 = [[0, 1, 0]] ∧
    ([0, 1, 0] : List ℕ).length ≠ 0 + 1 := by
  refine ⟨by decide, by decide, by decide⟩

theorem C1_shortest_paths_exact_witness :
    ([0, 1, 3] : List ℕ).head? = some 0 ∧ ([0, 1, 3] : List ℕ).getLast? = some 3 ∧
      bfsDist diamondGraph (∅ : Finset ℕ) 0 3 = some 2 ∧
      ([0, 1, 3] : List ℕ).length = 2 + 1 := by
  obtain ⟨h1, h2, k, hk, hlen⟩ := (C1_shortest_paths_exact diamondGraph 0 3 (by decide)
    (by decide) (by decide) (by decide)).1 [0, 1, 3] (by decide)
  have hbfs : bfsDist diamondGraph (∅ : Finset ℕ) 0 3 = some 2 := by decide
  rw [hbfs] at hk
  have hk2 : k = 2 := (Option.some_inj.1 hk).symm
  subst hk2
  exact ⟨h1, h2, hbfs, hlen⟩

theorem reachLoop_mono {α β : Type} [DecidableEq β] (f : ℕ → β) {x y : ℤ} (hxy : x ≤ y) :
    ∀ (fuel : ℕ) (g : Graph α) (q : List (ℕ × ℕ)) (accx accy : Finset β),
      accx ⊆ accy → reachLoop f x fuel g q accx ⊆ reachLoop f y fuel g q accy := by
  intro fuel
  induction fuel with
  | zero =>
    intro g q accx accy h
    exact h
  | succ fuel ih =>
    intro g q accx accy h
    cases q with
    | nil => exact h
    | cons p q =>
      obtain ⟨a, stop⟩ := p
      simp only [reachLoop]
      apply ih
      by_cases hsx : (stop : ℤ) ≤ x
      · have hsy : (stop : ℤ) ≤ y := le_trans hsx hxy
        simp only [if_pos hsx, if_pos hsy]
        exact Finset.union_subset_union h (Finset.Subset.refl _)
      · by_cases hsy : (stop : ℤ) ≤ y
        · simp only [if_neg hsx, if_pos hsy]
          exact h.trans Finset.subset_union_left
        · simp only [if_neg hsx, if_neg hsy]
          exact h

theorem enqueueNbrs_stops {α : Type} (g : Graph α) (stop1 : ℕ) (es : List Edge) :
    ∀ p ∈ (enqueueNbrs g stop1 es).2, p.2 = stop1 := by
  induction es generalizing g with
  | nil => intro p hp; cases hp
  | cons e es ih =>
    intro p hp
    by_cases hv : g.visitedAt e.dest
    · simp only [enqueueNbrs, if_pos hv] at hp
      exact ih g p hp
    · simp only [enqueueNbrs, if_neg hv] at hp
      rcases List.mem_cons.1 hp with hp | hp
      · rw [hp]
      · exact ih _ p hp

theorem reachLoop_stop {α β : Type} [DecidableEq β] (f : ℕ → β) (layOvers : ℤ) :
    ∀ (fuel : ℕ) (g : Graph α) (q : List (ℕ × ℕ)) (acc : Finset β),
      (∀ p ∈ q, layOvers < (p.2 : ℤ)) → reachLoop f layOvers fuel g q acc = acc := by
  intro fuel
  induction fuel with
  | zero =>
    intro g q acc _
    rfl
  | succ fuel ih =>
    intro g q acc hq
    cases q with
    | nil => rfl
    | cons p q =>
      obtain ⟨a, stop⟩ := p
      have hstop : layOvers < (stop : ℤ) := hq (a, stop) (List.mem_cons_self _ _)
      simp only [reachLoop, if_neg (not_le.2 hstop)]
      apply ih
      intro p hp
      rcases List.mem_append.1 hp with hp | hp
      · exact hq p (List.mem_cons_of_mem _ hp)
      · rw [enqueueNbrs_stops g (stop + 1) (g.adjOf a) p hp]
        push_cast
        omega

/-- C4: the bounded-hop reachable-destinations count is monotone in the
lay-over budget (the traversal is identical for every budget; only the
collection condition `stop <= layOvers` loosens), and a start vertex whose
adjacency list consists of direct flights to exactly two destinations with
distinct attributes counts 2 destinations at `layOvers = 0`. -/
theorem C4_reach_count_monotone_and_direct {α β : Type} [DecidableEq β] (g : Graph α)
    (f : ℕ → β) :
    (∀ (a : ℕ) (x y : ℤ), x ≤ y →
      ∃ n m,
        Consult.searchNumberOfReachableDestinationsInXStopsFromAirport g f (some a) x =
          some n ∧
        Consult.searchNumberOfReachableDestinationsInXStopsFromAirport g f (some a) y =
          some m ∧ n ≤ m) ∧
    (∀ (a : ℕ) (e1 e2 : Edge), g.adjOf a = [e1, e2] → f e1.dest ≠ f e2.dest →
      Consult.searchNumberOfReachableDestinationsInXStopsFromAirport g f (some a) 0 =
        some 2) := by
  constructor
  · intro a x y hxy
    refine ⟨_, _, rfl, rfl, ?_⟩
    exact Finset.card_le_card (reachLoop_mono f hxy _ _ _ _ _ (Finset.Subset.refl _))
  · intro a e1 e2 hadj hne
    show some ((reachLoop f 0 (((g.resetVisited).setVisited a true).size + 1)
      ((g.resetVisited).setVisited a true) [(a, 0)] ∅).card) = some 2
    have hadj1 : ((g.resetVisited).setVisited a true).adjOf a = [e1, e2] := by
      rw [Graph.adjOf_setVisited, Graph.adjOf_resetVisited]
      exact hadj
    have hstep : reachLoop f 0 (((g.resetVisited).setVisited a true).size + 1)
        ((g.resetVisited).setVisited a true) [(a, 0)] ∅ =
        (((((g.resetVisited).setVisited a true).adjOf a).map (fun e => f e.dest)).toFinset :
          Finset β) := by
      simp only [reachLoop, Nat.cast_zero, le_refl, if_pos, List.nil_append]
      rw [reachLoop_stop]
      · rw [Finset.empty_union]
      · intro p hp
        rw [enqueueNbrs_stops _ _ _ p hp]
        push_cast
    rw [hstep, hadj1]
    simp only [List.map_cons, List.map_nil, List.toFinset_cons, List.toFinset_nil,
      insert_emptyc_eq]
    rw [Finset.card_insert_of_not_mem (by simp [hne]), Finset.card_singleton]

theorem C4_reach_count_monotone_and_direct_witness :
    diamondGraph.adjOf 0 = [⟨1, 0, ∅⟩, ⟨2, 0, ∅⟩] ∧
    (⟨1, 0, ∅⟩ : Edge).dest ≠ (⟨2, 0, ∅⟩ : Edge).dest ∧
    Consult.searchNumberOfReachableDestinationsInXStopsFromAirport diamondGraph
      (fun i => i) (some 0) 0 = some 2 :=
  ⟨by decide, by decide,
    (C4_reach_count_monotone_and_direct diamondGraph (fun i => i)).2 0 ⟨1, 0, ∅⟩ ⟨2, 0, ∅⟩
      (by decide) (by decide)⟩

/-- C8 (amended): `Graph::dfs` with an absent payload returns the empty
list, as the claim says; but the reachable-destinations count, handed the
null vertex pointer of an absent airport, dereferences it
(`airport->setVisited(true)`) — a fault (`none`), not an empty result. -/
theorem C8_absent_start {α β : Type} [DecidableEq α] [DecidableEq β] (g : Graph α)
    (f : ℕ → β) (x : α) (layOvers : ℤ) (habs : g.findVertexIdx x = none) :
    g.dfs x = [] ∧
    Consult.searchNumberOfReachableDestinationsInXStopsFromAirport g f none layOvers =
      none := by
  refine ⟨?_, rfl⟩
  unfold Graph.dfs
  rw [habs]

/-- C8 counterexample: with an absent start airport the reach-count query is
a null-pointer dereference (`none`), not the zero count the claim promises
for every Network Analyzer operation. -/
theorem C8_absent_start_counterexample :
    Consult.searchNumberOfReachableDestinationsInXStopsFromAirport twoCycleGraph
      (fun i => i) none 0 ≠ some 0 := by
  decide

theorem C8_absent_start_witness :
    twoCycleGraph.findVertexIdx 5 = none ∧ twoCycleGraph.dfs 5 = [] ∧
    Consult.searchNumberOfReachableDestinationsInXStopsFromAirport twoCycleGraph
      (fun i => i) none 0 = none :=
  ⟨by decide, C8_absent_start twoCycleGraph (fun i => i) 5 0 (by decide)⟩

theorem findIdx_none_forall {γ : Type} (p : γ → Bool) :
    ∀ (l : List γ) (s : ℕ), List.findIdx? p l s = none → ∀ x ∈ l, p x = false := by
  intro l
  induction l with
  | nil => intro s h x hx; cases hx
  | cons a l ih =>
    intro s h x hx
    by_cases hpa : p a
    · rw [List.findIdx?_cons, if_pos hpa] at h
      cases h
    · rw [List.findIdx?_cons, if_neg hpa] at h
      rcases List.mem_cons.1 hx with hx | hx
      · rw [hx]
        exact Bool.eq_false_iff.2 hpa
      · exact ih (s + 1) h x hx

theorem Graph.adjOf_updEdge_ne {α : Type} (g : Graph α) (i p x : ℕ) (f : Edge → Edge)
    (h : x ≠ i) : (g.updEdge i p f).adjOf x = g.adjOf x := by
  simp [Graph.updEdge, Graph.adjOf, Graph.getVtx_updVtx_ne _ _ _ _ h]

theorem Graph.adjOf_updEdge_self {α : Type} (g : Graph α) (i p : ℕ) (f : Edge → Edge) :
    (g.updEdge i p f).adjOf i = updateAt f (g.adjOf i) p := by
  simp only [Graph.updEdge, Graph.adjOf, Graph.getVtx_updVtx_self]
  cases g.getVtx i <;> simp [updateAt]

theorem Graph.infoAt_updEdge {α : Type} (g : Graph α) (i p x : ℕ) (f : Edge → Edge) :
    (g.updEdge i p f).infoAt x = g.infoAt x :=
  Graph.infoAt_updVtx g i x _ (fun _ => rfl)

theorem Graph.size_updEdge {α : Type} (g : Graph α) (i p : ℕ) (f : Edge → Edge) :
    (g.updEdge i p f).size = g.size :=
  Graph.size_updVtx g i _

/-- An edge-local update (such as merging an airline) keeps the
destination-payload sequence of every adjacency list. -/
theorem updEdge_dest_map {α : Type} (g g' : Graph α) (i p : ℕ) (f : Edge → Edge)
    (hf : ∀ e, (f e).dest = e.dest) (x : ℕ) :
    ((g.updEdge i p f).adjOf x).map (fun e => g'.infoAt e.dest) =
      (g.adjOf x).map (fun e => g'.infoAt e.dest) := by
  by_cases hx : x = i
  · subst hx
    rw [Graph.adjOf_updEdge_self]
    exact updateAt_map _ f (g.adjOf x) p (fun e => by rw [hf])
  · rw [Graph.adjOf_updEdge_ne g i p x f hx]

/-- C2 (amended): `Vertex::addEdge` appends unconditionally, so a repeated
`Graph::addEdge` for an existing ordered pair appends a parallel edge rather
than being a no-op; the at-most-one-edge-per-ordered-pair invariant
nonetheless holds for the graph the parser builds, because every
`parseFlights` row first scans the source's adjacency list for an edge to
the target payload and only calls `addEdge` when none exists. -/
theorem C2_addEdge_appends_and_parse_preserves {α : Type} [DecidableEq α] :
    (∀ (g : Graph α) (s t : α) (d : ℚ) (i j : ℕ), g.findVertexIdx s = some i →
      g.findVertexIdx t = some j →
      (g.addEdge s t d).2.adjOf i = g.adjOf i ++ [⟨j, d, ∅⟩]) ∧
    (∀ (g : Graph α) (s t : α) (airline : String) (d : ℚ) (g' : Graph α),
      g.atMostOnePerPair → ParseData.parseFlightStep g s t airline d = some g' →
      g'.atMostOnePerPair) := by
  have haddE : ∀ (g : Graph α) (s t : α) (d : ℚ) (i j : ℕ), g.findVertexIdx s = some i →
      g.findVertexIdx t = some j →
      (g.addEdge s t d).2.adjOf i = g.adjOf i ++ [⟨j, d, ∅⟩] := by
    intro g s t d i j hi hj
    obtain ⟨v, hv, _⟩ := findIdxAux_some s g.vertexSet i hi
    simp only [Graph.addEdge, hi, hj]
    show (g.updVtx i (fun v => v.addEdge j d)).adjOf i = g.adjOf i ++ [⟨j, d, ∅⟩]
    simp only [Graph.adjOf, Graph.getVtx_updVtx_self]
    rw [show g.getVtx i = some v from hv]
    rfl
  refine ⟨haddE, ?_⟩
  intro g s t airline d g' hinv hstep
  unfold ParseData.parseFlightStep at hstep
  cases hi : g.findVertexIdx s with
  | none => rw [hi] at hstep; cases hstep
  | some i =>
  cases hj : g.findVertexIdx t with
  | none => rw [hi, hj] at hstep; cases hstep
  | some j =>
  rw [hi, hj] at hstep
  dsimp only at hstep
  -- the final flight-counter bumps change neither adjacency nor payloads
  have hcounters : ∀ (h : Graph α) (x : ℕ),
      (((h.updVtx i (fun v => { v with flightsFrom := v.flightsFrom + 1 })).updVtx j
        (fun v => { v with flightsTo := v.flightsTo + 1 })).adjOf x = h.adjOf x) ∧
      (((h.updVtx i (fun v => { v with flightsFrom := v.flightsFrom + 1 })).updVtx j
        (fun v => { v with flightsTo := v.flightsTo + 1 })).infoAt x = h.infoAt x) := by
    intro h x
    constructor
    · rw [Graph.adjOf_updVtx (h.updVtx i (fun v => { v with flightsFrom := v.flightsFrom + 1 }))
        j x (fun v => { v with flightsTo := v.flightsTo + 1 }) (fun v => rfl),
        Graph.adjOf_updVtx h i x (fun v => { v with flightsFrom := v.flightsFrom + 1 })
          (fun v => rfl)]
    · rw [Graph.infoAt_updVtx (h.updVtx i (fun v => { v with flightsFrom := v.flightsFrom + 1 }))
        j x (fun v => { v with flightsTo := v.flightsTo + 1 }) (fun v => rfl),
        Graph.infoAt_updVtx h i x (fun v => { v with flightsFrom := v.flightsFrom + 1 })
          (fun v => rfl)]
  have hsize2 : ∀ (h : Graph α),
      ((h.updVtx i (fun v => { v with flightsFrom := v.flightsFrom + 1 })).updVtx j
        (fun v => { v with flightsTo := v.flightsTo + 1 })).size = h.size := by
    intro h
    rw [Graph.size_updVtx, Graph.size_updVtx]
  cases hfound : (g.adjOf i).findIdx? (fun e => g.infoAt e.dest == g.infoAt j) with
  | some p =>
    rw [hfound] at hstep
    set g2 := g.updEdge i p (fun e => e.addAirline airline) with hg2
    have hg' : g' = (g2.updVtx i (fun v => { v with flightsFrom := v.flightsFrom + 1 })).updVtx j
        (fun v => { v with flightsTo := v.flightsTo + 1 }) := (Option.some_inj.1 hstep).symm
    have hadjg' : ∀ z, g'.adjOf z = g2.adjOf z := by
      intro z
      rw [hg']
      exact (hcounters g2 z).1
    have hinfog' : ∀ y, g'.infoAt y = g.infoAt y := by
      intro y
      rw [hg', (hcounters g2 y).2, hg2, Graph.infoAt_updEdge]
    have hsizeg' : g'.size = g.size := by
      rw [hg', hsize2 g2, hg2, Graph.size_updEdge]
    intro x hx
    rw [hadjg' x,
      show ((g2.adjOf x).map (fun e => g'.infoAt e.dest)) =
        ((g2.adjOf x).map (fun e => g.infoAt e.dest)) from
        List.map_congr_left (fun e _ => hinfog' e.dest),
      hg2, updEdge_dest_map g g i p (fun e => e.addAirline airline) (fun e => rfl) x]
    refine hinv x ?_
    rw [hsizeg'] at hx
    exact hx
  | none =>
    rw [hfound] at hstep
    have hnotin : ∀ e ∈ g.adjOf i, g.infoAt e.dest ≠ g.infoAt j := by
      intro e he
      have := findIdx_none_forall _ _ _ hfound e he
      simpa using this
    set g1 := (g.addEdge s t d).2 with hg1
    have hadj1i : g1.adjOf i = g.adjOf i ++ [⟨j, d, ∅⟩] := haddE g s t d i j hi hj
    have hadj1ne : ∀ x, x ≠ i → g1.adjOf x = g.adjOf x := by
      intro x hxi
      rw [hg1]
      simp only [Graph.addEdge, hi, hj]
      show (g.updVtx i (fun v => v.addEdge j d)).adjOf x = g.adjOf x
      simp [Graph.adjOf, Graph.getVtx_updVtx_ne _ _ _ _ hxi]
    have hinfo1 : ∀ y, g1.infoAt y = g.infoAt y := by
      intro y
      rw [hg1]
      simp only [Graph.addEdge, hi, hj]
      show (g.updVtx i (fun v => v.addEdge j d)).infoAt y = g.infoAt y
      exact Graph.infoAt_updVtx _ _ _ _ (fun v => rfl)
    have hsize1 : g1.size = g.size := by
      rw [hg1]
      simp only [Graph.addEdge, hi, hj]
      exact Graph.size_updVtx g i _
    -- whichever branch the second scan takes, the destination-payload maps
    -- of g2 agree with those of g1
    have hg2fact : ∃ g2 : Graph α,
        g' = (g2.updVtx i (fun v => { v with flightsFrom := v.flightsFrom + 1 })).updVtx j
          (fun v => { v with flightsTo := v.flightsTo + 1 }) ∧
        (∀ x, ((g2.adjOf x).map (fun e => g2.infoAt e.dest)) =
          ((g1.adjOf x).map (fun e => g1.infoAt e.dest))) ∧ g2.size = g1.size := by
      cases hfound2 : (g1.adjOf i).findIdx? (fun e => g1.infoAt e.dest == g1.infoAt j) with
      | some p =>
        rw [hfound2] at hstep
        refine ⟨g1.updEdge i p (fun e => e.addAirline airline),
          (Option.some_inj.1 hstep).symm, ?_, Graph.size_updEdge g1 i p _⟩
        intro x
        calc (((g1.updEdge i p (fun e => e.addAirline airline)).adjOf x).map
            (fun e => (g1.updEdge i p (fun e => e.addAirline airline)).infoAt e.dest))
            = (((g1.updEdge i p (fun e => e.addAirline airline)).adjOf x).map
              (fun e => g1.infoAt e.dest)) :=
              List.map_congr_left (fun e _ =>
                Graph.infoAt_updEdge g1 i p e.dest (fun e => e.addAirline airline))
          _ = ((g1.adjOf x).map (fun e => g1.infoAt e.dest)) :=
              updEdge_dest_map g1 g1 i p (fun e => e.addAirline airline) (fun e => rfl) x
      | none =>
        rw [hfound2] at hstep
        exact ⟨g1, (Option.some_inj.1 hstep).symm, fun x => rfl, rfl⟩
    obtain ⟨g2, hg', hg2map, hg2size⟩ := hg2fact
    have hadjg' : ∀ z, g'.adjOf z = g2.adjOf z := by
      intro z
      rw [hg']
      exact (hcounters g2 z).1
    have hinfog2 : ∀ y, g'.infoAt y = g2.infoAt y := by
      intro y
      rw [hg']
      exact (hcounters g2 y).2
    have hsizeg' : g'.size = g.size := by
      rw [hg', hsize2 g2, hg2size, hsize1]
    intro x hx
    rw [hadjg' x,
      show ((g2.adjOf x).map (fun e => g'.infoAt e.dest)) =
        ((g2.adjOf x).map (fun e => g2.infoAt e.dest)) from
        List.map_congr_left (fun e _ => hinfog2 e.dest),
      hg2map x]
    by_cases hxi : x = i
    · subst hxi
      rw [hadj1i,
        show (((g.adjOf x ++ [⟨j, d, ∅⟩] : List Edge)).map (fun e => g1.infoAt e.dest)) =
          (((g.adjOf x ++ [⟨j, d, ∅⟩] : List Edge)).map (fun e => g.infoAt e.dest)) from
          List.map_congr_left (fun e _ => hinfo1 e.dest),
        List.map_append, List.nodup_append]
      refine ⟨hinv x (by rw [hsizeg'] at hx; exact hx), by simp, ?_⟩
      intro a ha hb
      simp only [List.map_cons, List.map_nil, List.mem_singleton] at hb
      rcases List.mem_map.1 ha with ⟨e, he, hea⟩
      exact hnotin e he (by rw [hea, hb])
    · rw [hadj1ne x hxi,
        show ((g.adjOf x).map (fun e => g1.infoAt e.dest)) =
          ((g.adjOf x).map (fun e => g.infoAt e.dest)) from
          List.map_congr_left (fun e _ => hinfo1 e.dest)]
      exact hinv x (by rw [hsizeg'] at hx; exact hx)

/-- C2 counterexample: a repeated `Graph::addEdge` for the same ordered pair
is not a no-op — it appends a parallel edge, breaking the claimed
invariant. -/
theorem C2_addEdge_appends_and_parse_preserves_counterexample :
    (((twoAirportGraph.addEdge 0 1 0).2.addEdge 0 1 0).2.adjOf 0 =
      [⟨1, 0, ∅⟩, ⟨1, 0, ∅⟩]) ∧
    ¬ ((twoAirportGraph.addEdge 0 1 0).2.addEdge 0 1 0).2.atMostOnePerPair := by
  refine ⟨by decide, by decide⟩

theorem C2_addEdge_appends_and_parse_preserves_witness :
    parsedOnceGraph.atMostOnePerPair :=
  (C2_addEdge_appends_and_parse_preserves (α := ℕ)).2 twoAirportGraph 0 1 "AA" 0
    parsedOnceGraph (by decide) (by decide)

theorem getLast_getD_of_ne_nil {β : Type} (l : List β) (h : l ≠ []) (d d' : β) :
    (l.getLast?).getD d = (l.getLast?).getD d' := by
  rw [List.getLast?_eq_getLast l h]
  rfl

theorem getLastD_cons {β : Type} (a d : β) (l : List β) :
    ((a :: l).getLast?).getD d = (l.getLast?).getD a := by
  cases l with
  | nil => rfl
  | cons b bs =>
    rw [List.getLast?_cons_cons]
    exact getLast_getD_of_ne_nil (b :: bs) (by simp) d a

theorem topKAux_phase2 {α : Type} (k : ℤ) :
    ∀ (vs : List (Vertex α)) (i : ℕ) (last : ℤ), ¬ ((i : ℤ) < k) →
      topKAux k i last vs =
        (vs.takeWhile (fun v => totalFlights v == last)).map
          (fun v => (v.info, totalFlights v)) := by
  intro vs
  induction vs with
  | nil => intro i last _; rfl
  | cons v vs ih =>
    intro i last hik
    by_cases htf : totalFlights v = last
    · simp only [topKAux, if_pos (Or.inr htf)]
      rw [ih (i + 1) (totalFlights v) (by push_cast at hik ⊢; omega), htf,
        List.takeWhile_cons_of_pos (by simp [htf]), List.map_cons, htf]
    · have hcond : ¬ ((i : ℤ) < k ∨ totalFlights v = last) := by
        push_neg
        exact ⟨le_of_not_lt hik, htf⟩
      simp only [topKAux, if_neg hcond]
      rw [List.takeWhile_cons_of_neg (by simp [htf]), List.map_nil]

theorem topKAux_phase1 {α : Type} (k : ℕ) :
    ∀ (vs : List (Vertex α)) (i : ℕ) (last : ℤ), i < k →
      topKAux (k : ℤ) i last vs =
        (vs.take (k - i)).map (fun v => (v.info, totalFlights v)) ++
        ((vs.drop (k - i)).takeWhile (fun v =>
          totalFlights v == ((vs.take (k - i)).map totalFlights).getLast?.getD last)).map
          (fun v => (v.info, totalFlights v)) := by
  intro vs
  induction vs with
  | nil =>
    intro i last _
    simp [topKAux]
  | cons v vs ih =>
    intro i last hik
    have hcond : (i : ℤ) < (k : ℤ) := by exact_mod_cast hik
    simp only [topKAux, if_pos (Or.inl hcond)]
    have hki : k - i = (k - (i + 1)) + 1 := by omega
    by_cases hlt : i + 1 < k
    · rw [ih (i + 1) (totalFlights v) hlt, hki, List.take_succ_cons, List.drop_succ_cons,
        List.map_cons, List.cons_append, List.map_cons, getLastD_cons]
    · have hk1 : k - i = 1 := by omega
      have hnotlt : ¬ (((i + 1 : ℕ) : ℤ) < (k : ℤ)) := by push_cast; omega
      rw [topKAux_phase2 (k : ℤ) vs (i + 1) (totalFlights v) hnotlt, hk1,
        show ((v :: vs).take 1) = [v] from rfl, show ((v :: vs).drop 1) = vs from rfl]
      simp

theorem topKAux_take {α : Type} (k : ℤ) :
    ∀ (vs : List (Vertex α)) (i : ℕ) (last : ℤ),
      ∃ m, topKAux k i last vs = (vs.take m).map (fun v => (v.info, totalFlights v)) := by
  intro vs
  induction vs with
  | nil => intro i last; exact ⟨0, rfl⟩
  | cons v vs ih =>
    intro i last
    by_cases hcond : (i : ℤ) < k ∨ totalFlights v = last
    · obtain ⟨m, hm⟩ := ih (i + 1) (totalFlights v)
      refine ⟨m + 1, ?_⟩
      simp only [topKAux, if_pos hcond, List.take_succ_cons, List.map_cons]
      rw [hm]
    · exact ⟨0, by simp only [topKAux, if_neg hcond]; rfl⟩

theorem mem_insertByKeyDesc {α : Type} (key : α → ℤ) (x : α) :
    ∀ (l : List α) (z : α), z ∈ insertByKeyDesc key x l ↔ z = x ∨ z ∈ l := by
  intro l
  induction l with
  | nil => intro z; simp [insertByKeyDesc]
  | cons y ys ih =>
    intro z
    by_cases hxy : key y < key x
    · simp [insertByKeyDesc, if_pos hxy]
    · simp only [insertByKeyDesc, if_neg hxy, List.mem_cons, ih z]
      tauto

theorem insertByKeyDesc_sorted {α : Type} (key : α → ℤ) (x : α) :
    ∀ (l : List α), l.Pairwise (fun a b => key b ≤ key a) →
      (insertByKeyDesc key x l).Pairwise (fun a b => key b ≤ key a) := by
  intro l
  induction l with
  | nil => intro _; simp [insertByKeyDesc]
  | cons y ys ih =>
    intro h
    obtain ⟨hy, hys⟩ := List.pairwise_cons.1 h
    by_cases hxy : key y < key x
    · simp only [insertByKeyDesc, if_pos hxy]
      refine List.pairwise_cons.2 ⟨?_, h⟩
      intro z hz
      rcases List.mem_cons.1 hz with hz | hz
      · rw [hz]
        exact le_of_lt hxy
      · exact le_trans (hy z hz) (le_of_lt hxy)
    · simp only [insertByKeyDesc, if_neg hxy]
      refine List.pairwise_cons.2 ⟨?_, ih hys⟩
      intro z hz
      rcases (mem_insertByKeyDesc key x ys z).1 hz with hz | hz
      · rw [hz]
        exact le_of_not_lt hxy
      · exact hy z hz

theorem sortByKeyDesc_sorted {α : Type} (key : α → ℤ) :
    ∀ (l : List α), (sortByKeyDesc key l).Pairwise (fun a b => key b ≤ key a) := by
  intro l
  induction l with
  | nil => simp [sortByKeyDesc]
  | cons x xs ih => exact insertByKeyDesc_sorted key x _ ih

/-- C3 (amended: the tie extension is with the K-th value itself, so for
volumes `[10,10,8,8,5]` and `K = 2` the result is the two volume-10 nodes —
2 results, not 4).  For `k ≥ 1` the query returns the first `k` entries of
the descending-sorted vertex list followed by exactly the further entries
tied with the `k`-th total, and the returned totals are in descending
order. -/
theorem C3_topK_first_k_plus_ties {α : Type} (g : Graph α) (k : ℕ) (hk : 1 ≤ k) :
    Consult.searchTopKAirportGreatestAirTrafficCapacity g (k : ℤ) =
      ((sortByKeyDesc totalFlights g.vertexSet).take k).map
        (fun v => (v.info, totalFlights v)) ++
      (((sortByKeyDesc totalFlights g.vertexSet).drop k).takeWhile (fun v =>
        totalFlights v ==
          (((sortByKeyDesc totalFlights g.vertexSet).take k).map
            totalFlights).getLast?.getD 0)).map (fun v => (v.info, totalFlights v)) ∧
    ((Consult.searchTopKAirportGreatestAirTrafficCapacity g (k : ℤ)).map Prod.snd).Pairwise
      (fun a b => b ≤ a) := by
  constructor
  · have h := topKAux_phase1 k (sortByKeyDesc totalFlights g.vertexSet) 0 0 hk
    simpa [Consult.searchTopKAirportGreatestAirTrafficCapacity] using h
  · obtain ⟨m, hm⟩ := topKAux_take (k : ℤ) (sortByKeyDesc totalFlights g.vertexSet) 0 0
    show ((topKAux (k : ℤ) 0 0 (sortByKeyDesc totalFlights g.vertexSet)).map
      Prod.snd).Pairwise (fun a b => b ≤ a)
    rw [hm, List.map_map]
    refine List.pairwise_map.2 ?_
    exact List.Pairwise.sublist (List.take_sublist m _)
      (sortByKeyDesc_sorted totalFlights g.vertexSet)

/-- C3 counterexample: for traffic volumes `[10,10,8,8,5]` and `K = 2` the
query returns the two volume-10 entries only — 2 results, not the 4 the
claim demands. -/
theorem C3_topK_first_k_plus_ties_counterexample :
    (Consult.searchTopKAirportGreatestAirTrafficCapacity trafficGraph 2).map Prod.snd =
      [10, 10] ∧
    (Consult.searchTopKAirportGreatestAirTrafficCapacity trafficGraph 2).length = 2 ∧
    (Consult.searchTopKAirportGreatestAirTrafficCapacity trafficGraph 2).length ≠ 4 := by
  refine ⟨by decide, by decide, by decide⟩

theorem C3_topK_first_k_plus_ties_witness :
    Consult.searchTopKAirportGreatestAirTrafficCapacity trafficGraph ((2 : ℕ) : ℤ) =
      ((sortByKeyDesc totalFlights trafficGraph.vertexSet).take 2).map
        (fun v => (v.info, totalFlights v)) ++
      (((sortByKeyDesc totalFlights trafficGraph.vertexSet).drop 2).takeWhile (fun v =>
        totalFlights v ==
          (((sortByKeyDesc totalFlights trafficGraph.vertexSet).take 2).map
            totalFlights).getLast?.getD 0)).map (fun v => (v.info, totalFlights v)) ∧
    ((Consult.searchTopKAirportGreatestAirTrafficCapacity trafficGraph ((2 : ℕ) : ℤ)).map
      Prod.snd).Pairwise (fun a b => b ≤ a) :=
  C3_topK_first_k_plus_ties trafficGraph 2 (by decide)

theorem mem_crossMerge {β : Type} [DecidableEq β] :
    ∀ (as bs : List (List β)) (p : List β), p ∈ crossMerge as bs →
      ∃ a ∈ as, ∃ b ∈ bs, p = mergeVectors a b := by
  intro as
  induction as with
  | nil => intro bs p hp; cases hp
  | cons a as ih =>
    intro bs p hp
    rcases List.mem_append.1 hp with hp | hp
    · rcases List.mem_map.1 hp with ⟨b, hb, hpb⟩
      exact ⟨a, List.mem_cons_self _ _, b, hb, hpb.symm⟩
    · obtain ⟨a', ha', b, hb, hpb⟩ := ih bs p hp
      exact ⟨a', List.mem_cons_of_mem _ ha', b, hb, hpb⟩

theorem getLast?_append_right {β : Type} (l1 l2 : List β) (h : l2 ≠ []) :
    (l1 ++ l2).getLast? = l2.getLast? := by
  induction l1 with
  | nil => rfl
  | cons x xs ih =>
    cases hxl : xs ++ l2 with
    | nil =>
      exact absurd (List.append_eq_nil.1 hxl).2 h
    | cons z zs =>
      rw [List.cons_append, hxl, List.getLast?_cons_cons, ← hxl, ih]

/-- Merging two aligned, source-first/target-last segments yields an
aligned, source-first/target-last composition. -/
theorem merged_shape {s c t : ℕ} {a b : List ℕ}
    (ha1 : a.head? = some s) (ha2 : a.getLast? = some c) (ha3 : 2 ≤ a.length)
    (hb1 : b.head? = some c) (hb2 : b.getLast? = some t) (hb3 : 2 ≤ b.length) :
    (mergeVectors a b).head? = some s ∧ (mergeVectors a b).getLast? = some t ∧
      2 ≤ (mergeVectors a b).length := by
  have hane : a ≠ [] := by
    intro h
    rw [h] at ha2
    cases ha2
  have hbne : b ≠ [] := by
    intro h
    rw [h] at hb1
    cases hb1
  have hal : a.getLast hane = c := by
    have := List.getLast?_eq_getLast a hane
    rw [ha2] at this
    exact (Option.some_inj.1 this).symm
  have hbh : b.head hbne = c := by
    have := List.head?_eq_head hbne
    rw [hb1] at this
    exact (Option.some_inj.1 this).symm
  rw [mergeVectors_aligned a b hane hbne (by rw [hal, hbh])]
  obtain ⟨x, y, bs, hb⟩ : ∃ x y bs, b = x :: y :: bs := by
    cases b with
    | nil => exact absurd rfl hbne
    | cons x b' =>
      cases b' with
      | nil => simp at hb3
      | cons y bs => exact ⟨x, y, bs, rfl⟩
  refine ⟨?_, ?_, ?_⟩
  · rw [head?_append_left _ hane]
    exact ha1
  · rw [hb]
    rw [show ((x :: y :: bs).tail) = y :: bs from rfl, getLast?_append_right a (y :: bs) (by simp)]
    rw [hb, List.getLast?_cons_cons] at hb2
    exact hb2
  · rw [List.length_append]
    omega

theorem layoverChain_shape {α : Type} (g : Graph α) (s : ℕ) :
    ∀ (ls : List ℕ) (temp : List (List ℕ)) (cur : ℕ),
      (∀ a ∈ temp, a.head? = some s ∧ a.getLast? = some cur ∧ 2 ≤ a.length) →
      ∀ p ∈ (layoverChain g temp cur ls).1,
        p.head? = some s ∧ p.getLast? = some (layoverChain g temp cur ls).2 ∧
          2 ≤ p.length := by
  intro ls
  induction ls with
  | nil =>
    intro temp cur htemp p hp
    exact htemp p hp
  | cons l ls ih =>
    intro temp cur htemp
    refine ih _ l ?_
    intro a ha
    obtain ⟨a0, ha0, b, hb, hab⟩ := mem_crossMerge _ _ a ha
    obtain ⟨h1, h2, h3⟩ := htemp a0 ha0
    obtain ⟨h4, h5, h6⟩ := searchSmallestPath_shape g cur l b hb
    rw [hab]
    exact merged_shape h1 h2 h3 h4 h5 h6

/-- C5: misaligned compositions collapse to the empty vector in
`mergeVectors`, and — the segment lists all being shortest-path results,
whose paths run endpoint to endpoint — every candidate the custom-layover
query builds is a nonempty aligned composition from the source to the
destination. -/
theorem C5_candidates_wellformed {α : Type} (g : Graph α) (src l0 : ℕ) (rest : List ℕ)
    (dst : ℕ) :
    (∀ (a b : List ℕ) (h1 : a ≠ []) (h2 : b ≠ []), a.getLast h1 ≠ b.head h2 →
      mergeVectors a b = []) ∧
    (∀ p ∈ Script.getBestPathsCustomLayoversCandidates g src l0 rest dst,
      p ≠ [] ∧ p.head? = some src ∧ p.getLast? = some dst ∧ 2 ≤ p.length) := by
  refine ⟨fun a b h1 h2 h => mergeVectors_misaligned a b h1 h2 h, ?_⟩
  intro p hp
  obtain ⟨a, ha, b, hb, hab⟩ := mem_crossMerge _ _ p hp
  have hchain := layoverChain_shape g src rest
    (Consult.searchSmallestPathBetweenAirports g src l0).1 l0
    (fun a ha => searchSmallestPath_shape g src l0 a ha) a ha
  obtain ⟨h1, h2, h3⟩ := hchain
  obtain ⟨h4, h5, h6⟩ := searchSmallestPath_shape g _ dst b hb
  obtain ⟨hh, hl, hlen⟩ := merged_shape h1 h2 h3 h4 h5 h6
  rw [hab]
  refine ⟨?_, hh, hl, hlen⟩
  intro hnil
  rw [hnil] at hlen
  simp at hlen

theorem C5_candidates_wellformed_witness :
    ([0, 1] : List ℕ).getLast (by decide) ≠ ([0, 1] : List ℕ).head (by decide) ∧
    mergeVectors ([0, 1] : List ℕ) [0, 1] = [] ∧
    [0, 1, 0, 1] ∈
      Script.getBestPathsCustomLayoversCandidates twoCycleGraph 0 1 [0] 1 ∧
    ([0, 1, 0, 1] : List ℕ) ≠ [] ∧
    ([0, 1, 0, 1] : List ℕ).head? = some 0 ∧
    ([0, 1, 0, 1] : List ℕ).getLast? = some 1 := by
  refine ⟨by decide, ?_, by decide, ?_⟩
  · exact (C5_candidates_wellformed twoCycleGraph 0 1 [0] 1).1 [0, 1] [0, 1]
      (by decide) (by decide) (by decide)
  · have h := (C5_candidates_wellformed twoCycleGraph 0 1 [0] 1).2 [0, 1, 0, 1]
      (by decide)
    exact ⟨h.1, h.2.1, h.2.2.1⟩

theorem dfsEA_zero {α : Type} (g : Graph α) (res : Finset ℕ) (i : ℤ) (v : ℕ) :
    dfsEA 0 g res i v = (g, res, i) := rfl

theorem dfsEA_succ {α : Type} (fuel : ℕ) (g : Graph α) (res : Finset ℕ) (i : ℤ)
    (v : ℕ) :
    dfsEA (fuel + 1) g res i v =
      (let g1 := g.updVtx v (fun w =>
        { w with visited := true, processing := true, num := i, low := i })
       let r := dfsEAEdges (dfsEA fuel) g1 res (i + 1) v 0 (g1.adjOf v)
       (r.1.updVtx v (fun w => { w with processing := false }), r.2)) := rfl

theorem updateAt_map_range {β : Type} (f : ℕ → β) (h : β → β) (n i : ℕ) :
    updateAt h ((List.range n).map f) i =
      (List.range n).map (fun m => if m = i then h (f m) else f m) := by
  apply List.ext_getElem?
  intro m
  by_cases hmn : m < n
  · have hr : (List.range n)[m]? = some m := by
      simp [List.getElem?_range, hmn]
    by_cases hmi : m = i
    · subst hmi
      rw [updateAt_getElem?_self, List.getElem?_map, List.getElem?_map, hr]
      simp
    · rw [updateAt_getElem?_ne _ _ _ _ hmi, List.getElem?_map, List.getElem?_map, hr]
      simp [hmi]
  · have hr : (List.range n)[m]? = none := by
      rw [List.getElem?_eq_none]
      simpa using Nat.le_of_not_lt hmn
    by_cases hmi : m = i
    · subst hmi
      rw [updateAt_getElem?_self, List.getElem?_map, List.getElem?_map, hr]
      rfl
    · rw [updateAt_getElem?_ne _ _ _ _ hmi, List.getElem?_map, List.getElem?_map, hr]
      rfl

theorem Graph.updVtx_map_range (f : ℕ → Vertex ℕ) (n i : ℕ) (h : Vertex ℕ → Vertex ℕ) :
    (⟨(List.range n).map f⟩ : Graph ℕ).updVtx i h =
      ⟨(List.range n).map (fun m => if m = i then h (f m) else f m)⟩ := by
  unfold Graph.updVtx
  rw [updateAt_map_range]

theorem graph_map_range_congr (f1 f2 : ℕ → Vertex ℕ) (n : ℕ)
    (h : ∀ m < n, f1 m = f2 m) :
    (⟨(List.range n).map f1⟩ : Graph ℕ) = ⟨(List.range n).map f2⟩ := by
  congr 1
  apply List.map_congr_left
  intro m hm
  exact h m (List.mem_range.1 hm)

theorem getVtx_map_range (f : ℕ → Vertex ℕ) (n i : ℕ) (h : i < n) :
    (⟨(List.range n).map f⟩ : Graph ℕ).getVtx i = some (f i) := by
  simp [Graph.getVtx, List.getElem?_map, List.getElem?_range, h]

theorem size_map_range (f : ℕ → Vertex ℕ) (n : ℕ) :
    (⟨(List.range n).map f⟩ : Graph ℕ).size = n := by
  simp [Graph.size]

theorem cycleGraph_eq_cycStA (n : ℕ) : cycleGraph n = cycStA n 0 := by
  unfold cycleGraph cycStA
  refine graph_map_range_congr _ _ n ?_
  intro m _
  simp [cycVtxA]

theorem cycStA_adjOf (n j' j : ℕ) (h : j < n) : (cycStA n j').adjOf j = cycAdj n j := by
  unfold cycStA
  rw [Graph.adjOf, getVtx_map_range _ n j h]
  rfl

theorem cycStA_visitedAt (n j' m : ℕ) (h : m < n) :
    (cycStA n j').visitedAt m = decide (m < j') := by
  unfold cycStA
  rw [Graph.visitedAt, getVtx_map_range _ n m h]
  rfl

theorem cycStA_processingAt (n j' m : ℕ) (h : m < n) :
    (cycStA n j').processingAt m = decide (m < j') := by
  unfold cycStA
  rw [Graph.processingAt, getVtx_map_range _ n m h]
  rfl

theorem cycStA_numAt (n j' m : ℕ) (h : m < n) :
    (cycStA n j').numAt m = if m < j' then (m : ℤ) else 0 := by
  unfold cycStA
  rw [Graph.numAt, getVtx_map_range _ n m h]
  rfl

theorem cycStB_visitedAt (n j' m : ℕ) (h : m < n) :
    (cycStB n j').visitedAt m = true := by
  unfold cycStB
  rw [Graph.visitedAt, getVtx_map_range _ n m h]
  rfl

theorem cycStB_lowAt (n j' m : ℕ) (h : m < n) :
    (cycStB n j').lowAt m = if m < j' then (m : ℤ) else 0 := by
  unfold cycStB
  rw [Graph.lowAt, getVtx_map_range _ n m h]
  rfl

theorem cycStA_mark (n j : ℕ) :
    (cycStA n j).updVtx j (fun w =>
      { w with visited := true, processing := true, num := (j : ℤ), low := (j : ℤ) }) =
      cycStA n (j + 1) := by
  unfold cycStA
  rw [Graph.updVtx_map_range]
  refine graph_map_range_congr _ _ n ?_
  intro m _
  by_cases hmj : m = j
  · subst hmj
    simp [cycVtxA, Nat.lt_succ_self]
  · have hiff : m < j ↔ m < j + 1 := by omega
    simp [cycVtxA, hmj, hiff]

theorem dfsEA_cycle {n : ℕ} (hn : 3 ≤ n) :
    ∀ (fuel : ℕ) (j : ℕ) (res : Finset ℕ), 1 ≤ j → j < n → n - j ≤ fuel →
      dfsEA fuel (cycStA n j) res (j : ℤ) j = (cycStB n j, res, (n : ℤ)) := by
  intro fuel
  induction fuel with
  | zero =>
    intro j res h1 h2 h3
    omega
  | succ fuel ih =>
    intro j res h1 h2 h3
    rw [dfsEA_succ]
    simp only []
    rw [cycStA_mark n j, cycStA_adjOf n (j + 1) j (by omega)]
    by_cases hje : j + 1 = n
    · -- the deepest vertex: its successor 0 is visited and still processing
      have hdest : (j + 1) % n = 0 := by rw [hje, Nat.mod_self]
      rw [show cycAdj n j = [⟨0, 0, ∅⟩] from by rw [cycAdj, hdest]]
      have hvis : (cycStA n (j + 1)).visitedAt 0 = true := by
        rw [cycStA_visitedAt n (j + 1) 0 (by omega)]
        simp
      have hproc : (cycStA n (j + 1)).processingAt 0 = true := by
        rw [cycStA_processingAt n (j + 1) 0 (by omega)]
        simp
      have hnum : (cycStA n (j + 1)).numAt 0 = 0 := by
        rw [cycStA_numAt n (j + 1) 0 (by omega)]
        simp
      simp only [dfsEAEdges, hvis, hproc, hnum]
      rw [if_neg (show ¬ (true = false) from by simp), if_pos trivial]
      simp only [dfsEAEdges]
      rw [show cycStA n (j + 1) = ⟨(List.range n).map (cycVtxA n (j + 1))⟩ from rfl,
        Graph.updVtx_map_range, Graph.updVtx_map_range]
      simp only [Prod.mk.injEq]
      refine ⟨?_, trivial, by omega⟩
      show (⟨(List.range n).map _⟩ : Graph ℕ) = cycStB n j
      rw [show cycStB n j = ⟨(List.range n).map (cycVtxB n j)⟩ from rfl]
      refine graph_map_range_congr _ _ n ?_
      intro m hm
      by_cases hmj : m = j
      · subst hmj
        simp only [if_pos rfl]
        have hmin : min ((m : ℤ)) 0 = 0 := min_eq_right (by positivity)
        simp [cycVtxA, cycVtxB, Nat.lt_succ_self, hmin]
      · have hmltj : m < j := by omega
        have hiff : m < j + 1 ↔ m < j := by omega
        simp [cycVtxA, cycVtxB, hmj, hiff, hmltj]
    · -- an inner vertex: recurse into its successor
      have hjlt : j + 1 < n := by omega
      have hdest : (j + 1) % n = j + 1 := Nat.mod_eq_of_lt hjlt
      rw [show cycAdj n j = [⟨j + 1, 0, ∅⟩] from by rw [cycAdj, hdest]]
      have hvis : (cycStA n (j + 1)).visitedAt (j + 1) = false := by
        rw [cycStA_visitedAt n (j + 1) (j + 1) hjlt]
        simp
      simp only [dfsEAEdges, hvis]
      rw [if_pos trivial]
      rw [show ((j : ℤ) + 1) = ((j + 1 : ℕ) : ℤ) from by push_cast; ring,
        ih (j + 1) res (by omega) hjlt (by omega)]
      have hlow : (cycStB n (j + 1)).lowAt (j + 1) = 0 := by
        rw [cycStB_lowAt n (j + 1) (j + 1) hjlt]
        simp
      rw [hlow]
      rw [show cycStB n (j + 1) = ⟨(List.range n).map (cycVtxB n (j + 1))⟩ from rfl,
        Graph.updVtx_map_range]
      have hnumj : (⟨(List.range n).map (fun m =>
          if m = j then (fun w => { w with low := min w.low 0 }) (cycVtxB n (j + 1) m)
          else cycVtxB n (j + 1) m)⟩ : Graph ℕ).numAt j = (j : ℤ) := by
        rw [Graph.numAt, getVtx_map_range _ n j (by omega)]
        simp [cycVtxB]
      rw [hnumj]
      rw [if_neg (by push_cast; omega)]
      simp only [dfsEAEdges]
      rw [Graph.updVtx_map_range]
      simp only [Prod.mk.injEq]
      refine ⟨?_, by simp⟩
      rw [show cycStB n j = ⟨(List.range n).map (cycVtxB n j)⟩ from rfl]
      refine graph_map_range_congr _ _ n ?_
      intro m hm
      by_cases hmj : m = j
      · subst hmj
        simp only [if_pos rfl]
        have hmin : min ((m : ℤ)) 0 = 0 := min_eq_right (by positivity)
        simp [cycVtxB, Nat.lt_succ_self, hmin]
      · have hiff : m < j + 1 ↔ m < j := by omega
        simp only [if_neg hmj]
        simp [cycVtxB, hiff]

theorem cycStA_mark0 (n : ℕ) :
    (cycStA n 0).updVtx 0 (fun w =>
      { w with visited := true, processing := true, num := (0 : ℤ), low := (0 : ℤ) }) =
      cycStA n 1 := by
  have h := cycStA_mark n 0
  simpa using h

theorem dfsEA_cycle_root {n : ℕ} (hn : 3 ≤ n) (fuel : ℕ) (res : Finset ℕ)
    (hfuel : n - 1 ≤ fuel) :
    dfsEA (fuel + 1) (cycStA n 0) res 0 0 = (cycStB n 0, res, (n : ℤ)) := by
  rw [dfsEA_succ]
  simp only []
  rw [cycStA_mark0 n, cycStA_adjOf n 1 0 (by omega)]
  have hdest : (0 + 1) % n = 1 := Nat.mod_eq_of_lt (by omega)
  rw [show cycAdj n 0 = [⟨1, 0, ∅⟩] from by rw [cycAdj, hdest]]
  have hvis : (cycStA n 1).visitedAt 1 = false := by
    rw [cycStA_visitedAt n 1 1 (by omega)]
    simp
  simp only [dfsEAEdges, hvis]
  rw [if_pos trivial]
  rw [show ((0 : ℤ) + 1) = ((1 : ℕ) : ℤ) from by norm_num,
    dfsEA_cycle hn fuel 1 res (by omega) (by omega) (by omega)]
  have hlow : (cycStB n 1).lowAt 1 = 0 := by
    rw [cycStB_lowAt n 1 1 (by omega)]
    simp
  rw [hlow]
  rw [show cycStB n 1 = ⟨(List.range n).map (cycVtxB n 1)⟩ from rfl,
    Graph.updVtx_map_range]
  have hnum0 : (⟨(List.range n).map (fun m =>
      if m = 0 then (fun w => { w with low := min w.low 0 }) (cycVtxB n 1 m)
      else cycVtxB n 1 m)⟩ : Graph ℕ).numAt 0 = (0 : ℤ) := by
    rw [Graph.numAt, getVtx_map_range _ n 0 (by omega)]
    simp [cycVtxB]
  rw [hnum0]
  rw [if_neg (by omega)]
  simp only [dfsEAEdges]
  rw [Graph.updVtx_map_range]
  simp only [Prod.mk.injEq]
  refine ⟨?_, by simp⟩
  rw [show cycStB n 0 = ⟨(List.range n).map (cycVtxB n 0)⟩ from rfl]
  refine graph_map_range_congr _ _ n ?_
  intro m hm
  by_cases hm0 : m = 0
  · subst hm0
    simp [cycVtxB, min_self]
  · have hiff : m < 1 ↔ m < 0 := by omega
    simp only [if_neg hm0]
    simp [cycVtxB, hiff]

theorem eaOuter_all_visited {α : Type} :
    ∀ (vs : List ℕ) (g : Graph α) (res : Finset ℕ) (i : ℤ),
      (∀ v ∈ vs, g.visitedAt v = true) → eaOuter g res i vs = (g, res, i) := by
  intro vs
  induction vs with
  | nil => intro g res i _; rfl
  | cons v vs ih =>
    intro g res i h
    have hv := h v (List.mem_cons_self _ _)
    simp only [eaOuter, hv]
    rw [if_neg (by simp)]
    exact ih g res i (fun w hw => h w (List.mem_cons_of_mem _ hw))

/-- C6: on a single directed cycle of `n ≥ 3` vertices the articulation-point
query `searchEssentialAirports` returns the empty set: the lone DFS walks the
cycle, every back edge closes to the root giving every vertex `low = 0`, so
neither the root rule (`≥ 2` children) nor the non-root rule
(`child.low ≥ v.num`) ever fires. -/
theorem C6_cycle_no_essential_airports (n : ℕ) (hn : 3 ≤ n) :
    (Consult.searchEssentialAirports (cycleGraph n)).1 = ∅ := by
  have hreset : (cycleGraph n).resetVisited = cycStA n 0 := by
    rw [cycleGraph_eq_cycStA]
    unfold Graph.resetVisited cycStA
    rw [List.map_map]
    congr 1
  have hsize2 : (cycStA n 0).size = n := by
    unfold cycStA
    exact size_map_range _ n
  unfold Consult.searchEssentialAirports
  rw [hreset]
  show (eaOuter (cycStA n 0) ∅ 0 (List.range (cycStA n 0).size)).2.1 = ∅
  rw [hsize2]
  obtain ⟨m, hm⟩ : ∃ m, n = m + 1 := ⟨n - 1, by omega⟩
  subst hm
  rw [List.range_succ_eq_map]
  have hvis0 : (cycStA (m + 1) 0).visitedAt 0 = false := by
    rw [cycStA_visitedAt _ _ _ (by omega)]
    simp
  simp only [eaOuter, hvis0]
  rw [if_pos trivial, hsize2, dfsEA_cycle_root hn (m + 1) ∅ (by omega)]
  rw [eaOuter_all_visited _ _ _ _ ?_]
  · intro v hv
    rcases List.mem_map.1 hv with ⟨k, hk, hkv⟩
    have hklt : k < m := List.mem_range.1 hk
    rw [← hkv]
    exact cycStB_visitedAt (m + 1) 0 (Nat.succ k) (by omega)

theorem C6_cycle_no_essential_airports_witness :
    (Consult.searchEssentialAirports (cycleGraph 3)).1 = ∅ :=
  C6_cycle_no_essential_airports 3 (by decide)

theorem dfsEAEdges_core {α : Type}
    (rec : Graph α → Finset ℕ → ℤ → ℕ → Graph α × Finset ℕ × ℤ)
    (hrec : ∀ g res i v, (rec g res i v).1.core = g.core) :
    ∀ (es : List Edge) (g : Graph α) (res : Finset ℕ) (i : ℤ) (v c : ℕ),
      (dfsEAEdges rec g res i v c es).1.core = g.core := by
  intro es
  induction es with
  | nil => intro g res i v c; rfl
  | cons e es ih =>
    intro g res i v c
    by_cases hv : g.visitedAt e.dest = false
    · simp only [dfsEAEdges, if_pos hv]
      rw [ih, Graph.core_updVtx ((rec g res i e.dest).1) v
        (fun w => { w with low := min w.low ((rec g res i e.dest).1.lowAt e.dest) })
        (fun w => ⟨rfl, rfl, rfl, rfl, rfl, rfl⟩)]
      exact hrec g res i e.dest
    · simp only [dfsEAEdges, if_neg hv]
      by_cases hp : g.processingAt e.dest
      · rw [if_pos hp, ih, Graph.core_updVtx g v
          (fun w => { w with low := min w.low (g.numAt e.dest) })
          (fun w => ⟨rfl, rfl, rfl, rfl, rfl, rfl⟩)]
      · rw [if_neg hp, ih]

theorem dfsEA_core {α : Type} :
    ∀ (fuel : ℕ) (g : Graph α) (res : Finset ℕ) (i : ℤ) (v : ℕ),
      (dfsEA fuel g res i v).1.core = g.core := by
  intro fuel
  induction fuel with
  | zero => intro g res i v; rfl
  | succ fuel ih =>
    intro g res i v
    rw [dfsEA_succ]
    simp only []
    rw [Graph.core_updVtx _ v (fun w => { w with processing := false })
      (fun w => ⟨rfl, rfl, rfl, rfl, rfl, rfl⟩),
      dfsEAEdges_core (dfsEA fuel) ih,
      Graph.core_updVtx g v
        (fun w => { w with visited := true, processing := true, num := i, low := i })
        (fun w => ⟨rfl, rfl, rfl, rfl, rfl, rfl⟩)]

theorem eaOuter_core {α : Type} :
    ∀ (vs : List ℕ) (g : Graph α) (res : Finset ℕ) (i : ℤ),
      (eaOuter g res i vs).1.core = g.core := by
  intro vs
  induction vs with
  | nil => intro g res i; rfl
  | cons v vs ih =>
    intro g res i
    by_cases hv : g.visitedAt v = false
    · simp only [eaOuter, if_pos hv]
      rw [ih, dfsEA_core]
    · simp only [eaOuter, if_neg hv]
      exact ih g res i

theorem searchEssentialAirports_core {α : Type} (g : Graph α) :
    (Consult.searchEssentialAirports g).2.core = g.core := by
  unfold Consult.searchEssentialAirports
  rw [eaOuter_core, Graph.core_resetVisited]

/-- C9 (amended): both traversal queries leave the persistent Graph Store
data (payloads, adjacency, degree and flight counters) unchanged, and the
shortest-path query's output is independent of any pre-existing visited
flag, because the flags are reset for the full node set at entry; but the
final clause of the claim is false — the visited flags are left set, not
cleared, when the query returns (see the counterexample). -/
theorem C9_queries_preserve_graph {α : Type} (g : Graph α) (source target i0 : ℕ)
    (b : Bool) :
    (Consult.searchSmallestPathBetweenAirports g source target).2.core = g.core ∧
    Consult.searchSmallestPathBetweenAirports (g.setVisited i0 b) source target =
      Consult.searchSmallestPathBetweenAirports g source target ∧
    (Consult.searchEssentialAirports g).2.core = g.core :=
  ⟨searchSmallestPath_core g source target,
    searchSmallestPath_stale_flags g source target i0 b,
    searchEssentialAirports_core g⟩

/-- C9 counterexample: after the shortest-path query returns, the visited
flags of the vertices it reached are still `true`, not cleared. -/
theorem C9_queries_preserve_graph_counterexample :
    (Consult.searchSmallestPathBetweenAirports twoCycleGraph 0 1).2.visitedAt 0 = true := by
  decide

/-- C7 (amended): with source = target the query never returns the trivial
one-node path `[A]`: every path it returns starts and ends at `A` and has at
least two nodes (a genuine round trip through the graph), and on a vertex
with no cycle through it the result is empty (see the counterexample). -/
theorem C7_self_query_no_trivial_path {α : Type} (g : Graph α) (A : ℕ) :
    ∀ p ∈ (Consult.searchSmallestPathBetweenAirports g A A).1,
      p.head? = some A ∧ p.getLast? = some A ∧ 2 ≤ p.length :=
  searchSmallestPath_shape g A A

/-- C7 counterexample: on an isolated vertex the self-query returns no path
at all, not the claimed single one-node path `[A]`. -/
theorem C7_self_query_no_trivial_path_counterexample :
    (Consult.searchSmallestPathBetweenAirports singleAirportGraph 0 0).1 = [] ∧
    (Consult.searchSmallestPathBetweenAirports singleAirportGraph 0 0).1 ≠ [[0]] := by
  refine ⟨by decide, by decide⟩

theorem C7_self_query_no_trivial_path_witness :
    [0, 1, 0] ∈ (Consult.searchSmallestPathBetweenAirports twoCycleGraph 0 0).1 ∧
    ([0, 1, 0] : List ℕ).head? = some 0 ∧ ([0, 1, 0] : List ℕ).getLast? = some 0 ∧
      2 ≤ ([0, 1, 0] : List ℕ).length :=
  ⟨by decide, C7_self_query_no_trivial_path twoCycleGraph 0 [0, 1, 0] (by decide)⟩

/-- C10: when the source vertex has no edge to any vertex carrying the
target's payload, the distance query returns `0` — indistinguishable from a
genuine zero-distance edge — so a caller summing per-leg distances gets a
`0` contribution for a missing leg instead of an error. -/
theorem C10_missing_edge_distance_zero {α : Type} [DecidableEq α] (g : Graph α)
    (source target : ℕ)
    (h : ∀ e ∈ g.adjOf source, g.infoAt e.dest ≠ g.infoAt target) :
    Consult.getDistanceBetweenAirports g source target = 0 :=
  getDistanceBetweenAirports_of_no_edge g source target h

theorem C10_missing_edge_distance_zero_witness :
    (∀ e ∈ diamondGraph.adjOf 1, diamondGraph.infoAt e.dest ≠ diamondGraph.infoAt 2) ∧
    Consult.getDistanceBetweenAirports diamondGraph 1 2 = 0 :=
  ⟨by decide, C10_missing_edge_distance_zero diamondGraph 1 2 (by decide)⟩
